import Mathlib

/-!
# pwdb: container format and one-time passwords

A shallow embedding of `pkg/pwdb/fileformat.go`, `pkg/pwdb/pwdb.go` and
`pkg/totp/totp.go`.

Conventions of the embedding:

* a Go `[]byte` or `string` is a `List Nat`; a byte is a natural number below 256;
* a Go call that can panic or leave through `os.Exit` returns `Res.crash`;
* the Go standard library routines the code calls (`fmt.Sscanf`, `fmt.Sprintf`,
  `utf8.DecodeRune`, `encoding/json`, `encoding/base32`, `cipher.NewCBCEncrypter`)
  are embedded from their documented behaviour, specialised to the arguments
  the code passes;
* SHA-1, SHA-256, HMAC and HKDF are embedded from their standards; the AES-256
  block function is a parameter, `Prims`, with the properties the proofs rely
  on in `Prims.Lawful`.
-/

namespace Pwdb

/-! ## Outcomes -/

/-- Errors the package returns to its caller. -/
inductive Error where
  | databaseEncrypted
  | invalidHMAC
  | invalidDatabase
  | jsonSyntax
  | jsonType
  | invalidSecret
  | base32
  | shortRead
  deriving DecidableEq, Repr

/-- Outcome of a call: a value, a returned error, or an abort (a Go panic or the
`os.Exit(1)` of `assertTrue` / `assertNoError`). -/
inductive Res (α : Type) where
  | ok : α → Res α
  | err : Error → Res α
  | crash : Res α
  deriving DecidableEq, Repr

/-! ## UTF-8 (`unicode/utf8`) -/

/-- The rune `utf8.RuneError` (U+FFFD). -/
def runeError : Nat := 0xFFFD

/-- Go `utf8.DecodeRune`: the first rune of `p` and its width in bytes.
`(runeError, 0)` for empty input, `(runeError, 1)` for an invalid or truncated
sequence. Masks are written as `%`, shifts as multiplications. -/
def decodeRune : List Nat → Nat × Nat
  | [] => (runeError, 0)
  | [b0] => if b0 < 0x80 then (b0, 1) else (runeError, 1)
  | b0 :: b1 :: rest =>
    if b0 < 0x80 then (b0, 1)
    else if 0xC2 ≤ b0 ∧ b0 ≤ 0xDF then
      if 0x80 ≤ b1 ∧ b1 ≤ 0xBF then ((b0 % 32) * 64 + b1 % 64, 2) else (runeError, 1)
    else if 0xE0 ≤ b0 ∧ b0 ≤ 0xEF then
      let lo := if b0 = 0xE0 then 0xA0 else 0x80
      let hi := if b0 = 0xED then 0x9F else 0xBF
      if lo ≤ b1 ∧ b1 ≤ hi then
        match rest with
        | b2 :: _ =>
          if 0x80 ≤ b2 ∧ b2 ≤ 0xBF then
            ((b0 % 16) * 4096 + (b1 % 64) * 64 + b2 % 64, 3)
          else (runeError, 1)
        | [] => (runeError, 1)
      else (runeError, 1)
    else if 0xF0 ≤ b0 ∧ b0 ≤ 0xF4 then
      let lo := if b0 = 0xF0 then 0x90 else 0x80
      let hi := if b0 = 0xF4 then 0x8F else 0xBF
      if lo ≤ b1 ∧ b1 ≤ hi then
        match rest with
        | b2 :: b3 :: _ =>
          if 0x80 ≤ b2 ∧ b2 ≤ 0xBF ∧ 0x80 ≤ b3 ∧ b3 ≤ 0xBF then
            ((b0 % 8) * 262144 + (b1 % 64) * 4096 + (b2 % 64) * 64 + b3 % 64, 4)
          else (runeError, 1)
        | _ => (runeError, 1)
      else (runeError, 1)
    else (runeError, 1)

/-- Go `utf8.EncodeRune` (`utf8.AppendRune`): surrogates and values above
U+10FFFF are written as U+FFFD. -/
def encodeRune (r : Nat) : List Nat :=
  if r < 0x80 then [r]
  else if r < 0x800 then [0xC0 + r / 64, 0x80 + r % 64]
  else if (0xD800 ≤ r ∧ r ≤ 0xDFFF) ∨ 0x10FFFF < r then [0xEF, 0xBF, 0xBD]
  else if r < 0x10000 then [0xE0 + r / 4096, 0x80 + (r / 64) % 64, 0x80 + r % 64]
  else [0xF0 + r / 262144, 0x80 + (r / 4096) % 64, 0x80 + (r / 64) % 64, 0x80 + r % 64]

/-! ## `fmt.Sprintf` and `fmt.Sscanf` for the format `"pwdb%08x"` -/

/-- Lower-case hexadecimal digit of a value below 16, as `%x` prints it. -/
def hexChar (d : Nat) : Nat := if d < 10 then 0x30 + d else 0x61 + (d - 10)

/-- Value of a hexadecimal digit character, either case. -/
def hexVal (c : Nat) : Option Nat :=
  if 0x30 ≤ c ∧ c ≤ 0x39 then some (c - 0x30)
  else if 0x61 ≤ c ∧ c ≤ 0x66 then some (c - 0x61 + 10)
  else if 0x41 ≤ c ∧ c ≤ 0x46 then some (c - 0x41 + 10)
  else none

/-- The bytes of the literal `"pwdb"`. -/
def magicPrefix : List Nat := [0x70, 0x77, 0x64, 0x62]

/-- Go `const magicMarkerLength = 4 + 8`. -/
def magicMarkerLength : Nat := 4 + 8

/-- The eight digits `%08x` prints for a `uint32`. -/
def hex8 (v : Nat) : List Nat :=
  [hexChar (v / 16 ^ 7 % 16), hexChar (v / 16 ^ 6 % 16), hexChar (v / 16 ^ 5 % 16),
   hexChar (v / 16 ^ 4 % 16), hexChar (v / 16 ^ 3 % 16), hexChar (v / 16 ^ 2 % 16),
   hexChar (v / 16 % 16), hexChar (v % 16)]

/-- Go `makeFileMarker`: `[]byte(fmt.Sprintf("pwdb%08x", version))` for a
`uint32` version. -/
def makeFileMarker (version : Nat) : List Nat := magicPrefix ++ hex8 (version % 2 ^ 32)

/-- Go `const dbVersion = 1`. -/
def dbVersion : Nat := 1

/-- Go `var magicId = makeFileMarker(dbVersion)`. -/
def magicId : List Nat := makeFileMarker dbVersion

/-- The white space of `fmt`'s scanner (`isSpace` in `fmt/scan.go`). -/
def isSpace (r : Nat) : Bool :=
  (0x09 ≤ r && r ≤ 0x0D) || r == 0x20 || r == 0x85 || r == 0xA0 || r == 0x1680 ||
  (0x2000 ≤ r && r ≤ 0x200A) || r == 0x2028 || r == 0x2029 || r == 0x202F ||
  r == 0x205F || r == 0x3000

/-- Go `(*ss).SkipSpace` with `nlIsSpace = false` (the `Sscanf` setting): drops
leading white-space runes; a newline is the error "unexpected newline" (`none`).
`fuel` bounds the number of runes looked at. -/
def skipSpace : Nat → List Nat → Option (List Nat)
  | 0, s => some s
  | fuel + 1, s =>
    match s with
    | [] => some []
    | _ :: _ =>
      let rs := decodeRune s
      if rs.1 = 0x0A then none
      else if isSpace rs.1 then skipSpace fuel (s.drop rs.2)
      else some s

/-- The digit set `fmt` accepts for the verb `x`: `"0123456789aAbBcCdDeEfF"`
(`getBase` in `fmt/scan.go`; the underscore is added for the verb `v` only). -/
def isScanHexDigit (c : Nat) : Bool := (hexVal c).isSome

/-- Go `(*ss).scanNumber` under a width limit: the longest run of at most `width`
accepted digit runes at the front of the input. -/
def scanNumber : Nat → List Nat → List Nat
  | 0, _ => []
  | _, [] => []
  | width + 1, c :: s => if isScanHexDigit c then c :: scanNumber width s else []

/-- Go `strconv.ParseUint(tok, 16, 64)` on a non-empty token of at most eight
characters: a character that is no hexadecimal digit is a syntax error. The
accumulator is the value read so far. -/
def parseHex : Nat → List Nat → Option Nat
  | acc, [] => some acc
  | acc, c :: s =>
    match hexVal c with
    | some d => parseHex (acc * 16 + d) s
    | none => none

/-- Go `fmt.Sscanf(s, "pwdb%08x", &v)`: the error-free results are `some v`.
The literal `pwdb` must match; white space before the number is skipped; the
number is at most eight digit runes and must have at least one; input after
the number is not looked at. -/
def sscanfMarker (s : List Nat) : Option Nat :=
  match s with
  | p :: w :: d :: b :: rest =>
    if [p, w, d, b] = magicPrefix then
      match skipSpace rest.length rest with
      | none => none
      | some rest1 =>
        let tok := scanNumber 8 rest1
        if tok = [] then none else parseHex 0 tok
    else none
  | _ => none

/-- Go `getDbVersion`. The argument is the slice up to its capacity (`b[:cap(b)]`):
the slice expression `b[:magicMarkerLength]` panics exactly when the capacity is
below 12. -/
def getDbVersion (b : List Nat) : Res (Option Nat) :=
  if b.length < magicMarkerLength then Res.crash
  else Res.ok (sscanfMarker (b.take magicMarkerLength))

/-- Go `isValidMagicId`: the marker parses and the version is not 0. -/
def isValidMagicId (b : List Nat) : Res Bool :=
  match getDbVersion b with
  | Res.ok (some ver) => Res.ok (ver != 0)
  | Res.ok none => Res.ok false
  | Res.err e => Res.err e
  | Res.crash => Res.crash

/-! ## The record model (`pkg/pwdb/pwdb.go`) -/

/-- Go `TotpEntry`: the base32 text of the seed. -/
structure TotpEntry where
  Secret : List Nat
  deriving DecidableEq, Repr

/-- Go `PasswordEntry`. -/
structure PasswordEntry where
  Username : List Nat
  Password : List Nat
  deriving DecidableEq, Repr

/-- Go `Database`. A Go map is `none` when nil, otherwise the list of its entries
in increasing key order (the order `encoding/json` writes them in); see
`Database.WF`. Equality of this representation is `reflect.DeepEqual`. -/
structure Database where
  TotpAccounts : Option (List (List Nat × TotpEntry))
  Passwords : Option (List (List Nat × PasswordEntry))
  deriving DecidableEq, Repr

/-- Go `NewDatabase`: both maps empty and not nil. -/
def NewDatabase : Database := { TotpAccounts := some [], Passwords := some [] }

/-- Go string comparison `a < b`: byte-wise lexicographic order. -/
def bytesLt : List Nat → List Nat → Bool
  | [], [] => false
  | [], _ :: _ => true
  | _ :: _, [] => false
  | a :: as, b :: bs => a < b || (a == b && bytesLt as bs)

/-- Keys strictly increasing: the list is the entry list of a map. -/
def keysSorted {V : Type} : List (List Nat × V) → Bool
  | [] => true
  | [_] => true
  | a :: b :: rest => bytesLt a.1 b.1 && keysSorted (b :: rest)

/-- All elements are bytes. -/
def isBytes (s : List Nat) : Bool := s.all (fun b => b < 256)

/-- Entry list of a map whose keys and values satisfy `pv`. -/
def mapAll {V : Type} (pk : List Nat → Bool) (pv : V → Bool) :
    Option (List (List Nat × V)) → Bool
  | none => true
  | some l => l.all (fun kv => pk kv.1 && pv kv.2)

/-- The representation invariant of `Database`: both entry lists are in strictly
increasing key order and every string is a sequence of bytes. -/
def Database.WF (db : Database) : Bool :=
  (match db.TotpAccounts with | none => true | some l => keysSorted l) &&
  (match db.Passwords with | none => true | some l => keysSorted l) &&
  mapAll isBytes (fun e => isBytes e.Secret) db.TotpAccounts &&
  mapAll isBytes (fun e => isBytes e.Username && isBytes e.Password) db.Passwords

/-! ## `encoding/json`: `Marshal` -/

/-- The bytes of an ASCII string literal. -/
def ascii (s : String) : List Nat := s.data.map Char.toNat

/-- How `encoding/json` writes an ASCII byte inside a string (HTML escaping on,
as `json.Marshal` sets it): `"` and `\` get a backslash, the control characters
with a short form use it (`\b` and `\f` since Go 1.22; earlier releases write
them as `\u0008` and `\u000c`, which read back the same), other bytes below
0x20 and `<`, `>`, `&` become `\u00XX`, and every other byte is copied. -/
def escapeByte (b : Nat) : List Nat :=
  if b = 0x22 ∨ b = 0x5C then [0x5C, b]
  else if b = 0x08 then [0x5C, 0x62]
  else if b = 0x0C then [0x5C, 0x66]
  else if b = 0x0A then [0x5C, 0x6E]
  else if b = 0x0D then [0x5C, 0x72]
  else if b = 0x09 then [0x5C, 0x74]
  else if b < 0x20 ∨ b = 0x3C ∨ b = 0x3E ∨ b = 0x26 then
    [0x5C, 0x75, 0x30, 0x30, hexChar (b / 16), hexChar (b % 16)]
  else [b]

/-- The loop of `encoding/json`'s `appendString`: ASCII bytes through
`escapeByte`; an invalid UTF-8 byte becomes the six characters `\ufffd`; U+2028
and U+2029 become `\u2028`, `\u2029`; every other rune is copied.
`fuel` bounds the number of iterations. -/
def appendStringBody : Nat → List Nat → List Nat
  | 0, _ => []
  | _ + 1, [] => []
  | fuel + 1, b :: rest =>
    if b < 0x80 then escapeByte b ++ appendStringBody fuel rest
    else
      let rs := decodeRune (b :: rest)
      if rs.1 = runeError ∧ rs.2 = 1 then
        [0x5C, 0x75, 0x66, 0x66, 0x66, 0x64] ++ appendStringBody fuel rest
      else if rs.1 = 0x2028 ∨ rs.1 = 0x2029 then
        [0x5C, 0x75, 0x32, 0x30, 0x32, hexChar (rs.1 % 16)] ++
          appendStringBody fuel ((b :: rest).drop rs.2)
      else (b :: rest).take rs.2 ++ appendStringBody fuel ((b :: rest).drop rs.2)

/-- A Go string as a JSON string. -/
def appendString (s : List Nat) : List Nat :=
  0x22 :: (appendStringBody s.length s ++ [0x22])

/-- JSON of a `TotpEntry`. -/
def encTotpEntry (e : TotpEntry) : List Nat :=
  ascii "\x7b\"Secret\":" ++ appendString e.Secret ++ [0x7D]

/-- JSON of a `PasswordEntry`. -/
def encPasswordEntry (e : PasswordEntry) : List Nat :=
  ascii "\x7b\"Username\":" ++ appendString e.Username ++
    ascii ",\"Password\":" ++ appendString e.Password ++ [0x7D]

/-- The members of a JSON object for the entries of a map, in list order. -/
def encMembers {V : Type} (encV : V → List Nat) : List (List Nat × V) → List Nat
  | [] => []
  | [kv] => appendString kv.1 ++ 0x3A :: encV kv.2
  | kv :: kv2 :: rest =>
    appendString kv.1 ++ 0x3A :: encV kv.2 ++ 0x2C :: encMembers encV (kv2 :: rest)

/-- JSON of a map: `null` for a nil map, otherwise an object. -/
def encMap {V : Type} (encV : V → List Nat) : Option (List (List Nat × V)) → List Nat
  | none => ascii "null"
  | some l => 0x7B :: (encMembers encV l ++ [0x7D])

/-- Go `json.Marshal(db)` for a `Database`; it has no error case for this type. -/
def jsonMarshal (db : Database) : List Nat :=
  ascii "\x7b\"TotpAccounts\":" ++ encMap encTotpEntry db.TotpAccounts ++
    ascii ",\"Passwords\":" ++ encMap encPasswordEntry db.Passwords ++ [0x7D]

/-! ## `encoding/json`: `Unmarshal`

`json.Unmarshal` first checks that the whole input is one JSON value
(`checkValid`), then decodes it into the target. `jsonParse` is the first phase
and keeps the value as a tree; `decodeDatabase` is the second. -/

/-- A JSON value as the scanner delimits it. Strings are already unquoted; the
value of a number is not kept, since no field of `Database` is numeric. -/
inductive JValue where
  | null : JValue
  | bool : Bool → JValue
  | number : JValue
  | string : List Nat → JValue
  | array : List JValue → JValue
  | object : List (List Nat × JValue) → JValue

/-- JSON white space: space, tab, carriage return, line feed. -/
def isJsonSpace (c : Nat) : Bool := c == 0x20 || c == 0x09 || c == 0x0D || c == 0x0A

/-- Drops leading JSON white space. -/
def skipWs : List Nat → List Nat
  | [] => []
  | c :: s => if isJsonSpace c then skipWs s else c :: s

/-- Go `getu4`: the value of a leading `\uXXXX`, if the input starts with one. -/
def getu4 : List Nat → Option Nat
  | e :: u :: a :: b :: c :: d :: _ =>
    if e = 0x5C ∧ u = 0x75 then
      match hexVal a, hexVal b, hexVal c, hexVal d with
      | some a, some b, some c, some d => some (((a * 16 + b) * 16 + c) * 16 + d)
      | _, _, _, _ => none
    else none
  | _ => none

/-- The character a one-letter escape stands for. -/
def simpleEscape (c : Nat) : Option Nat :=
  if c = 0x22 ∨ c = 0x5C ∨ c = 0x2F then some c
  else if c = 0x62 then some 0x08
  else if c = 0x66 then some 0x0C
  else if c = 0x6E then some 0x0A
  else if c = 0x72 then some 0x0D
  else if c = 0x74 then some 0x09
  else none

/-- The inside of a JSON string, from after the opening quote: the scanner's
string states together with `unquoteBytes`. Returns the unquoted bytes and the
input after the closing quote; `none` is a syntax error. Escapes are decoded, a
surrogate pair of `\u` escapes is one rune, a lone surrogate and every invalid
UTF-8 byte become U+FFFD. -/
def parseStringBody : Nat → List Nat → Option (List Nat × List Nat)
  | 0, _ => none
  | _ + 1, [] => none
  | fuel + 1, c :: rest =>
    if c = 0x22 then some ([], rest)
    else if c = 0x5C then
      match rest with
      | [] => none
      | e :: rest1 =>
        if e = 0x75 then
          match getu4 (c :: rest) with
          | none => none
          | some rr =>
            let rest6 := rest.drop 5
            if 0xD800 ≤ rr ∧ rr < 0xE000 then
              match getu4 rest6 with
              | some rr1 =>
                if rr < 0xDC00 ∧ 0xDC00 ≤ rr1 ∧ rr1 < 0xE000 then
                  (parseStringBody fuel (rest6.drop 6)).map (fun r =>
                    (encodeRune ((rr - 0xD800) * 1024 + (rr1 - 0xDC00) + 0x10000) ++ r.1, r.2))
                else (parseStringBody fuel rest6).map (fun r => (encodeRune runeError ++ r.1, r.2))
              | none => (parseStringBody fuel rest6).map (fun r => (encodeRune runeError ++ r.1, r.2))
            else (parseStringBody fuel rest6).map (fun r => (encodeRune rr ++ r.1, r.2))
        else
          match simpleEscape e with
          | none => none
          | some x => (parseStringBody fuel rest1).map (fun r => (x :: r.1, r.2))
    else if c < 0x20 then none
    else if c < 0x80 then (parseStringBody fuel rest).map (fun r => (c :: r.1, r.2))
    else
      let rs := decodeRune (c :: rest)
      (parseStringBody fuel ((c :: rest).drop rs.2)).map (fun r => (encodeRune rs.1 ++ r.1, r.2))

/-- A decimal digit. -/
def isDigit (c : Nat) : Bool := 0x30 ≤ c && c ≤ 0x39

/-- Drops leading decimal digits. -/
def skipDigits : List Nat → List Nat
  | [] => []
  | c :: s => if isDigit c then skipDigits s else c :: s

/-- At least one digit, then the rest. -/
def digits1 : List Nat → Option (List Nat)
  | [] => none
  | c :: s => if isDigit c then some (skipDigits s) else none

/-- Exponent part of a number, if present. -/
def numberExp : List Nat → Option (List Nat)
  | [] => some []
  | c :: s =>
    if c = 0x65 ∨ c = 0x45 then
      match s with
      | [] => none
      | g :: s1 => if g = 0x2B ∨ g = 0x2D then digits1 s1 else digits1 (g :: s1)
    else some (c :: s)

/-- Fraction part of a number, if present, then the exponent part. -/
def numberFrac : List Nat → Option (List Nat)
  | [] => some []
  | c :: s =>
    if c = 0x2E then
      match digits1 s with
      | none => none
      | some s1 => numberExp s1
    else numberExp (c :: s)

/-- Integer part of a number after the optional sign: `0` or a digit 1-9
followed by digits. -/
def numberInt : List Nat → Option (List Nat)
  | [] => none
  | c :: s =>
    if c = 0x30 then numberFrac s
    else if 0x31 ≤ c ∧ c ≤ 0x39 then numberFrac (skipDigits s)
    else none

/-- A JSON number at the front of the input; returns the input after it. -/
def parseNumber : List Nat → Option (List Nat)
  | [] => none
  | c :: s => if c = 0x2D then numberInt s else numberInt (c :: s)

/-- Removes a literal prefix. -/
def stripPrefix : List Nat → List Nat → Option (List Nat)
  | [], s => some s
  | _ :: _, [] => none
  | p :: ps, c :: s => if p = c then stripPrefix ps s else none

/-- Go `maxNestingDepth`: arrays and objects nested deeper than this are the
syntax error "exceeded max depth". -/
def maxNestingDepth : Nat := 10000

mutual

/-- One JSON value at the front of the input, after optional white space.
`fuel` bounds the recursion; `depth` is the number of further nesting levels
allowed. `none` is a syntax error. -/
def parseValue : Nat → Nat → List Nat → Option (JValue × List Nat)
  | 0, _, _ => none
  | fuel + 1, depth, s =>
    match skipWs s with
    | [] => none
    | c :: rest =>
      if c = 0x7B then
        if depth = 0 then none
        else
          match skipWs rest with
          | [] => none
          | d :: rest1 =>
            if d = 0x7D then some (JValue.object [], rest1)
            else (parseMembers fuel (depth - 1) (d :: rest1)).map
              (fun r => (JValue.object r.1, r.2))
      else if c = 0x5B then
        if depth = 0 then none
        else
          match skipWs rest with
          | [] => none
          | d :: rest1 =>
            if d = 0x5D then some (JValue.array [], rest1)
            else (parseElems fuel (depth - 1) (d :: rest1)).map
              (fun r => (JValue.array r.1, r.2))
      else if c = 0x22 then
        (parseStringBody rest.length rest).map (fun r => (JValue.string r.1, r.2))
      else if c = 0x74 then
        (stripPrefix (ascii "true") (c :: rest)).map (fun r => (JValue.bool true, r))
      else if c = 0x66 then
        (stripPrefix (ascii "false") (c :: rest)).map (fun r => (JValue.bool false, r))
      else if c = 0x6E then
        (stripPrefix (ascii "null") (c :: rest)).map (fun r => (JValue.null, r))
      else (parseNumber (c :: rest)).map (fun r => (JValue.number, r))

/-- The members of a non-empty object, up to and including the closing brace. -/
def parseMembers : Nat → Nat → List Nat → Option (List (List Nat × JValue) × List Nat)
  | 0, _, _ => none
  | fuel + 1, depth, s =>
    match skipWs s with
    | [] => none
    | q :: s1 =>
      if q = 0x22 then
        match parseStringBody s1.length s1 with
        | none => none
        | some (key, s2) =>
          match skipWs s2 with
          | [] => none
          | colon :: s3 =>
            if colon = 0x3A then
              match parseValue fuel depth s3 with
              | none => none
              | some (v, s4) =>
                match skipWs s4 with
                | [] => none
                | sep :: s5 =>
                  if sep = 0x2C then
                    (parseMembers fuel depth s5).map (fun r => ((key, v) :: r.1, r.2))
                  else if sep = 0x7D then some ([(key, v)], s5)
                  else none
            else none
      else none

/-- The elements of a non-empty array, up to and including the closing bracket. -/
def parseElems : Nat → Nat → List Nat → Option (List JValue × List Nat)
  | 0, _, _ => none
  | fuel + 1, depth, s =>
    match parseValue fuel depth s with
    | none => none
    | some (v, s1) =>
      match skipWs s1 with
      | [] => none
      | sep :: s2 =>
        if sep = 0x2C then (parseElems fuel depth s2).map (fun r => (v :: r.1, r.2))
        else if sep = 0x5D then some ([v], s2)
        else none

end

/-- Go `checkValid`, keeping the value: the input is exactly one JSON value with
optional white space around it. `none` is a `*json.SyntaxError`. -/
def jsonParse (s : List Nat) : Option JValue :=
  match parseValue (s.length + 1) maxNestingDepth s with
  | none => none
  | some (v, rest) => if skipWs rest = [] then some v else none

/-- Upper-case form of an ASCII byte. -/
def asciiUpper (c : Nat) : Nat := if 0x61 ≤ c ∧ c ≤ 0x7A then c - 0x20 else c

/-- Whether an object key selects the field called `name` (ASCII letters):
equality under Unicode simple case folding, as `encoding/json` matches keys to
struct fields. Besides the two ASCII cases, U+017F matches `s` and U+212A
matches `k`. -/
def foldEq : List Nat → List Nat → Bool
  | [], [] => true
  | [], _ :: _ => false
  | _ :: _, [] => false
  | n :: ns, c :: cs =>
    if c < 0x80 then asciiUpper c == asciiUpper n && foldEq ns cs
    else if asciiUpper n = 0x53 then
      match cs with
      | c1 :: cs1 => c == 0xC5 && c1 == 0xBF && foldEq ns cs1
      | [] => false
    else if asciiUpper n = 0x4B then
      match cs with
      | c1 :: c2 :: cs2 => c == 0xE2 && c1 == 0x84 && c2 == 0xAA && foldEq ns cs2
      | _ => false
    else false

/-- Go map assignment `m[k] = v` on the entry list. -/
def mapInsert {V : Type} (k : List Nat) (v : V) : List (List Nat × V) → List (List Nat × V)
  | [] => [(k, v)]
  | kv :: rest =>
    if k = kv.1 then (k, v) :: rest
    else if bytesLt k kv.1 then (k, v) :: kv :: rest
    else kv :: mapInsert k v rest

/-- Decoding into a Go `string`: a JSON string sets it, `null` leaves it, and
anything else is an `UnmarshalTypeError` (`none`). -/
def decodeString (old : List Nat) : JValue → Option (List Nat)
  | JValue.string s => some s
  | JValue.null => some old
  | _ => none

/-- Decoding the members of an object into a `TotpEntry`. -/
def decodeTotpMembers : List (List Nat × JValue) → TotpEntry → Option TotpEntry
  | [], e => some e
  | (k, v) :: ms, e =>
    if foldEq (ascii "Secret") k then
      match decodeString e.Secret v with
      | none => none
      | some s => decodeTotpMembers ms { e with Secret := s }
    else decodeTotpMembers ms e

/-- Decoding into a `TotpEntry`. -/
def decodeTotpEntry (old : TotpEntry) : JValue → Option TotpEntry
  | JValue.object ms => decodeTotpMembers ms old
  | JValue.null => some old
  | _ => none

/-- Decoding the members of an object into a `PasswordEntry`. -/
def decodePasswordMembers : List (List Nat × JValue) → PasswordEntry → Option PasswordEntry
  | [], e => some e
  | (k, v) :: ms, e =>
    if foldEq (ascii "Username") k then
      match decodeString e.Username v with
      | none => none
      | some s => decodePasswordMembers ms { e with Username := s }
    else if foldEq (ascii "Password") k then
      match decodeString e.Password v with
      | none => none
      | some s => decodePasswordMembers ms { e with Password := s }
    else decodePasswordMembers ms e

/-- Decoding into a `PasswordEntry`. -/
def decodePasswordEntry (old : PasswordEntry) : JValue → Option PasswordEntry
  | JValue.object ms => decodePasswordMembers ms old
  | JValue.null => some old
  | _ => none

/-- Decoding the members of an object into a map: each value is decoded into a
fresh zero element `zero`, which is then stored under the key. -/
def decodeMapMembers {V : Type} (dec : V → JValue → Option V) (zero : V) :
    List (List Nat × JValue) → List (List Nat × V) → Option (List (List Nat × V))
  | [], m => some m
  | (k, v) :: ms, m =>
    match dec zero v with
    | none => none
    | some e => decodeMapMembers dec zero ms (mapInsert k e m)

/-- Decoding into a map: an object adds its members to the map (made if nil),
`null` sets the map to nil, anything else is a type error. -/
def decodeMap {V : Type} (dec : V → JValue → Option V) (zero : V)
    (old : Option (List (List Nat × V))) : JValue → Option (Option (List (List Nat × V)))
  | JValue.object ms => (decodeMapMembers dec zero ms (old.getD [])).map some
  | JValue.null => some none
  | _ => none

/-- Decoding the members of the top-level object into a `Database`. -/
def decodeDatabaseMembers : List (List Nat × JValue) → Database → Option Database
  | [], db => some db
  | (k, v) :: ms, db =>
    if foldEq (ascii "TotpAccounts") k then
      match decodeMap decodeTotpEntry ⟨[]⟩ db.TotpAccounts v with
      | none => none
      | some m => decodeDatabaseMembers ms { db with TotpAccounts := m }
    else if foldEq (ascii "Passwords") k then
      match decodeMap decodePasswordEntry ⟨[], []⟩ db.Passwords v with
      | none => none
      | some m => decodeDatabaseMembers ms { db with Passwords := m }
    else decodeDatabaseMembers ms db

/-- Decoding into a zero `Database` (`var db Database`). -/
def decodeDatabase : JValue → Option Database
  | JValue.object ms => decodeDatabaseMembers ms ⟨none, none⟩
  | JValue.null => some ⟨none, none⟩
  | _ => none

/-- Go `json.Unmarshal(data, &db)` with `db` a zero `Database`. -/
def jsonUnmarshal (data : List Nat) : Res Database :=
  match jsonParse data with
  | none => Res.err Error.jsonSyntax
  | some v =>
    match decodeDatabase v with
    | none => Res.err Error.jsonType
    | some db => Res.ok db

/-! ## Big-endian numbers -/

/-- The eight bytes of a 64-bit number, most significant first (what
`binaryio`'s big-endian writer emits for `WriteUint64(v)`). -/
def bigEndianUint64 (v : Nat) : List Nat :=
  [v / 2 ^ 56 % 256, v / 2 ^ 48 % 256, v / 2 ^ 40 % 256, v / 2 ^ 32 % 256,
   v / 2 ^ 24 % 256, v / 2 ^ 16 % 256, v / 2 ^ 8 % 256, v % 256]

/-- The number a byte sequence denotes when read big-endian. -/
def bigEndianValue (bytes : List Nat) : Nat := bytes.foldl (fun acc b => acc * 256 + b) 0

/-! ## Hash functions, HMAC and HKDF

`crypto/sha1`, `crypto/sha256`, `crypto/hmac` and `golang.org/x/crypto/hkdf`,
embedded from FIPS 180-4, RFC 2104 and RFC 5869. Words are naturals below
`2 ^ 32`. -/

/-- Rotation of a 32-bit word to the left by `n` bits. -/
def rotl32 (x n : Nat) : Nat := ((x <<< n) ||| (x >>> (32 - n))) % 2 ^ 32

/-- Rotation of a 32-bit word to the right by `n` bits. -/
def rotr32 (x n : Nat) : Nat := ((x >>> n) ||| (x <<< (32 - n))) % 2 ^ 32

/-- The four bytes of a 32-bit word, most significant first. -/
def wordBytes (w : Nat) : List Nat :=
  [w / 2 ^ 24 % 256, w / 2 ^ 16 % 256, w / 2 ^ 8 % 256, w % 256]

/-- The first `k` consecutive pieces of `n` elements of a list. -/
def chunks (n : Nat) : Nat → List Nat → List (List Nat)
  | 0, _ => []
  | k + 1, s => s.take n :: chunks n k (s.drop n)

/-- The padding of SHA-1 and SHA-256: the byte 0x80, zeros up to 56 modulo 64,
and the length of the message in bits as a 64-bit big-endian number. -/
def shaPad (msg : List Nat) : List Nat :=
  msg ++ [0x80] ++ List.replicate ((64 - (msg.length + 9) % 64) % 64) 0 ++
    bigEndianUint64 (msg.length * 8 % 2 ^ 64)

/-- The message schedule of SHA-1, most recent word first: `k` more words
after those in `w`. -/
def sha1Schedule : Nat → List Nat → List Nat
  | 0, w => w
  | k + 1, w =>
    sha1Schedule k (rotl32 (w.getD 2 0 ^^^ w.getD 7 0 ^^^ w.getD 13 0 ^^^ w.getD 15 0) 1 :: w)

/-- The five working variables of SHA-1. -/
structure Sha1State where
  a : Nat
  b : Nat
  c : Nat
  d : Nat
  e : Nat

/-- Round `t` of SHA-1 with schedule word `w`. -/
def sha1Round (t : Nat) (s : Sha1State) (w : Nat) : Sha1State :=
  let f := if t < 20 then (s.b &&& s.c) ||| ((s.b ^^^ 0xFFFFFFFF) &&& s.d)
    else if t < 40 then s.b ^^^ s.c ^^^ s.d
    else if t < 60 then (s.b &&& s.c) ||| (s.b &&& s.d) ||| (s.c &&& s.d)
    else s.b ^^^ s.c ^^^ s.d
  let k := if t < 20 then 0x5A827999 else if t < 40 then 0x6ED9EBA1
    else if t < 60 then 0x8F1BBCDC else 0xCA62C1D6
  { a := (rotl32 s.a 5 + f + s.e + k + w) % 2 ^ 32, b := s.a, c := rotl32 s.b 30,
    d := s.c, e := s.d }

/-- The rounds of SHA-1 from round `t` on, one per schedule word. -/
def sha1Rounds : Nat → List Nat → Sha1State → Sha1State
  | _, [], s => s
  | t, w :: ws, s => sha1Rounds (t + 1) ws (sha1Round t s w)

/-- The compression of one 64-byte block into the SHA-1 state. -/
def sha1Block (h : Sha1State) (block : List Nat) : Sha1State :=
  let w16 := ((chunks 4 16 block).map bigEndianValue).reverse
  let s := sha1Rounds 0 (sha1Schedule 64 w16).reverse h
  { a := (h.a + s.a) % 2 ^ 32, b := (h.b + s.b) % 2 ^ 32, c := (h.c + s.c) % 2 ^ 32,
    d := (h.d + s.d) % 2 ^ 32, e := (h.e + s.e) % 2 ^ 32 }

/-- SHA-1 of a message: 20 bytes. -/
def sha1 (msg : List Nat) : List Nat :=
  let h := (chunks 64 ((shaPad msg).length / 64) (shaPad msg)).foldl sha1Block
    ⟨0x67452301, 0xEFCDAB89, 0x98BADCFE, 0x10325476, 0xC3D2E1F0⟩
  wordBytes h.a ++ wordBytes h.b ++ wordBytes h.c ++ wordBytes h.d ++ wordBytes h.e

/-- The round constants of SHA-256. -/
def sha256K : List Nat := [
  0x428a2f98, 0x71374491, 0xb5c0fbcf, 0xe9b5dba5, 0x3956c25b, 0x59f111f1, 0x923f82a4, 0xab1c5ed5,
  0xd807aa98, 0x12835b01, 0x243185be, 0x550c7dc3, 0x72be5d74, 0x80deb1fe, 0x9bdc06a7, 0xc19bf174,
  0xe49b69c1, 0xefbe4786, 0x0fc19dc6, 0x240ca1cc, 0x2de92c6f, 0x4a7484aa, 0x5cb0a9dc, 0x76f988da,
  0x983e5152, 0xa831c66d, 0xb00327c8, 0xbf597fc7, 0xc6e00bf3, 0xd5a79147, 0x06ca6351, 0x14292967,
  0x27b70a85, 0x2e1b2138, 0x4d2c6dfc, 0x53380d13, 0x650a7354, 0x766a0abb, 0x81c2c92e, 0x92722c85,
  0xa2bfe8a1, 0xa81a664b, 0xc24b8b70, 0xc76c51a3, 0xd192e819, 0xd6990624, 0xf40e3585, 0x106aa070,
  0x19a4c116, 0x1e376c08, 0x2748774c, 0x34b0bcb5, 0x391c0cb3, 0x4ed8aa4a, 0x5b9cca4f, 0x682e6ff3,
  0x748f82ee, 0x78a5636f, 0x84c87814, 0x8cc70208, 0x90befffa, 0xa4506ceb, 0xbef9a3f7, 0xc67178f2]

/-- The message schedule of SHA-256, most recent word first: `k` more words
after those in `w`. -/
def sha256Schedule : Nat → List Nat → List Nat
  | 0, w => w
  | k + 1, w =>
    let w15 := w.getD 14 0
    let w2 := w.getD 1 0
    let s0 := rotr32 w15 7 ^^^ rotr32 w15 18 ^^^ (w15 >>> 3)
    let s1 := rotr32 w2 17 ^^^ rotr32 w2 19 ^^^ (w2 >>> 10)
    sha256Schedule k ((w.getD 15 0 + s0 + w.getD 6 0 + s1) % 2 ^ 32 :: w)

/-- The eight working variables of SHA-256. -/
structure Sha256State where
  a : Nat
  b : Nat
  c : Nat
  d : Nat
  e : Nat
  f : Nat
  g : Nat
  h : Nat

/-- One round of SHA-256 with a round constant and a schedule word. -/
def sha256Round (s : Sha256State) (kw : Nat × Nat) : Sha256State :=
  let s1 := rotr32 s.e 6 ^^^ rotr32 s.e 11 ^^^ rotr32 s.e 25
  let ch := (s.e &&& s.f) ^^^ ((s.e ^^^ 0xFFFFFFFF) &&& s.g)
  let t1 := (s.h + s1 + ch + kw.1 + kw.2) % 2 ^ 32
  let s0 := rotr32 s.a 2 ^^^ rotr32 s.a 13 ^^^ rotr32 s.a 22
  let maj := (s.a &&& s.b) ^^^ (s.a &&& s.c) ^^^ (s.b &&& s.c)
  { a := (t1 + (s0 + maj) % 2 ^ 32) % 2 ^ 32, b := s.a, c := s.b, d := s.c,
    e := (s.d + t1) % 2 ^ 32, f := s.e, g := s.f, h := s.g }

/-- The compression of one 64-byte block into the SHA-256 state. -/
def sha256Block (h : Sha256State) (block : List Nat) : Sha256State :=
  let w16 := ((chunks 4 16 block).map bigEndianValue).reverse
  let s := (sha256K.zip (sha256Schedule 48 w16).reverse).foldl sha256Round h
  { a := (h.a + s.a) % 2 ^ 32, b := (h.b + s.b) % 2 ^ 32, c := (h.c + s.c) % 2 ^ 32,
    d := (h.d + s.d) % 2 ^ 32, e := (h.e + s.e) % 2 ^ 32, f := (h.f + s.f) % 2 ^ 32,
    g := (h.g + s.g) % 2 ^ 32, h := (h.h + s.h) % 2 ^ 32 }

/-- SHA-256 of a message: 32 bytes. -/
def sha256 (msg : List Nat) : List Nat :=
  let h := (chunks 64 ((shaPad msg).length / 64) (shaPad msg)).foldl sha256Block
    ⟨0x6a09e667, 0xbb67ae85, 0x3c6ef372, 0xa54ff53a, 0x510e527f, 0x9b05688c, 0x1f83d9ab,
      0x5be0cd19⟩
  wordBytes h.a ++ wordBytes h.b ++ wordBytes h.c ++ wordBytes h.d ++
    wordBytes h.e ++ wordBytes h.f ++ wordBytes h.g ++ wordBytes h.h

/-- A hash function as `crypto/hmac` uses it (Go `func() hash.Hash`): the
digest of a message and the block size in bytes. -/
structure Hash where
  sum : List Nat → List Nat
  blockSize : Nat

/-- Go `sha1.New`. -/
def sha1New : Hash := { sum := sha1, blockSize := 64 }

/-- Go `sha256.New`. -/
def sha256New : Hash := { sum := sha256, blockSize := 64 }

/-- HMAC (Go `hmac.New(h, key)`, `Write(msg)`, `Sum(nil)`): a key longer than
a block is hashed first, then padded with zeros to a block. -/
def hmac (h : Hash) (key msg : List Nat) : List Nat :=
  let k0 := if h.blockSize < key.length then h.sum key else key
  let k := k0 ++ List.replicate (h.blockSize - k0.length) 0
  h.sum (k.map (fun b => b ^^^ 0x5C) ++ h.sum (k.map (fun b => b ^^^ 0x36) ++ msg))

/-- The blocks `T(i)`, `T(i+1)`, ... of HKDF-Expand, `n` of them, after the
previous block `prev`. -/
def hkdfBlocks (h : Hash) (prk info : List Nat) : Nat → Nat → List Nat → List Nat
  | 0, _, _ => []
  | n + 1, i, prev =>
    let t := hmac h prk (prev ++ info ++ [i % 256])
    t ++ hkdfBlocks h prk info n (i + 1) t

/-- The first `n` bytes read from Go `hkdf.New(h, secret, salt, info)`:
HKDF-Extract with the salt as HMAC key, then as many blocks of HKDF-Expand as
cover `n` bytes. -/
def hkdfRead (h : Hash) (secret salt info : List Nat) (n : Nat) : List Nat :=
  let prk := hmac h salt secret
  (hkdfBlocks h prk info ((n + prk.length - 1) / prk.length) 1 []).take n

/-! ## The block cipher -/

/-- The AES-256 block function of `crypto/aes`, a parameter of the
embedding. -/
structure Prims where
  /-- AES encryption of one 16-byte block under a key. -/
  aesEncrypt : List Nat → List Nat → List Nat
  /-- AES decryption of one 16-byte block under a key. -/
  aesDecrypt : List Nat → List Nat → List Nat

/-- What the proofs use of the block cipher: blocks stay 16 bytes long and
decryption undoes encryption. -/
structure Prims.Lawful (P : Prims) : Prop where
  aes_length : ∀ key block, block.length = 16 → (P.aesEncrypt key block).length = 16
  aes_inverse : ∀ key block, block.length = 16 →
    P.aesDecrypt key (P.aesEncrypt key block) = block

/-- HMAC-SHA256 of a message under a key (Go `hmac.New(sha256.New, key)`). -/
def hmacSha256 (key msg : List Nat) : List Nat := hmac sha256New key msg

/-! ## The container (`pkg/pwdb/fileformat.go`) -/

/-- Go `const fileIvSize = aes.BlockSize`. -/
def fileIvSize : Nat := 16

/-- Go `const aesIvSize = aes.BlockSize`. -/
def aesIvSize : Nat := 16

/-- Go `const aesKeySize = 256 / 8`. -/
def aesKeySize : Nat := 256 / 8

/-- Go `const macSize = 256 / 8`. -/
def macSize : Nat := 256 / 8

/-- Go `const minimumIncrement = aes.BlockSize * 100` (local to `encrypt`). -/
def minimumIncrement : Nat := 16 * 100

/-- Byte-wise exclusive or of two blocks. -/
def xorBytes (a b : List Nat) : List Nat := List.zipWith Nat.xor a b

/-- The block loop of CBC encryption: each plaintext block is xored with the
previous ciphertext block (the IV for the first) and encrypted. `n` is the
number of blocks. -/
def cbcEncryptBlocks (P : Prims) (key : List Nat) : Nat → List Nat → List Nat → List Nat
  | 0, _, _ => []
  | n + 1, prev, src =>
    let c := P.aesEncrypt key (xorBytes (src.take 16) prev)
    c ++ cbcEncryptBlocks P key n c (src.drop 16)

/-- The block loop of CBC decryption. -/
def cbcDecryptBlocks (P : Prims) (key : List Nat) : Nat → List Nat → List Nat → List Nat
  | 0, _, _ => []
  | n + 1, prev, src =>
    let c := src.take 16
    xorBytes (P.aesDecrypt key c) prev ++ cbcDecryptBlocks P key n c (src.drop 16)

/-- Go `cipher.NewCBCEncrypter(block, iv).CryptBlocks(dst, src)` with
`len(dst) = len(src)`: panics unless the input is whole blocks. -/
def cbcEncrypt (P : Prims) (key iv src : List Nat) : Res (List Nat) :=
  if src.length % 16 ≠ 0 then Res.crash
  else Res.ok (cbcEncryptBlocks P key (src.length / 16) iv src)

/-- Go `cipher.NewCBCDecrypter(block, iv).CryptBlocks(dst, src)` with
`len(dst) = len(src)`. -/
def cbcDecrypt (P : Prims) (key iv src : List Nat) : Res (List Nat) :=
  if src.length % 16 ≠ 0 then Res.crash
  else Res.ok (cbcDecryptBlocks P key (src.length / 16) iv src)

/-- Go `kdf`: 32 bytes of HKDF-SHA256 with the passphrase as secret, the IV as
salt and `magicId` as info. The assertions abort when the read is short. -/
def kdf (secret iv : List Nat) : Res (List Nat) :=
  let key := hkdfRead sha256New secret iv magicId aesKeySize
  if key.length = aesKeySize then Res.ok key else Res.crash

/-- Go `encrypt`. `padding` is what `rand.Read` returns for the padding buffer;
it is asked for only when the plaintext is not a multiple of 1600 bytes, and a
short read aborts. -/
def encrypt (P : Prims) (password iv plaintext padding : List Nat) : Res (List Nat) :=
  if iv.length ≠ aesIvSize then Res.crash
  else
    match kdf password iv with
    | Res.ok key =>
      let prepaddingSize := plaintext.length
      let padded : Res (List Nat) :=
        if prepaddingSize % minimumIncrement ≠ 0 then
          let paddingSize := minimumIncrement - prepaddingSize % minimumIncrement
          if padding.length = paddingSize then Res.ok (plaintext ++ padding) else Res.crash
        else Res.ok plaintext
      match padded with
      | Res.ok plaintext1 =>
        match cbcEncrypt P key (iv.take aesIvSize) plaintext1 with
        | Res.ok ct =>
          let encrypted := iv ++ ct
          Res.ok (encrypted ++ hmacSha256 key encrypted)
        | Res.err e => Res.err e
        | Res.crash => Res.crash
      | Res.err e => Res.err e
      | Res.crash => Res.crash
    | Res.err e => Res.err e
    | Res.crash => Res.crash

/-- The comparison loop of `isHMACValid`: `ok = expected[i] == m[i] && ok` for
`i` from `start` on, `count` times. An index beyond either slice panics
(`none`). -/
def macLoop (expected m : List Nat) : Nat → Nat → Bool → Option Bool
  | 0, _, ok => some ok
  | count + 1, i, ok =>
    match expected.get? i, m.get? i with
    | some e, some x => macLoop expected m count (i + 1) (e == x && ok)
    | _, _ => none

/-- Go `isHMACValid`. `content[len(content)-macSize:]` panics on fewer than 32
bytes. -/
def isHMACValid (password content : List Nat) : Res Bool :=
  if content.length < macSize then Res.crash
  else
    let iv := content.take fileIvSize
    match kdf password iv with
    | Res.ok key =>
      let expected := content.drop (content.length - macSize)
      let payload := content.take (content.length - macSize)
      let m := hmacSha256 key payload
      match macLoop expected m macSize 0 true with
      | some ok => Res.ok ok
      | none => Res.crash
    | Res.err e => Res.err e
    | Res.crash => Res.crash

/-- Go `decrypt`. On fewer than 16 bytes `content[fileIvSize:]` panics (the
slice `content[:fileIvSize]` before it can reach into the spare capacity, but
nothing is done with it before the panic). -/
def decrypt (P : Prims) (password content : List Nat) : Res (List Nat) :=
  if content.length < fileIvSize then Res.crash
  else
    let iv := content.take fileIvSize
    let payload := content.drop fileIvSize
    match kdf password iv with
    | Res.ok key => cbcDecrypt P key (iv.take aesIvSize) payload
    | Res.err e => Res.err e
    | Res.crash => Res.crash

/-- The slice `ioutil.ReadAll` returns, up to its capacity: the bytes read,
followed by zeros up to at least 512 bytes. -/
def readAllBacking (content : List Nat) : List Nat :=
  content ++ List.replicate (512 - content.length) 0

/-- The end of `ReadConfig`: strip the marker, cut at the first zero byte,
unmarshal. `content[len(magicId):]` panics on fewer than 12 bytes. -/
def readPayload (content : List Nat) : Res Database :=
  if content.length < magicId.length then Res.crash
  else jsonUnmarshal ((content.drop magicId.length).takeWhile (fun b => b != 0))

/-- Go `ReadConfig`, on the bytes `ioutil.ReadAll(reader)` returns; `key` is
`none` for a nil key. -/
def ReadConfig (P : Prims) (content : List Nat) (key : Option (List Nat)) : Res Database :=
  match isValidMagicId (readAllBacking content) with
  | Res.ok true => readPayload content
  | Res.ok false =>
    match key with
    | none => Res.err Error.databaseEncrypted
    | some k =>
      match isHMACValid k content with
      | Res.ok false => Res.err Error.invalidHMAC
      | Res.ok true =>
        match decrypt P k (content.take (content.length - macSize)) with
        | Res.ok candidate =>
          match isValidMagicId candidate with
          | Res.ok true => readPayload candidate
          | Res.ok false => Res.crash
          | Res.err e => Res.err e
          | Res.crash => Res.crash
        | Res.err e => Res.err e
        | Res.crash => Res.crash
      | Res.err e => Res.err e
      | Res.crash => Res.crash
  | Res.err e => Res.err e
  | Res.crash => Res.crash

/-- Go `WriteConfig`: the bytes handed to `writer.Write`. `db` is `none` for a
nil pointer, `secret` is `none` for a nil slice; `iv` and `padding` are what the
two `rand.Read` calls return (a short read of the IV aborts). -/
def WriteConfig (P : Prims) (db : Option Database) (secret : Option (List Nat))
    (iv padding : List Nat) : Res (List Nat) :=
  match db with
  | none => Res.err Error.invalidDatabase
  | some d =>
    let data := magicId ++ jsonMarshal d ++ [0]
    match secret with
    | none => Res.ok data
    | some s =>
      if iv.length = aesIvSize then encrypt P s (iv.take aesIvSize) data padding
      else Res.crash

/-- Go `IsEncrypted`, on the content of the file at `path`; `none` when the file
cannot be opened. The 12-byte buffer starts as zeros; reading an empty file is
the error `io.EOF`. -/
def IsEncrypted (file : Option (List Nat)) : Bool :=
  match file with
  | none => false
  | some content =>
    if content = [] then false
    else
      let b := (content ++ List.replicate magicId.length 0).take magicId.length
      match isValidMagicId b with
      | Res.ok valid => !valid
      | _ => false

/-! ## One-time passwords (`pkg/totp/totp.go`) -/

/-- What `binaryio`'s big-endian reader returns for `ReadUint32()` on a buffer:
the value of the first four bytes, an error (`none`) on fewer. -/
def readUint32 : List Nat → Option Nat
  | a :: b :: c :: d :: _ => some (a * 2 ^ 24 + b * 2 ^ 16 + c * 2 ^ 8 + d)
  | _ => none

/-- Go conversion `uint64(x)` of an `int64`. -/
def toUint64 (x : Int) : Nat := (x % 2 ^ 64).toNat

/-- The value an `int64` holds after an operation whose exact result is `x`. -/
def wrapInt64 (x : Int) : Int := (x + 2 ^ 63) % 2 ^ 64 - 2 ^ 63

/-- Go `calculateHotp`. `secret` is `none` for a nil slice. `digest[19]` and `digest[o : o+4]` panic when the digest
is too short. The error returned with the token is the reader's. -/
def calculateHotp (algorithm : Hash) (secret : Option (List Nat)) (intervals_no : Int) :
    Res Nat :=
  match secret with
  | none => Res.err Error.invalidSecret
  | some sec =>
    let msg := bigEndianUint64 (toUint64 intervals_no)
    let digest := hmac algorithm sec msg
    match digest.get? 19 with
    | none => Res.crash
    | some last =>
      let o := last &&& 15
      if digest.length < o + 4 then Res.crash
      else
        match readUint32 ((digest.drop o).take 4) with
        | none => Res.err Error.shortRead
        | some token => Res.ok ((token &&& 0x7fffffff) % 1000000)

/-- Go `Generator`. -/
structure Generator where
  Algorithm : Hash
  Secret : Option (List Nat)
  TimeStep : Int

/-- Go `NewGenerator`: time step 30 and SHA-1. -/
def NewGenerator (secret : Option (List Nat)) : Generator :=
  { TimeStep := 30, Algorithm := sha1New, Secret := secret }

/-- The counter `Calculate` passes on: Go `time.Unix() / generator.TimeStep` on
`int64`, which truncates towards zero; a zero time step panics (`none`). -/
def Generator.counter (generator : Generator) (unix : Int) : Option Int :=
  if generator.TimeStep = 0 then none
  else some (wrapInt64 (Int.tdiv unix generator.TimeStep))

/-- Go `Generator.Calculate`, on `time.Unix()` of its argument. -/
def Generator.Calculate (generator : Generator) (unix : Int) : Res Nat :=
  match generator.counter unix with
  | none => Res.crash
  | some c => calculateHotp generator.Algorithm generator.Secret c

/-! ### `encoding/base32` -/

/-- Value of a character of the standard base32 alphabet `A`-`Z`, `2`-`7`. -/
def b32Val (c : Nat) : Option Nat :=
  if 0x41 ≤ c ∧ c ≤ 0x5A then some (c - 0x41)
  else if 0x32 ≤ c ∧ c ≤ 0x37 then some (c - 0x32 + 26)
  else none

/-- The inner loop of `(*Encoding).decode` for one quantum: reads up to `r`
more characters after the values `acc` already read. Returns the values, the
remaining input and whether padding ended the input; `none` is a
`CorruptInputError`. -/
def b32Quantum : Nat → List Nat → List Nat → Option (List Nat × List Nat × Bool)
  | 0, acc, src => some (acc, src, false)
  | r + 1, acc, src =>
    match src with
    | [] => none
    | c :: src1 =>
      if c = 0x3D ∧ 2 ≤ acc.length ∧ src1.length < 8 then
        if src1.length + acc.length < 8 - 1 then none
        else if (src1.take (8 - 1 - acc.length)).any (fun x => x != 0x3D) then none
        else if acc.length = 1 ∨ acc.length = 3 ∨ acc.length = 6 then none
        else some (acc, src1, true)
      else
        match b32Val c with
        | none => none
        | some v => b32Quantum r (acc ++ [v]) src1

/-- The bytes one quantum of `dlen` values packs into: 5, 4, 3, 2 or 1 bytes for
8, 7, 5, 4 or 2 values. -/
def b32Pack (dbuf : List Nat) : List Nat :=
  let b := fun i => dbuf.getD i 0
  let out := [(b 0 * 8 + b 1 / 4) % 256, (b 1 * 64 + b 2 * 2 + b 3 / 16) % 256,
    (b 3 * 16 + b 4 / 2) % 256, (b 4 * 128 + b 5 * 4 + b 6 / 8) % 256,
    (b 6 * 32 + b 7) % 256]
  let n := if dbuf.length = 8 then 5 else if dbuf.length = 7 then 4
    else if dbuf.length = 5 then 3 else if dbuf.length = 4 then 2
    else if dbuf.length = 2 then 1 else 0
  out.take n

/-- The outer loop of `(*Encoding).decode`: the decoded bytes and whether the
input was corrupt. -/
def b32Decode : Nat → List Nat → List Nat × Bool
  | 0, _ => ([], false)
  | fuel + 1, src =>
    match src with
    | [] => ([], false)
    | _ :: _ =>
      match b32Quantum 8 [] src with
      | none => ([], true)
      | some (dbuf, src1, ended) =>
        if ended then (b32Pack dbuf, false)
        else
          let r := b32Decode fuel src1
          (b32Pack dbuf ++ r.1, r.2)

/-- Go `base32.StdEncoding.DecodeString`: carriage returns and line feeds are
dropped first. The slice returned is never nil. -/
def b32DecodeString (s : List Nat) : List Nat × Bool :=
  let src := s.filter (fun c => c != 0x0D && c != 0x0A)
  b32Decode (src.length + 1) src

/-- Go `Base32Secret`: the secret and the error flag of the decoder. -/
def Base32Secret (secret : List Nat) : Option (List Nat) × Option Error :=
  let size := 8
  let padded :=
    if secret.length % size ≠ 0 then
      secret ++ List.replicate (size - secret.length % size) 0x3D
    else secret
  let r := b32DecodeString padded
  (some r.1, if r.2 then some Error.base32 else none)

/-! ## An instance of the block cipher

A small instance of `Prims` satisfying `Prims.Lawful`, used to instantiate the
theorems at concrete inputs. It stands for no real cipher. -/

/-- Pads or cuts a list to `n` bytes. -/
def fitTo (n : Nat) (s : List Nat) : List Nat := (s ++ List.replicate n 0).take n

/-- See the section heading: a block is xored with the first 16 bytes of the
key. -/
def toyPrims : Prims where
  aesEncrypt := fun key block => xorBytes block (fitTo 16 key)
  aesDecrypt := fun key block => xorBytes block (fitTo 16 key)

/-! ## The JSON tree of a database -/

/-- The tree `jsonParse` finds in the JSON of a `TotpEntry`. -/
def jTotpEntry (e : TotpEntry) : JValue :=
  JValue.object [(ascii "Secret", JValue.string e.Secret)]

/-- The tree `jsonParse` finds in the JSON of a `PasswordEntry`. -/
def jPasswordEntry (e : PasswordEntry) : JValue :=
  JValue.object [(ascii "Username", JValue.string e.Username),
    (ascii "Password", JValue.string e.Password)]

/-- The tree `jsonParse` finds in the JSON of a map. -/
def jMap {V : Type} (toJ : V → JValue) : Option (List (List Nat × V)) → JValue
  | none => JValue.null
  | some l => JValue.object (l.map (fun kv => (kv.1, toJ kv.2)))

/-- The tree `jsonParse` finds in the JSON of a `Database`. -/
def jDatabase (db : Database) : JValue :=
  JValue.object [(ascii "TotpAccounts", jMap jTotpEntry db.TotpAccounts),
    (ascii "Passwords", jMap jPasswordEntry db.Passwords)]

/-! ## Compositions the specification speaks of -/

/-- The length of the padding `encrypt` asks the random source for, for a
plaintext of `n` bytes. -/
def paddingSize (n : Nat) : Nat :=
  if n % minimumIncrement ≠ 0 then minimumIncrement - n % minimumIncrement else 0

/-- Whether `padding` is what the random source can return to `encrypt` for a
plaintext of `n` bytes: of the length asked for, or anything when none is asked
for. -/
def paddingFits (n : Nat) (padding : List Nat) : Bool :=
  n % minimumIncrement == 0 || padding.length == minimumIncrement - n % minimumIncrement

/-- The plaintext `encrypt` hands to the cipher: padded up to a multiple of
1600 bytes. -/
def paddedPlaintext (plaintext padding : List Nat) : List Nat :=
  if plaintext.length % minimumIncrement ≠ 0 then plaintext ++ padding else plaintext

/-- The key both `encrypt` and `decrypt` derive from passphrase and IV. -/
def derivedKey (password iv : List Nat) : List Nat :=
  hkdfRead sha256New password iv magicId aesKeySize

/-- The ciphertext part of what `encrypt` returns. -/
def ciphertextOf (P : Prims) (password iv plaintext padding : List Nat) : List Nat :=
  cbcEncryptBlocks P (derivedKey password iv)
    ((paddedPlaintext plaintext padding).length / 16) iv (paddedPlaintext plaintext padding)

/-- The plaintext `WriteConfig` builds: marker, JSON, one zero byte. -/
def plainContainer (db : Database) : List Nat := magicId ++ jsonMarshal db ++ [0]

/-- The encrypted container `WriteConfig` writes for a database: IV,
ciphertext, MAC over both. -/
def envelope (P : Prims) (db : Database) (password iv padding : List Nat) : List Nat :=
  iv ++ ciphertextOf P password iv (plainContainer db) padding ++
    hmacSha256 (derivedKey password iv)
      (iv ++ ciphertextOf P password iv (plainContainer db) padding)

/-- A passphrase used in the tests. -/
def samplePassword : List Nat := ascii "some secret password"

/-- An IV that is no marker: the bytes 0 to 15. -/
def sampleIv : List Nat := List.range 16

/-- Padding of the length `encrypt` asks for when writing `db`. -/
def zeroPadding (db : Database) : List Nat :=
  List.replicate (paddingSize (plainContainer db).length) 0

/-- The composition `read(write(db, pw), pr)`: `WriteConfig` with passphrase `pw`, then
`ReadConfig` of the bytes written with passphrase `pr`. -/
def writeThenRead (P : Prims) (db : Database) (pw pr : Option (List Nat))
    (iv padding : List Nat) : Res Database :=
  match WriteConfig P (some db) pw iv padding with
  | Res.ok c => ReadConfig P c pr
  | Res.err e => Res.err e
  | Res.crash => Res.crash

/-- Tampering: `WriteConfig` with passphrase `pw`, then byte `i` of the bytes written is
replaced by `v`, then `ReadConfig` with the same passphrase. -/
def writeTamperRead (P : Prims) (db : Database) (pw : List Nat) (iv padding : List Nat)
    (i v : Nat) : Res Database :=
  match WriteConfig P (some db) (some pw) iv padding with
  | Res.ok c => ReadConfig P (c.set i v) (some pw)
  | Res.err e => Res.err e
  | Res.crash => Res.crash

/-- Go `IsEncrypted` on a file holding the bytes `WriteConfig` writes; `none` when
the write does not complete. -/
def writeThenIsEncrypted (P : Prims) (db : Database) (pw : Option (List Nat))
    (iv padding : List Nat) : Option Bool :=
  match WriteConfig P (some db) pw iv padding with
  | Res.ok c => some (IsEncrypted (some c))
  | _ => none

/-- RFC 4226 dynamic truncation of a 20-byte digest, in the words of the
specification: offset `digest[19] & 0x0F`, the big-endian 32-bit word at the
offset, sign bit cleared, modulo 1,000,000. -/
def dynamicTruncation (digest : List Nat) : Nat :=
  let o := digest.getD 19 0 &&& 0x0F
  let word := digest.getD o 0 * 2 ^ 24 + digest.getD (o + 1) 0 * 2 ^ 16 +
    digest.getD (o + 2) 0 * 2 ^ 8 + digest.getD (o + 3) 0
  (word &&& 0x7FFFFFFF) % 1000000

/-- The database of `TestLoadSaveUnencryptedDbFile`: one TOTP account
`Something` with secret `some secret`, one password `Something else` for
`loginame@example.com` with password `some secret`. -/
def sampleDb : Database :=
  { TotpAccounts := some [(ascii "Something", ⟨ascii "some secret"⟩)],
    Passwords := some [(ascii "Something else",
      ⟨ascii "loginame@example.com", ascii "some secret"⟩)] }

/-- The seed of the RFC 4226 test vectors, the ASCII digits
`12345678901234567890`. -/
def rfcSeed : List Nat := ascii "12345678901234567890"

/-- An IV that reads as the version-1 marker: `pwdb00000001` and four zero
bytes. -/
def markerIv : List Nat := magicId ++ [0, 0, 0, 0]

/-- A database with a password that is not valid UTF-8 (the single byte 0xFF). -/
def latin1Db : Database :=
  { TotpAccounts := some [], Passwords := some [([0x61], ⟨[0x75], [0xFF]⟩)] }

/-- The database `latin1Db` with the invalid byte replaced by U+FFFD. -/
def latin1DbRead : Database :=
  { TotpAccounts := some [], Passwords := some [([0x61], ⟨[0x75], [0xEF, 0xBF, 0xBD]⟩)] }

/-! ## Predicates of the specification -/

/-- Go `utf8.Valid`, with `fuel` bounding the number of runes: no position where
a rune starts decodes to the invalid-byte result `(runeError, 1)`. -/
def validUtf8Aux : Nat → List Nat → Bool
  | 0, s => s.isEmpty
  | _ + 1, [] => true
  | fuel + 1, b :: rest =>
    let rs := decodeRune (b :: rest)
    if rs.1 = runeError ∧ rs.2 = 1 then false
    else validUtf8Aux fuel ((b :: rest).drop rs.2)

/-- Go `utf8.Valid`. -/
def validUtf8 (s : List Nat) : Bool := validUtf8Aux s.length s

/-- Every key and every string field of the database is valid UTF-8. -/
def Database.validUtf8 (db : Database) : Bool :=
  mapAll Pwdb.validUtf8 (fun e => Pwdb.validUtf8 e.Secret) db.TotpAccounts &&
  mapAll Pwdb.validUtf8
    (fun e => Pwdb.validUtf8 e.Username && Pwdb.validUtf8 e.Password) db.Passwords

/-- The fixed-width form of a version marker: the first 12 bytes are `pwdb`
followed by exactly eight hexadecimal digits. -/
def isMarkerShape (b : List Nat) : Bool :=
  b.take 4 == magicPrefix && ((b.take 12).drop 4).length == 8 &&
  ((b.take 12).drop 4).all (fun c => (hexVal c).isSome)

/-- The fixed-width form with a non-zero version number. -/
def isFixedWidthMarker (b : List Nat) : Bool :=
  isMarkerShape b && parseHex 0 ((b.take 12).drop 4) != some 0

/-! ## Outcomes of a read -/

/-- What the specification calls a typed outcome of `ReadConfig`: a database,
`DatabaseEncryptedError`, `InvalidHMACError` or an error of `json.Unmarshal`. -/
def isTypedOutcome : Res Database → Bool
  | Res.ok _ => true
  | Res.err Error.databaseEncrypted => true
  | Res.err Error.invalidHMAC => true
  | Res.err Error.jsonSyntax => true
  | Res.err Error.jsonType => true
  | _ => false

/-- The block cipher writes a whole block when it decrypts one (Go
`Block.Decrypt` fills `dst[:BlockSize]`). -/
def Prims.DecryptSized (P : Prims) : Prop :=
  ∀ key block, block.length = 16 → (P.aesDecrypt key block).length = 16

/-- A body of IV and ciphertext followed by its MAC under the key derived from
`password` and the first 16 bytes: what `isHMACValid` accepts. -/
def withMac (password body : List Nat) : List Nat :=
  body ++ hmacSha256 (derivedKey password (body.take 16)) body

/-- The container `encrypt` would seal around an arbitrary plaintext of whole
blocks: IV, CBC ciphertext, MAC. -/
def sealedContainer (P : Prims) (password iv plaintext : List Nat) : List Nat :=
  withMac password
    (iv ++ cbcEncryptBlocks P (derivedKey password iv) (plaintext.length / 16) iv plaintext)

/-- The conditions under which `ReadConfig` stops at its assertion
`assertTrue(isValidMagicId(candidate), ...)`: no marker in front, a passphrase
whose MAC verifies, and a decrypted content without a valid marker. -/
def assertionFails (P : Prims) (c : List Nat) (k : Option (List Nat)) : Prop :=
  ∃ key candidate, k = some key ∧ isValidMagicId (readAllBacking c) = Res.ok false ∧
    isHMACValid key c = Res.ok true ∧
    decrypt P key (c.take (c.length - macSize)) = Res.ok candidate ∧
    isValidMagicId candidate = Res.ok false

/-! ## Base32 seeds

The encoder of `encoding/base32` and the two string operations the
specification uses to say what `Base32Secret` accepts. -/

/-- Character number `v` of the standard base32 alphabet `A`-`Z`, `2`-`7`. -/
def b32Char (v : Nat) : Nat := if v < 26 then 0x41 + v else 0x32 + (v - 26)

/-- The eight 5-bit values `(*Encoding).Encode` unpacks from a quantum of up to
five bytes (missing bytes count as zero). -/
def b32Unpack (s0 s1 s2 s3 s4 : Nat) : List Nat :=
  [s0 / 8, s0 % 8 * 4 + s1 / 64, s1 / 2 % 32, s1 % 2 * 16 + s2 / 16,
    s2 % 16 * 2 + s3 / 128, s3 / 4 % 32, s3 % 4 * 8 + s4 / 32, s4 % 32]

/-- Go `base32.StdEncoding.EncodeToString`: each quantum of five bytes becomes
eight characters; a last quantum of 1, 2, 3 or 4 bytes becomes 2, 4, 5 or 7
characters and 6, 4, 3 or 1 padding characters `=`. -/
def b32EncodeToString : List Nat → List Nat
  | [] => []
  | [s0] => ((b32Unpack s0 0 0 0 0).take 2).map b32Char ++ List.replicate 6 0x3D
  | [s0, s1] => ((b32Unpack s0 s1 0 0 0).take 4).map b32Char ++ List.replicate 4 0x3D
  | [s0, s1, s2] => ((b32Unpack s0 s1 s2 0 0).take 5).map b32Char ++ List.replicate 3 0x3D
  | [s0, s1, s2, s3] =>
    ((b32Unpack s0 s1 s2 s3 0).take 7).map b32Char ++ List.replicate 1 0x3D
  | s0 :: s1 :: s2 :: s3 :: s4 :: rest =>
    (b32Unpack s0 s1 s2 s3 s4).map b32Char ++ b32EncodeToString rest

/-- Go `strings.TrimRight(s, "=")`: the string without its trailing `=`. -/
def trimPadding (s : List Nat) : List Nat :=
  (s.reverse.dropWhile (fun c => c == 0x3D)).reverse

/-- The string right-padded with `=` up to the next multiple of 8 characters,
unchanged when its length is a multiple of 8. -/
def padToMultipleOf8 (s : List Nat) : List Nat :=
  s ++ List.replicate ((8 - s.length % 8) % 8) 0x3D

/-! ## CBC mode, as the specification of the ciphertext -/

/-- Block number `i` (16 bytes, counted from 0) of a byte string. -/
def blockAt (s : List Nat) (i : Nat) : List Nat := (s.drop (16 * i)).take 16

/-- CBC encryption (NIST SP 800-38A) as a relation between a plaintext of whole
blocks and a ciphertext: they are equally long, and every ciphertext block is
the block encryption of the plaintext block xored with the previous ciphertext
block, the IV for the first block. -/
def isCbcEncryption (P : Prims) (key iv plaintext ciphertext : List Nat) : Prop :=
  ciphertext.length = plaintext.length ∧
  ∀ i, 16 * i < plaintext.length →
    blockAt ciphertext i =
      P.aesEncrypt key
        (xorBytes (blockAt plaintext i) (if i = 0 then iv else blockAt ciphertext (i - 1)))

/-! ## The tokens `Sscanf` accepts as a marker -/

/-- The white space `Sscanf` skips in front of a number: the UTF-8 encoding of
white-space runes, none of them a newline. -/
def isScanSpaceRun (sp : List Nat) : Prop :=
  ∃ runes : List Nat, (∀ r ∈ runes, isSpace r = true ∧ r ≠ 0x0A) ∧
    sp = (runes.map encodeRune).flatten

/-- The tokens read as a version other than 0: `pwdb`, then white space (or
none), then any number of `0`, then a hexadecimal digit other than `0`; what
follows that digit is free. -/
def isAcceptedMarker (tok : List Nat) : Prop :=
  ∃ sp zeros d rest, tok = magicPrefix ++ sp ++ zeros ++ d :: rest ∧ isScanSpaceRun sp ∧
    (∀ z ∈ zeros, z = 0x30) ∧ ∃ x, hexVal d = some x ∧ x ≠ 0




/-! ## The version marker -/

theorem decodeRune_ascii (b0 : Nat) (s : List Nat) (h : b0 < 0x80) :
    decodeRune (b0 :: s) = (b0, 1) := by
  cases s <;> simp [decodeRune, h]

theorem hexVal_range {c d : Nat} (h : hexVal c = some d) : 0x30 ≤ c ∧ c ≤ 0x66 ∧ d < 16 := by
  unfold hexVal at h
  split_ifs at h with h1 h2 h3 <;> simp at h <;> omega

theorem isSpace_hex {c : Nat} (h1 : 0x30 ≤ c) (h2 : c ≤ 0x66) : isSpace c = false := by
  simp [isSpace]
  omega

theorem hexVal_hexChar {d : Nat} (h : d < 16) : hexVal (hexChar d) = some d := by
  unfold hexVal hexChar
  split_ifs <;> first | omega | (simp <;> omega)

theorem skipSpace_hex (n : Nat) (c : Nat) (s : List Nat) (h : (hexVal c).isSome) :
    skipSpace n (c :: s) = some (c :: s) := by
  obtain ⟨d, hd⟩ := Option.isSome_iff_exists.mp h
  obtain ⟨h1, h2, _⟩ := hexVal_range hd
  cases n with
  | zero => rfl
  | succ n =>
    have hlt : c < 0x80 := by omega
    simp only [skipSpace, decodeRune_ascii c s hlt, isSpace_hex h1 h2]
    have : c ≠ 0x0A := by omega
    simp [this]

theorem scanNumber_all (ds : List Nat) (n : Nat) (hn : ds.length ≤ n)
    (h : ∀ c ∈ ds, (hexVal c).isSome) : scanNumber n ds = ds := by
  induction ds generalizing n with
  | nil => cases n <;> rfl
  | cons c ds ih =>
    cases n with
    | zero => simp at hn
    | succ n =>
      have hc := h c (List.mem_cons_self _ _)
      simp only [scanNumber, isScanHexDigit, hc, Bool.true_or, if_true]
      rw [ih n (by simpa using hn) (fun x hx => h x (List.mem_cons_of_mem _ hx))]

theorem sscanfMarker_fixed (ds : List Nat) (hlen : ds.length = 8)
    (h : ∀ c ∈ ds, (hexVal c).isSome) :
    sscanfMarker (magicPrefix ++ ds) = parseHex 0 ds := by
  match ds, hlen with
  | c :: s, hlen =>
    have hs := skipSpace_hex (c :: s).length c s (h c (List.mem_cons_self _ _))
    have hn := scanNumber_all (c :: s) 8 (by omega) h
    simp only [magicPrefix, List.cons_append, List.nil_append, sscanfMarker, if_true, hs, hn]
    simp

theorem parseHex_hex8 (v : Nat) (h : v < 2 ^ 32) : parseHex 0 (hex8 v) = some v := by
  have e : ∀ d, d < 16 → hexVal (hexChar d) = some d := fun d hd => hexVal_hexChar hd
  simp only [hex8, parseHex]
  rw [e _ (Nat.mod_lt _ (by norm_num))]
  simp only [parseHex]
  rw [e _ (Nat.mod_lt _ (by norm_num))]
  simp only [parseHex]
  rw [e _ (Nat.mod_lt _ (by norm_num))]
  simp only [parseHex]
  rw [e _ (Nat.mod_lt _ (by norm_num))]
  simp only [parseHex]
  rw [e _ (Nat.mod_lt _ (by norm_num))]
  simp only [parseHex]
  rw [e _ (Nat.mod_lt _ (by norm_num))]
  simp only [parseHex]
  rw [e _ (Nat.mod_lt _ (by norm_num))]
  simp only [parseHex]
  rw [e _ (Nat.mod_lt _ (by norm_num))]
  simp only [parseHex]
  congr 1
  norm_num at h ⊢
  omega

theorem sscanfMarker_prefix {s : List Nat} {v : Nat} (h : sscanfMarker s = some v) :
    s.take 4 = magicPrefix := by
  match s, h with
  | p :: w :: d :: b :: rest, h =>
    simp only [sscanfMarker] at h
    split_ifs at h with hp
    simpa using hp

theorem isValidMagicId_eq (b : List Nat) (h : 12 ≤ b.length) :
    isValidMagicId b = Res.ok (match sscanfMarker (b.take 12) with
      | some ver => ver != 0
      | none => false) := by
  have h1 : ¬ b.length < 4 + 8 := by omega
  simp only [isValidMagicId, getDbVersion, magicMarkerLength, if_neg h1]
  cases sscanfMarker (List.take (4 + 8) b) <;> rfl

theorem isMarkerShape_take {b : List Nat} (h : isMarkerShape b = true) :
    b.take 12 = magicPrefix ++ (b.take 12).drop 4 ∧ ((b.take 12).drop 4).length = 8 ∧
      ∀ c ∈ (b.take 12).drop 4, (hexVal c).isSome := by
  simp only [isMarkerShape, Bool.and_eq_true, beq_iff_eq, List.all_eq_true] at h
  obtain ⟨⟨h1, h2⟩, h3⟩ := h
  refine ⟨?_, h2, h3⟩
  have : (b.take 12).take 4 = magicPrefix := by
    rw [List.take_take]; simpa using h1
  rw [← this, List.take_append_drop]

theorem makeFileMarker_shape (v : Nat) :
    (makeFileMarker v).take 12 = magicPrefix ++ hex8 (v % 2 ^ 32) ∧
      (hex8 (v % 2 ^ 32)).length = 8 ∧ ∀ c ∈ hex8 (v % 2 ^ 32), (hexVal c).isSome := by
  refine ⟨by simp [makeFileMarker, magicPrefix, hex8], by simp [hex8], ?_⟩
  intro c hc
  simp only [hex8, List.mem_cons, List.mem_singleton, List.not_mem_nil, or_false] at hc
  have e : ∀ d, hexVal (hexChar (d % 16)) = some (d % 16) :=
    fun d => hexVal_hexChar (Nat.mod_lt _ (by norm_num))
  rcases hc with h | h | h | h | h | h | h | h <;> rw [h, e] <;> rfl

theorem parseHex_isSome (ds : List Nat) (acc : Nat) (h : ∀ c ∈ ds, (hexVal c).isSome) :
    (parseHex acc ds).isSome := by
  induction ds generalizing acc with
  | nil => rfl
  | cons c ds ih =>
    obtain ⟨d, hd⟩ := Option.isSome_iff_exists.mp (h c (List.mem_cons_self _ _))
    simp only [parseHex, hd]
    exact ih _ (fun x hx => h x (List.mem_cons_of_mem _ hx))

/-! ## UTF-8 -/

theorem decodeRune_valid {s : List Nat} {r k : Nat} (h : decodeRune s = (r, k))
    (hv : ¬ (r = runeError ∧ k = 1)) (hne : s ≠ []) :
    1 ≤ k ∧ k ≤ s.length ∧ encodeRune r = s.take k ∧ (0x80 ≤ r ∨ k = 1) ∧
      ∀ t, decodeRune (s.take k ++ t) = (r, k) := by
  match s, hne with
  | [b0], _ =>
    simp only [decodeRune] at h
    split_ifs at h with h1
    · simp only [Prod.mk.injEq] at h
      obtain ⟨rfl, rfl⟩ := h
      refine ⟨le_refl _, by simp, by simp [encodeRune, h1], Or.inr rfl, ?_⟩
      intro t
      cases t <;> simp [decodeRune, h1]
    · simp only [Prod.mk.injEq] at h
      exact absurd ⟨h.1.symm, h.2.symm⟩ hv
  | b0 :: b1 :: rest, _ =>
    simp only [decodeRune] at h
    by_cases h1 : b0 < 0x80
    · simp only [h1, if_true, Prod.mk.injEq] at h
      obtain ⟨rfl, rfl⟩ := h
      refine ⟨le_refl _, by simp, by simp [encodeRune, h1], Or.inr rfl, ?_⟩
      intro t
      simp [decodeRune_ascii, h1]
    · simp only [h1, if_false] at h
      by_cases h2 : 0xC2 ≤ b0 ∧ b0 ≤ 0xDF
      · simp only [h2, and_self, if_true] at h
        by_cases h3 : 0x80 ≤ b1 ∧ b1 ≤ 0xBF
        · simp only [h3, and_self, if_true, Prod.mk.injEq] at h
          obtain ⟨rfl, rfl⟩ := h
          refine ⟨by omega, by simp, ?_, Or.inl (by omega), ?_⟩
          · have e1 : ¬ (b0 % 32 * 64 + b1 % 64 < 0x80) := by omega
            have e2 : b0 % 32 * 64 + b1 % 64 < 0x800 := by omega
            simp only [encodeRune, e1, e2, if_true, if_false, List.take_succ_cons, List.take_zero]
            congr 1
            · omega
            · congr 1; omega
          · intro t
            simp [decodeRune, h1, h2, h3]
        · simp only [h3, if_false, Prod.mk.injEq] at h
          exact absurd ⟨h.1.symm, h.2.symm⟩ hv
      · simp only [h2, if_false] at h
        by_cases h3 : 0xE0 ≤ b0 ∧ b0 ≤ 0xEF
        · simp only [h3, and_self, if_true] at h
          by_cases h4 : (if b0 = 0xE0 then 0xA0 else 0x80) ≤ b1 ∧
              b1 ≤ (if b0 = 0xED then 0x9F else 0xBF)
          · simp only [h4, and_self, if_true] at h
            match rest, h with
            | [], h =>
              simp only [Prod.mk.injEq] at h
              exact absurd ⟨h.1.symm, h.2.symm⟩ hv
            | b2 :: rest2, h =>
              simp only at h
              by_cases h5 : 0x80 ≤ b2 ∧ b2 ≤ 0xBF
              · simp only [h5, and_self, if_true, Prod.mk.injEq] at h
                obtain ⟨rfl, rfl⟩ := h
                have hb1 : 0x80 ≤ b1 ∧ b1 ≤ 0xBF := by
                  obtain ⟨l, u⟩ := h4
                  split_ifs at l u <;> omega
                have hr : 0x800 ≤ b0 % 16 * 4096 + b1 % 64 * 64 + b2 % 64 := by
                  obtain ⟨l, u⟩ := h4
                  split_ifs at l u <;> omega
                have hs : ¬ (0xD800 ≤ b0 % 16 * 4096 + b1 % 64 * 64 + b2 % 64 ∧
                    b0 % 16 * 4096 + b1 % 64 * 64 + b2 % 64 ≤ 0xDFFF) := by
                  obtain ⟨l, u⟩ := h4
                  split_ifs at l u <;> omega
                refine ⟨by omega, by simp, ?_, Or.inl (by omega), ?_⟩
                · have e1 : ¬ (b0 % 16 * 4096 + b1 % 64 * 64 + b2 % 64 < 0x80) := by omega
                  have e2 : ¬ (b0 % 16 * 4096 + b1 % 64 * 64 + b2 % 64 < 0x800) := by omega
                  have e3 : ¬ (0x10FFFF < b0 % 16 * 4096 + b1 % 64 * 64 + b2 % 64) := by omega
                  have e4 : b0 % 16 * 4096 + b1 % 64 * 64 + b2 % 64 < 0x10000 := by omega
                  simp only [encodeRune, e1, e2, e3, e4, hs, or_self, if_true, if_false,
                    List.take_succ_cons, List.take_zero]
                  congr 1
                  · omega
                  · congr 1
                    · omega
                    · congr 1; omega
                · intro t
                  simp [decodeRune, h1, h2, h3, h4, h5]
              · simp only [h5, if_false, Prod.mk.injEq] at h
                exact absurd ⟨h.1.symm, h.2.symm⟩ hv
          · simp only [h4, if_false, Prod.mk.injEq] at h
            exact absurd ⟨h.1.symm, h.2.symm⟩ hv
        · simp only [h3, if_false] at h
          by_cases h6 : 0xF0 ≤ b0 ∧ b0 ≤ 0xF4
          · simp only [h6, and_self, if_true] at h
            by_cases h4 : (if b0 = 0xF0 then 0x90 else 0x80) ≤ b1 ∧
                b1 ≤ (if b0 = 0xF4 then 0x8F else 0xBF)
            · simp only [h4, and_self, if_true] at h
              match rest, h with
              | [], h =>
                simp only [Prod.mk.injEq] at h
                exact absurd ⟨h.1.symm, h.2.symm⟩ hv
              | [_], h =>
                simp only [Prod.mk.injEq] at h
                exact absurd ⟨h.1.symm, h.2.symm⟩ hv
              | b2 :: b3 :: rest3, h =>
                simp only at h
                by_cases h5 : 0x80 ≤ b2 ∧ b2 ≤ 0xBF ∧ 0x80 ≤ b3 ∧ b3 ≤ 0xBF
                · simp only [h5, and_self, if_true, Prod.mk.injEq] at h
                  obtain ⟨rfl, rfl⟩ := h
                  have hb1 : 0x80 ≤ b1 ∧ b1 ≤ 0xBF := by
                    obtain ⟨l, u⟩ := h4
                    split_ifs at l u <;> omega
                  have hr : 0x10000 ≤
                      b0 % 8 * 262144 + b1 % 64 * 4096 + b2 % 64 * 64 + b3 % 64 := by
                    obtain ⟨l, u⟩ := h4
                    split_ifs at l u <;> omega
                  have hu : b0 % 8 * 262144 + b1 % 64 * 4096 + b2 % 64 * 64 + b3 % 64
                      ≤ 0x10FFFF := by
                    obtain ⟨l, u⟩ := h4
                    split_ifs at l u <;> omega
                  refine ⟨by omega, by simp, ?_, Or.inl (by omega), ?_⟩
                  · have e1 : ¬ (b0 % 8 * 262144 + b1 % 64 * 4096 + b2 % 64 * 64 + b3 % 64
                        < 0x80) := by omega
                    have e2 : ¬ (b0 % 8 * 262144 + b1 % 64 * 4096 + b2 % 64 * 64 + b3 % 64
                        < 0x800) := by omega
                    have e3 : ¬ (0x10FFFF <
                        b0 % 8 * 262144 + b1 % 64 * 4096 + b2 % 64 * 64 + b3 % 64) := by omega
                    have e4 : ¬ (b0 % 8 * 262144 + b1 % 64 * 4096 + b2 % 64 * 64 + b3 % 64
                        < 0x10000) := by omega
                    have e5 : ¬ (0xD800 ≤
                        b0 % 8 * 262144 + b1 % 64 * 4096 + b2 % 64 * 64 + b3 % 64 ∧
                        b0 % 8 * 262144 + b1 % 64 * 4096 + b2 % 64 * 64 + b3 % 64
                          ≤ 0xDFFF) := by omega
                    simp only [encodeRune, e1, e2, e3, e4, e5, or_self, if_false,
                      List.take_succ_cons, List.take_zero]
                    congr 1
                    · omega
                    · congr 1
                      · omega
                      · congr 1
                        · omega
                        · congr 1; omega
                  · intro t
                    simp [decodeRune, h1, h2, h3, h6, h4, h5]
                · simp only [h5, if_false, Prod.mk.injEq] at h
                  exact absurd ⟨h.1.symm, h.2.symm⟩ hv
            · simp only [h4, if_false, Prod.mk.injEq] at h
              exact absurd ⟨h.1.symm, h.2.symm⟩ hv
          · simp only [h6, if_false, Prod.mk.injEq] at h
            exact absurd ⟨h.1.symm, h.2.symm⟩ hv

/-! ## JSON strings -/

theorem parse_escapeByte (b : Nat) (hb : b < 0x80) (m : Nat) (tail : List Nat)
    (r : List Nat × List Nat) (h : parseStringBody m tail = some r) :
    parseStringBody (m + 1) (escapeByte b ++ tail) = some (b :: r.1, r.2) := by
  unfold escapeByte
  split_ifs with h1 h2 h3 h4 h5 h6 h7
  · have e1 : b ≠ 0x75 := by omega
    have e2 : simpleEscape b = some b := by
      unfold simpleEscape
      rw [if_pos (by omega)]
    simp [parseStringBody, e1, e2, h]
  · subst h2; simp [parseStringBody, simpleEscape, h]
  · subst h3; simp [parseStringBody, simpleEscape, h]
  · subst h4; simp [parseStringBody, simpleEscape, h]
  · subst h5; simp [parseStringBody, simpleEscape, h]
  · subst h6; simp [parseStringBody, simpleEscape, h]
  · have d1 : hexVal (hexChar (b / 16)) = some (b / 16) := hexVal_hexChar (by omega)
    have d2 : hexVal (hexChar (b % 16)) = some (b % 16) := hexVal_hexChar (by omega)
    have d0 : hexVal 0x30 = some 0 := by decide
    have g : getu4 (0x5C :: 0x75 :: 0x30 :: 0x30 :: hexChar (b / 16) :: hexChar (b % 16) :: tail)
        = some b := by
      simp only [getu4, d0, d1, d2, and_self, if_true]
      congr 1; omega
    have e3 : ¬ (0xD800 ≤ b ∧ b < 0xE000) := by omega
    show parseStringBody (m + 1) (0x5C :: 0x75 :: 0x30 :: 0x30 :: hexChar (b / 16) ::
      hexChar (b % 16) :: tail) = _
    simp only [parseStringBody, g]
    simp [e3, h, encodeRune, hb]
  · have e1 : b ≠ 0x22 := by omega
    have e2 : b ≠ 0x5C := by omega
    have e3 : ¬ b < 0x20 := by omega
    simp [parseStringBody, e1, e2, e3, hb, h]

theorem escapeByte_length_pos (b : Nat) : 1 ≤ (escapeByte b).length := by
  unfold escapeByte
  split_ifs <;> simp

theorem parse_appendStringBody (n : Nat) : ∀ (s rest : List Nat) (m : Nat), s.length ≤ n →
    validUtf8Aux n s = true → (appendStringBody n s).length < m →
    parseStringBody m (appendStringBody n s ++ 0x22 :: rest) = some (s, rest) := by
  induction n with
  | zero =>
    intro s rest m hl _ hm
    have hs : s = [] := List.length_eq_zero.mp (by omega)
    subst hs
    match m, hm with
    | m + 1, _ => simp [appendStringBody, parseStringBody]
  | succ n ih =>
    intro s rest m hl hv hm
    match s, hl, hv, hm with
    | [], _, _, hm =>
      match m, hm with
      | m + 1, _ => simp [appendStringBody, parseStringBody]
    | b :: s1, hl, hv, hm =>
      match m, hm with
      | m + 1, hm =>
        by_cases hb : b < 0x80
        · have hd := decodeRune_ascii b s1 hb
          simp only [validUtf8Aux, hd, List.drop_succ_cons, List.drop_zero] at hv
          have hv1 : validUtf8Aux n s1 = true := by
            split_ifs at hv; exact hv
          simp only [appendStringBody, if_pos hb, List.length_append] at hm ⊢
          have hp := escapeByte_length_pos b
          have ih1 := ih s1 rest m (by simpa using hl) hv1 (by omega)
          rw [List.append_assoc]
          exact parse_escapeByte b hb m _ _ ih1
        · cases hd : decodeRune (b :: s1) with
          | mk r k =>
            simp only [validUtf8Aux, hd] at hv
            have hvalid : ¬ (r = runeError ∧ k = 1) := by
              intro hc; simp [hc] at hv
            rw [if_neg hvalid] at hv
            obtain ⟨k1, k2, henc, _, hpre⟩ := decodeRune_valid hd hvalid (by simp)
            have hlen : ((b :: s1).drop k).length ≤ n := by
              simp only [List.length_drop, List.length_cons] at hl ⊢; omega
            have htk : (b :: s1).take k = b :: s1.take (k - 1) := by
              obtain ⟨j, rfl⟩ : ∃ j, k = j + 1 := ⟨k - 1, by omega⟩
              simp
            simp only [appendStringBody, if_neg hb, hd, if_neg hvalid] at hm ⊢
            by_cases hsep : r = 0x2028 ∨ r = 0x2029
            · simp only [if_pos hsep, List.length_append, List.length_cons,
                List.length_nil] at hm ⊢
              have ih1 := ih _ rest m hlen hv (by omega)
              have d2 : hexVal 0x32 = some 2 := by decide
              have d0 : hexVal 0x30 = some 0 := by decide
              have d3 : hexVal (hexChar (r % 16)) = some (r % 16) :=
                hexVal_hexChar (Nat.mod_lt _ (by norm_num))
              have g : ∀ t, getu4 (0x5C :: 0x75 :: 0x32 :: 0x30 :: 0x32 :: hexChar (r % 16) :: t)
                  = some r := by
                intro t
                simp only [getu4, d0, d2, d3, and_self, if_true]
                congr 1
                rcases hsep with h | h <;> subst h <;> rfl
              have e3 : ¬ (0xD800 ≤ r ∧ r < 0xE000) := by omega
              show parseStringBody (m + 1) (0x5C :: 0x75 :: 0x32 :: 0x30 :: 0x32 ::
                hexChar (r % 16) :: (appendStringBody n ((b :: s1).drop k) ++ 0x22 :: rest)) = _
              simp only [parseStringBody, g]
              simp only [reduceCtorEq, if_false, if_true, e3, List.drop_succ_cons,
                List.drop_zero, ih1, Option.map_some', henc, List.take_append_drop]
              simp
            · simp only [if_neg hsep, List.length_append, List.length_take] at hm ⊢
              have ih1 := ih _ rest m hlen hv (by omega)
              have e1 : b ≠ 0x22 := by omega
              have e2 : b ≠ 0x5C := by omega
              have e3 : ¬ b < 0x20 := by omega
              have hpre1 := hpre (appendStringBody n ((b :: s1).drop k) ++ 0x22 :: rest)
              rw [List.append_assoc]
              have hdrop : ((b :: s1).take k ++
                  (appendStringBody n ((b :: s1).drop k) ++ 0x22 :: rest)).drop k =
                  appendStringBody n ((b :: s1).drop k) ++ 0x22 :: rest := by
                rw [List.drop_append_eq_append_drop]
                simp only [List.length_take, List.length_cons] at k2 ⊢
                rw [List.drop_eq_nil_of_le (by simp)]
                simp [Nat.min_eq_left k2]
              generalize htail : appendStringBody n ((b :: s1).drop k) ++ 0x22 :: rest = tl
                at hpre1 hdrop ih1 ⊢
              rw [htk] at hpre1 hdrop ⊢
              simp only [List.cons_append] at hpre1 hdrop ⊢
              simp only [parseStringBody, e1, e2, e3, hb, if_false, hpre1, hdrop, ih1,
                Option.map_some', henc]
              rw [htk]
              simp only [List.cons_append, Option.some.injEq, Prod.mk.injEq, and_true]
              rw [← List.cons_append, ← htk, List.take_append_drop]

/-! ## JSON values -/

theorem skipWs_cons_of_not_space (c : Nat) (s : List Nat) (h : isJsonSpace c = false) :
    skipWs (c :: s) = c :: s := by
  simp [skipWs, h]

theorem appendString_append (s rest : List Nat) :
    appendString s ++ rest = 0x22 :: (appendStringBody s.length s ++ 0x22 :: rest) := by
  simp [appendString]

theorem parse_appendString_tail (s rest : List Nat) (hv : validUtf8 s = true) :
    parseStringBody (appendStringBody s.length s ++ 0x22 :: rest).length
      (appendStringBody s.length s ++ 0x22 :: rest) = some (s, rest) :=
  parse_appendStringBody s.length s rest _ (le_refl _) hv (by simp)

/-- A string value. -/
theorem parseValue_string (f d : Nat) (s rest : List Nat) (hv : validUtf8 s = true) :
    parseValue (f + 1) d (appendString s ++ rest) = some (JValue.string s, rest) := by
  rw [appendString_append, parseValue, skipWs_cons_of_not_space _ _ (by decide)]
  simp only [Nat.reduceEqDiff, if_false, if_true, parse_appendString_tail s rest hv,
    Option.map_some']

/-- One member of an object, followed by a comma. -/
theorem parseMembers_comma (f d : Nat) (k vs : List Nat) (v : JValue) (s5 : List Nat)
    (hk : validUtf8 k = true) (hval : parseValue f d vs = some (v, 0x2C :: s5)) :
    parseMembers (f + 1) d (appendString k ++ 0x3A :: vs) =
      (parseMembers f d s5).map (fun r => ((k, v) :: r.1, r.2)) := by
  rw [appendString_append, parseMembers, skipWs_cons_of_not_space _ _ (by decide)]
  simp only [if_true, parse_appendString_tail k _ hk]
  rw [skipWs_cons_of_not_space _ _ (by decide)]
  simp only [if_true, hval]
  rw [skipWs_cons_of_not_space _ _ (by decide)]
  simp only [if_true]

/-- The last member of an object, followed by the closing brace. -/
theorem parseMembers_last (f d : Nat) (k vs : List Nat) (v : JValue) (s5 : List Nat)
    (hk : validUtf8 k = true) (hval : parseValue f d vs = some (v, 0x7D :: s5)) :
    parseMembers (f + 1) d (appendString k ++ 0x3A :: vs) = some ([(k, v)], s5) := by
  rw [appendString_append, parseMembers, skipWs_cons_of_not_space _ _ (by decide)]
  simp only [if_true, parse_appendString_tail k _ hk]
  rw [skipWs_cons_of_not_space _ _ (by decide)]
  simp only [if_true, hval]
  rw [skipWs_cons_of_not_space _ _ (by decide)]
  simp only [Nat.reduceEqDiff, if_false, if_true]

/-- An object with at least one member: the opening brace. -/
theorem parseValue_object (f d : Nat) (c : Nat) (s : List Nat)
    (ms : List (List Nat × JValue)) (rest : List Nat)
    (hc : c = 0x22) (hm : parseMembers f d (c :: s) = some (ms, rest)) :
    parseValue (f + 1) (d + 1) (0x7B :: c :: s) = some (JValue.object ms, rest) := by
  subst hc
  rw [parseValue, skipWs_cons_of_not_space _ _ (by decide)]
  simp only [if_true, Nat.add_one_ne_zero, if_false]
  rw [skipWs_cons_of_not_space _ _ (by decide)]
  simp only [Nat.reduceEqDiff, if_false, Nat.add_sub_cancel, hm, Option.map_some']

/-- The empty object. -/
theorem parseValue_empty_object (f d : Nat) (rest : List Nat) :
    parseValue (f + 1) (d + 1) (0x7B :: 0x7D :: rest) = some (JValue.object [], rest) := by
  rw [parseValue, skipWs_cons_of_not_space _ _ (by decide)]
  simp only [if_true, Nat.add_one_ne_zero, if_false]
  rw [skipWs_cons_of_not_space _ _ (by decide)]
  simp only [if_true]

/-- The literal `null`. -/
theorem parseValue_null (f d : Nat) (rest : List Nat) :
    parseValue (f + 1) d (ascii "null" ++ rest) = some (JValue.null, rest) := by
  show parseValue (f + 1) d (0x6E :: 0x75 :: 0x6C :: 0x6C :: rest) = _
  rw [parseValue, skipWs_cons_of_not_space _ _ (by decide)]
  simp [stripPrefix, ascii]

/-- An object whose first key is written by `appendString`. -/
theorem parseValue_object_key (f d : Nat) (k tail : List Nat)
    (ms : List (List Nat × JValue)) (rest : List Nat)
    (hm : parseMembers f d (appendString k ++ tail) = some (ms, rest)) :
    parseValue (f + 1) (d + 1) (0x7B :: (appendString k ++ tail)) =
      some (JValue.object ms, rest) := by
  rw [appendString_append] at hm ⊢
  exact parseValue_object f d _ _ ms rest rfl hm

theorem encTotpEntry_append (e : TotpEntry) (rest : List Nat) :
    encTotpEntry e ++ rest =
      0x7B :: (appendString (ascii "Secret") ++ 0x3A :: (appendString e.Secret ++ 0x7D :: rest)) := by
  have h : ascii "\x7b\"Secret\":" = 0x7B :: (appendString (ascii "Secret") ++ [0x3A]) := by
    decide
  simp only [encTotpEntry, h, List.cons_append, List.append_assoc, List.singleton_append,
    List.nil_append]

theorem encPasswordEntry_append (e : PasswordEntry) (rest : List Nat) :
    encPasswordEntry e ++ rest =
      0x7B :: (appendString (ascii "Username") ++ 0x3A :: (appendString e.Username ++
        0x2C :: (appendString (ascii "Password") ++ 0x3A ::
          (appendString e.Password ++ 0x7D :: rest)))) := by
  have h : ascii "\x7b\"Username\":" = 0x7B :: (appendString (ascii "Username") ++ [0x3A]) := by
    decide
  have h2 : ascii ",\"Password\":" = 0x2C :: (appendString (ascii "Password") ++ [0x3A]) := by
    decide
  simp only [encPasswordEntry, h, h2, List.cons_append, List.append_assoc,
    List.singleton_append, List.nil_append]

/-- The JSON of a `TotpEntry` parses to its tree. -/
theorem parseValue_totpEntry (f d : Nat) (e : TotpEntry) (rest : List Nat)
    (hv : validUtf8 e.Secret = true) (hf : 3 ≤ f) :
    parseValue f (d + 1) (encTotpEntry e ++ rest) = some (jTotpEntry e, rest) := by
  obtain ⟨g, rfl⟩ : ∃ g, f = g + 3 := ⟨f - 3, by omega⟩
  rw [encTotpEntry_append]
  apply parseValue_object_key
  exact parseMembers_last (g + 1) d _ _ _ _ (by decide) (parseValue_string g d _ _ hv)

/-- The JSON of a `PasswordEntry` parses to its tree. -/
theorem parseValue_passwordEntry (f d : Nat) (e : PasswordEntry) (rest : List Nat)
    (hu : validUtf8 e.Username = true) (hp : validUtf8 e.Password = true) (hf : 4 ≤ f) :
    parseValue f (d + 1) (encPasswordEntry e ++ rest) = some (jPasswordEntry e, rest) := by
  obtain ⟨g, rfl⟩ : ∃ g, f = g + 4 := ⟨f - 4, by omega⟩
  rw [encPasswordEntry_append]
  apply parseValue_object_key
  rw [parseMembers_comma (g + 2) d _ _ _ _ (by decide) (parseValue_string (g + 1) d _ _ hu)]
  rw [parseMembers_last (g + 1) d _ _ _ _ (by decide) (parseValue_string g d _ _ hp)]
  rfl

/-- The members of a non-empty map parse to the members of its tree. -/
theorem parseMembers_encMembers {V : Type} (encV : V → List Nat) (toJ : V → JValue)
    (pv : V → Prop) (c d : Nat)
    (hV : ∀ v f rest, pv v → c ≤ f → parseValue f d (encV v ++ rest) = some (toJ v, rest))
    (l : List (List Nat × V)) (hne : l ≠ []) :
    ∀ f rest, (∀ kv ∈ l, validUtf8 kv.1 = true ∧ pv kv.2) → l.length + c ≤ f →
      parseMembers f d (encMembers encV l ++ 0x7D :: rest) =
        some (l.map (fun kv => (kv.1, toJ kv.2)), rest) := by
  induction l with
  | nil => exact absurd rfl hne
  | cons kv l ih =>
    intro f rest hall hf
    obtain ⟨g, rfl⟩ : ∃ g, f = g + 1 := ⟨f - 1, by simp at hf; omega⟩
    have hkv := hall kv (List.mem_cons_self _ _)
    cases l with
    | nil =>
      simp only [encMembers, List.append_assoc, List.cons_append, List.map_cons, List.map_nil]
      exact parseMembers_last g d _ _ _ _ hkv.1 (hV _ _ _ hkv.2 (by simp at hf; omega))
    | cons kv2 l2 =>
      simp only [encMembers, List.append_assoc, List.cons_append]
      rw [parseMembers_comma g d _ _ _ _ hkv.1 (hV _ _ _ hkv.2 (by simp at hf; omega))]
      have ih1 := ih (by simp) g rest (fun x hx => hall x (List.mem_cons_of_mem _ hx))
        (by simp at hf ⊢; omega)
      rw [ih1]
      rfl

theorem appendString_length (s : List Nat) : 2 ≤ (appendString s).length := by
  simp [appendString]

theorem encMembers_length {V : Type} (encV : V → List Nat) (l : List (List Nat × V)) :
    l.length ≤ (encMembers encV l).length := by
  induction l with
  | nil => simp
  | cons kv l ih =>
    cases l with
    | nil =>
      have := appendString_length kv.1
      simp only [encMembers, List.length_append, List.length_cons, List.length_nil]
      omega
    | cons kv2 l2 =>
      simp only [encMembers, List.length_append, List.length_cons] at ih ⊢
      omega

theorem encMap_length {V : Type} (encV : V → List Nat) (m : Option (List (List Nat × V))) :
    (m.getD []).length + 2 ≤ (encMap encV m).length := by
  cases m with
  | none => simp [encMap, ascii]
  | some l =>
    have := encMembers_length encV l
    simp only [encMap, Option.getD_some, List.length_cons, List.length_append, List.length_nil]
    omega

theorem encMembers_cons_shape {V : Type} (encV : V → List Nat) (kv : List Nat × V)
    (l : List (List Nat × V)) (rest : List Nat) :
    ∃ tail, encMembers encV (kv :: l) ++ rest = appendString kv.1 ++ tail := by
  cases l with
  | nil => exact ⟨0x3A :: encV kv.2 ++ rest, by simp only [encMembers, List.append_assoc]⟩
  | cons kv2 l2 =>
    exact ⟨0x3A :: encV kv.2 ++ (0x2C :: encMembers encV (kv2 :: l2) ++ rest),
      by simp only [encMembers, List.append_assoc]⟩

/-- The JSON of a map parses to its tree. -/
theorem parseValue_encMap {V : Type} (encV : V → List Nat) (toJ : V → JValue)
    (pv : V → Prop) (c d : Nat)
    (hV : ∀ v f rest, pv v → c ≤ f → parseValue f d (encV v ++ rest) = some (toJ v, rest))
    (m : Option (List (List Nat × V))) (f : Nat) (rest : List Nat)
    (hall : ∀ kv ∈ m.getD [], validUtf8 kv.1 = true ∧ pv kv.2)
    (hf : (m.getD []).length + c + 1 ≤ f) :
    parseValue f (d + 1) (encMap encV m ++ rest) = some (jMap toJ m, rest) := by
  obtain ⟨g, rfl⟩ : ∃ g, f = g + 1 := ⟨f - 1, by omega⟩
  cases m with
  | none => exact parseValue_null g _ rest
  | some l =>
    cases l with
    | nil => exact parseValue_empty_object g d rest
    | cons kv l =>
      have hm := parseMembers_encMembers encV toJ pv c d hV (kv :: l) (by simp) g rest hall
        (by simpa using hf)
      simp only [encMap, List.cons_append, List.append_assoc, List.singleton_append, jMap,
        List.nil_append]
      obtain ⟨tail, ht⟩ := encMembers_cons_shape encV kv l (0x7D :: rest)
      rw [ht] at hm ⊢
      exact parseValue_object_key g d _ _ _ _ hm

theorem mapAll_getD {V : Type} (pk : List Nat → Bool) (pv : V → Bool)
    (m : Option (List (List Nat × V))) (h : mapAll pk pv m = true) :
    ∀ kv ∈ m.getD [], pk kv.1 = true ∧ pv kv.2 = true := by
  cases m with
  | none => simp
  | some l =>
    intro kv hkv
    simp only [mapAll, List.all_eq_true, Bool.and_eq_true] at h
    exact h kv hkv

theorem jsonMarshal_shape (db : Database) :
    jsonMarshal db = 0x7B :: (appendString (ascii "TotpAccounts") ++ 0x3A ::
      (encMap encTotpEntry db.TotpAccounts ++ 0x2C :: (appendString (ascii "Passwords") ++
        0x3A :: (encMap encPasswordEntry db.Passwords ++ 0x7D :: [])))) := by
  have h : ascii "\x7b\"TotpAccounts\":" =
      0x7B :: (appendString (ascii "TotpAccounts") ++ [0x3A]) := by decide
  have h2 : ascii ",\"Passwords\":" = 0x2C :: (appendString (ascii "Passwords") ++ [0x3A]) := by
    decide
  simp only [jsonMarshal, h, h2, List.cons_append, List.append_assoc, List.singleton_append,
    List.nil_append]

theorem jsonMarshal_length (db : Database) :
    (db.TotpAccounts.getD []).length + (db.Passwords.getD []).length + 30 ≤
      (jsonMarshal db).length := by
  have h1 := encMap_length encTotpEntry db.TotpAccounts
  have h2 := encMap_length encPasswordEntry db.Passwords
  simp only [jsonMarshal, List.length_append, List.length_cons, List.length_nil,
    show (ascii "\x7b\"TotpAccounts\":").length = 16 from rfl,
    show (ascii ",\"Passwords\":").length = 13 from rfl]
  omega

/-- The JSON of a database with valid UTF-8 strings parses to its tree. -/
theorem jsonParse_jsonMarshal (db : Database) (hv : db.validUtf8 = true) :
    jsonParse (jsonMarshal db) = some (jDatabase db) := by
  simp only [Database.validUtf8, Bool.and_eq_true] at hv
  have ht := mapAll_getD _ _ _ hv.1
  have hp := mapAll_getD _ _ _ hv.2
  have hlen := jsonMarshal_length db
  obtain ⟨g, hg⟩ : ∃ g, (jsonMarshal db).length = g + 2 := ⟨(jsonMarshal db).length - 2, by omega⟩
  have v1 := parseValue_encMap encTotpEntry jTotpEntry (fun e => validUtf8 e.Secret = true) 3
    (9997 + 1) (fun v f rest h1 h2 => parseValue_totpEntry f 9997 v rest h1 h2)
    db.TotpAccounts (g + 1) (0x2C :: (appendString (ascii "Passwords") ++
        0x3A :: (encMap encPasswordEntry db.Passwords ++ 0x7D :: []))) ht (by omega)
  have v2 := parseValue_encMap encPasswordEntry jPasswordEntry
    (fun e => validUtf8 e.Username = true ∧ validUtf8 e.Password = true) 4
    (9997 + 1) (fun v f rest h1 h2 => parseValue_passwordEntry f 9997 v rest h1.1 h1.2 h2)
    db.Passwords g [0x7D]
    (fun kv hkv => ⟨(hp kv hkv).1, by simpa using (hp kv hkv).2⟩) (by omega)
  have m2 := parseMembers_last g (9998 + 1) (ascii "Passwords") _ _ _ (by decide) v2
  have m1 := parseMembers_comma (g + 1) (9998 + 1) (ascii "TotpAccounts") _ _ _ (by decide) v1
  rw [m2] at m1
  have top := parseValue_object_key (g + 2) (9998 + 1) _ _ _ _ m1
  simp only [jsonParse, hg, maxNestingDepth]
  rw [jsonMarshal_shape]
  rw [show (10000 : Nat) = 9998 + 1 + 1 from rfl, top]
  simp [skipWs, jDatabase]

/-! ## Decoding the JSON tree -/

theorem bytesLt_irrefl (a : List Nat) : bytesLt a a = false := by
  induction a with
  | nil => rfl
  | cons x xs ih => simp [bytesLt, ih]

theorem bytesLt_trans : ∀ (a b c : List Nat), bytesLt a b = true → bytesLt b c = true →
    bytesLt a c = true
  | [], [], _, h, _ => by simp [bytesLt] at h
  | [], _ :: _, [], _, h => by simp [bytesLt] at h
  | [], _ :: _, _ :: _, _, _ => by simp [bytesLt]
  | _ :: _, [], _, h, _ => by simp [bytesLt] at h
  | _ :: _, _ :: _, [], _, h => by simp [bytesLt] at h
  | x :: xs, y :: ys, z :: zs, h1, h2 => by
    simp only [bytesLt, Bool.or_eq_true, decide_eq_true_eq, Bool.and_eq_true, beq_iff_eq]
      at h1 h2 ⊢
    rcases h1 with h1 | ⟨e1, t1⟩ <;> rcases h2 with h2 | ⟨e2, t2⟩
    · left; omega
    · left; omega
    · left; omega
    · right; exact ⟨by omega, bytesLt_trans xs ys zs t1 t2⟩

theorem bytesLt_ne {a b : List Nat} (h : bytesLt a b = true) : a ≠ b := by
  intro e; subst e; rw [bytesLt_irrefl] at h; exact Bool.false_ne_true h

theorem bytesLt_asymm {a b : List Nat} (h : bytesLt a b = true) : bytesLt b a = false := by
  cases hb : bytesLt b a with
  | false => rfl
  | true =>
    have := bytesLt_trans a b a h hb
    rw [bytesLt_irrefl] at this
    exact absurd this Bool.false_ne_true

theorem keysSorted_tail {V : Type} (kv : List Nat × V) (l : List (List Nat × V))
    (h : keysSorted (kv :: l) = true) : keysSorted l = true := by
  cases l with
  | nil => rfl
  | cons kv2 l2 =>
    simp only [keysSorted, Bool.and_eq_true] at h
    exact h.2

theorem keysSorted_head_lt {V : Type} (kv : List Nat × V) (l : List (List Nat × V))
    (h : keysSorted (kv :: l) = true) : ∀ x ∈ l, bytesLt kv.1 x.1 = true := by
  induction l generalizing kv with
  | nil => simp
  | cons kv2 l2 ih =>
    simp only [keysSorted, Bool.and_eq_true] at h
    intro x hx
    rcases List.mem_cons.mp hx with rfl | hx
    · exact h.1
    · exact bytesLt_trans _ _ _ h.1 (ih kv2 h.2 x hx)

/-- Storing a key above all present keys appends the entry. -/
theorem mapInsert_append {V : Type} (k : List Nat) (v : V) (acc : List (List Nat × V))
    (h : keysSorted (acc ++ [(k, v)]) = true) : mapInsert k v acc = acc ++ [(k, v)] := by
  induction acc with
  | nil => rfl
  | cons kv acc ih =>
    have hlt := keysSorted_head_lt kv (acc ++ [(k, v)]) h (k, v) (by simp)
    have h1 : k ≠ kv.1 := (bytesLt_ne hlt).symm
    have h2 : bytesLt k kv.1 = false := bytesLt_asymm hlt
    simp only [mapInsert, if_neg h1, h2, Bool.false_eq_true, if_false, List.cons_append]
    rw [ih (keysSorted_tail kv _ h)]

theorem keysSorted_prefix {V : Type} (a b : List (List Nat × V))
    (h : keysSorted (a ++ b) = true) : keysSorted a = true := by
  induction a with
  | nil => rfl
  | cons kv a ih =>
    cases a with
    | nil => rfl
    | cons kv2 a2 =>
      simp only [List.cons_append, keysSorted, Bool.and_eq_true] at h ⊢
      exact ⟨h.1, ih h.2⟩

/-- Decoding the members of a map's tree rebuilds the map. -/
theorem decodeMapMembers_map {V : Type} (dec : V → JValue → Option V) (zero : V)
    (toJ : V → JValue) (hdec : ∀ v, dec zero (toJ v) = some v) (l : List (List Nat × V)) :
    ∀ acc, keysSorted (acc ++ l) = true →
      decodeMapMembers dec zero (l.map (fun kv => (kv.1, toJ kv.2))) acc = some (acc ++ l) := by
  induction l with
  | nil => intro acc _; simp [decodeMapMembers]
  | cons kv l ih =>
    intro acc h
    have hpre : keysSorted (acc ++ [(kv.1, kv.2)]) = true := by
      apply keysSorted_prefix _ l
      simpa using h
    simp only [List.map_cons, decodeMapMembers, hdec]
    rw [mapInsert_append _ _ _ hpre, ih _ (by simpa using h)]
    simp

theorem decodeMap_jMap {V : Type} (dec : V → JValue → Option V) (zero : V)
    (toJ : V → JValue) (hdec : ∀ v, dec zero (toJ v) = some v)
    (m : Option (List (List Nat × V)))
    (h : ∀ l, m = some l → keysSorted l = true) :
    decodeMap dec zero none (jMap toJ m) = some m := by
  cases m with
  | none => rfl
  | some l =>
    simp only [jMap, decodeMap, Option.getD_none]
    rw [decodeMapMembers_map dec zero toJ hdec l [] (by simpa using h l rfl)]
    simp

theorem decodeTotpEntry_jTotpEntry (e : TotpEntry) :
    decodeTotpEntry ⟨[]⟩ (jTotpEntry e) = some e := by
  have h : foldEq (ascii "Secret") (ascii "Secret") = true := by decide
  simp [decodeTotpEntry, jTotpEntry, decodeTotpMembers, h, decodeString]

theorem decodePasswordEntry_jPasswordEntry (e : PasswordEntry) :
    decodePasswordEntry ⟨[], []⟩ (jPasswordEntry e) = some e := by
  have h1 : foldEq (ascii "Username") (ascii "Username") = true := by decide
  have h2 : foldEq (ascii "Username") (ascii "Password") = false := by decide
  have h3 : foldEq (ascii "Password") (ascii "Password") = true := by decide
  simp [decodePasswordEntry, jPasswordEntry, decodePasswordMembers, h1, h2, h3, decodeString]

/-- Decoding the tree of a database in key order gives the database back. -/
theorem decodeDatabase_jDatabase (db : Database) (hwf : db.WF = true) :
    decodeDatabase (jDatabase db) = some db := by
  simp only [Database.WF, Bool.and_eq_true] at hwf
  obtain ⟨⟨⟨w1, w2⟩, _⟩, _⟩ := hwf
  have h1 : foldEq (ascii "TotpAccounts") (ascii "TotpAccounts") = true := by decide
  have h2 : foldEq (ascii "TotpAccounts") (ascii "Passwords") = false := by decide
  have h3 : foldEq (ascii "Passwords") (ascii "Passwords") = true := by decide
  have d1 := decodeMap_jMap decodeTotpEntry ⟨[]⟩ jTotpEntry decodeTotpEntry_jTotpEntry
    db.TotpAccounts (fun l hl => by rw [hl] at w1; exact w1)
  have d2 := decodeMap_jMap decodePasswordEntry ⟨[], []⟩ jPasswordEntry
    decodePasswordEntry_jPasswordEntry db.Passwords (fun l hl => by rw [hl] at w2; exact w2)
  simp only [decodeDatabase, jDatabase, decodeDatabaseMembers, h1, h2, h3, if_true,
    Bool.false_eq_true, if_false, d1, d2]

/-- Go `json.Unmarshal` undoes `json.Marshal` on a database whose strings are valid
UTF-8. -/
theorem jsonUnmarshal_jsonMarshal (db : Database) (hwf : db.WF = true)
    (hv : db.validUtf8 = true) : jsonUnmarshal (jsonMarshal db) = Res.ok db := by
  simp only [jsonUnmarshal, jsonParse_jsonMarshal db hv, decodeDatabase_jDatabase db hwf]

/-! ## The JSON text has no zero byte -/

theorem hexChar_ne_zero (d : Nat) : hexChar d ≠ 0 := by
  unfold hexChar; split_ifs <;> omega

theorem escapeByte_ne_zero (b : Nat) : ∀ x ∈ escapeByte b, x ≠ 0 := by
  intro x hx
  unfold escapeByte at hx
  have h1 := hexChar_ne_zero (b / 16)
  have h2 := hexChar_ne_zero (b % 16)
  split_ifs at hx <;> simp at hx <;> omega

theorem encodeRune_ne_zero (r : Nat) (h : 0x80 ≤ r) : ∀ x ∈ encodeRune r, x ≠ 0 := by
  intro x hx
  unfold encodeRune at hx
  split_ifs at hx <;> simp at hx <;> omega

theorem appendStringBody_ne_zero (n : Nat) : ∀ s, ∀ x ∈ appendStringBody n s, x ≠ 0 := by
  induction n with
  | zero => intro s x hx; simp [appendStringBody] at hx
  | succ n ih =>
    intro s x hx
    match s, hx with
    | [], hx => simp [appendStringBody] at hx
    | b :: s1, hx =>
      simp only [appendStringBody] at hx
      split_ifs at hx with h1 h2 h3
      · rcases List.mem_append.mp hx with h | h
        · exact escapeByte_ne_zero b x h
        · exact ih _ x h
      · rcases List.mem_append.mp hx with h | h
        · simp at h; omega
        · exact ih _ x h
      · rcases List.mem_append.mp hx with h | h
        · have := hexChar_ne_zero ((decodeRune (b :: s1)).1 % 16)
          simp at h; omega
        · exact ih _ x h
      · rcases List.mem_append.mp hx with h | h
        · obtain ⟨k1, _, henc, hr, _⟩ :=
            decodeRune_valid (r := (decodeRune (b :: s1)).1) (k := (decodeRune (b :: s1)).2)
              rfl h2 (by simp)
          rcases hr with hr | hk
          · rw [← henc] at h
            exact encodeRune_ne_zero _ hr x h
          · rw [hk] at h
            simp at h
            omega
        · exact ih _ x h

theorem appendString_ne_zero (s : List Nat) : ∀ x ∈ appendString s, x ≠ 0 := by
  intro x hx
  simp only [appendString, List.mem_cons, List.mem_append, List.mem_singleton,
    List.not_mem_nil, or_false] at hx
  rcases hx with h | h | h
  · omega
  · exact appendStringBody_ne_zero _ _ x h
  · omega

theorem encTotpEntry_ne_zero (e : TotpEntry) : ∀ x ∈ encTotpEntry e, x ≠ 0 := by
  intro x hx
  have ha : ∀ y ∈ ascii "\x7b\"Secret\":", y ≠ 0 := by decide
  simp only [encTotpEntry, List.mem_append, List.mem_singleton] at hx
  rcases hx with (h | h) | h
  · exact ha x h
  · exact appendString_ne_zero _ x h
  · omega

theorem encPasswordEntry_ne_zero (e : PasswordEntry) : ∀ x ∈ encPasswordEntry e, x ≠ 0 := by
  intro x hx
  have ha : ∀ y ∈ ascii "\x7b\"Username\":", y ≠ 0 := by decide
  have hb : ∀ y ∈ ascii ",\"Password\":", y ≠ 0 := by decide
  simp only [encPasswordEntry, List.mem_append, List.mem_singleton] at hx
  rcases hx with (((h | h) | h) | h) | h
  · exact ha x h
  · exact appendString_ne_zero _ x h
  · exact hb x h
  · exact appendString_ne_zero _ x h
  · omega

theorem encMembers_ne_zero {V : Type} (encV : V → List Nat)
    (hV : ∀ v, ∀ x ∈ encV v, x ≠ 0) (l : List (List Nat × V)) :
    ∀ x ∈ encMembers encV l, x ≠ 0 := by
  induction l with
  | nil => intro x hx; simp [encMembers] at hx
  | cons kv l ih =>
    intro x hx
    cases l with
    | nil =>
      simp only [encMembers, List.mem_append, List.mem_cons] at hx
      rcases hx with h | h | h
      · exact appendString_ne_zero _ x h
      · omega
      · exact hV _ x h
    | cons kv2 l2 =>
      simp only [encMembers, List.mem_append, List.mem_cons] at hx ih
      rcases hx with (h | h | h) | h | h
      · exact appendString_ne_zero _ x h
      · omega
      · exact hV _ x h
      · omega
      · exact ih x h

theorem encMap_ne_zero {V : Type} (encV : V → List Nat)
    (hV : ∀ v, ∀ x ∈ encV v, x ≠ 0) (m : Option (List (List Nat × V))) :
    ∀ x ∈ encMap encV m, x ≠ 0 := by
  cases m with
  | none =>
    intro x hx
    simp [encMap, ascii] at hx
    omega
  | some l =>
    intro x hx
    simp only [encMap, List.mem_cons, List.mem_append, List.mem_singleton,
      List.not_mem_nil, or_false] at hx
    rcases hx with h | h | h
    · omega
    · exact encMembers_ne_zero encV hV l x h
    · omega

/-- The JSON of a database contains no zero byte. -/
theorem jsonMarshal_ne_zero (db : Database) : ∀ x ∈ jsonMarshal db, x ≠ 0 := by
  intro x hx
  have ha : ∀ y ∈ ascii "\x7b\"TotpAccounts\":", y ≠ 0 := by decide
  have hb : ∀ y ∈ ascii ",\"Passwords\":", y ≠ 0 := by decide
  simp only [jsonMarshal, List.mem_append, List.mem_singleton] at hx
  rcases hx with (((h | h) | h) | h) | h
  · exact ha x h
  · exact encMap_ne_zero _ encTotpEntry_ne_zero _ x h
  · exact hb x h
  · exact encMap_ne_zero _ encPasswordEntry_ne_zero _ x h
  · omega

theorem takeWhile_ne_zero (j rest : List Nat) (h : ∀ x ∈ j, x ≠ 0) :
    (j ++ 0 :: rest).takeWhile (fun b => b != 0) = j := by
  induction j with
  | nil => simp
  | cons a j ih =>
    have ha : a ≠ 0 := h a (List.mem_cons_self _ _)
    simp only [List.cons_append, List.takeWhile_cons, bne_iff_ne, ne_eq, ha, not_false_eq_true,
      decide_True, if_true]
    rw [ih (fun x hx => h x (List.mem_cons_of_mem _ hx))]

/-! ## Reading a plain container -/

theorem magicId_length : magicId.length = 12 := by decide

theorem isValidMagicId_congr (a b : List Nat) (ha : 12 ≤ a.length) (hb : 12 ≤ b.length)
    (h : a.take 12 = b.take 12) : isValidMagicId a = isValidMagicId b := by
  rw [isValidMagicId_eq a ha, isValidMagicId_eq b hb, h]

theorem isValidMagicId_magicId (rest : List Nat) :
    isValidMagicId (magicId ++ rest) = Res.ok true := by
  rw [isValidMagicId_congr (magicId ++ rest) magicId (by simp [magicId_length]) (by decide)
    (by rw [List.take_append_of_le_length (by decide)])]
  decide

theorem isValidMagicId_readAllBacking (c : List Nat) (h : 12 ≤ c.length) :
    isValidMagicId (readAllBacking c) = isValidMagicId c := by
  apply isValidMagicId_congr _ _ (by simp [readAllBacking]; omega) h
  simp only [readAllBacking]
  rw [List.take_append_of_le_length h]

theorem readPayload_plain (j rest : List Nat) (h : ∀ x ∈ j, x ≠ 0) :
    readPayload (magicId ++ j ++ 0 :: rest) = jsonUnmarshal j := by
  have h1 : ¬ (magicId ++ j ++ 0 :: rest).length < magicId.length := by simp
  simp only [readPayload, if_neg h1]
  rw [List.append_assoc, List.drop_left, takeWhile_ne_zero j rest h]

/-- Reading a plain container returns what the JSON decodes to. -/
theorem ReadConfig_plain (P : Prims) (j rest : List Nat) (key : Option (List Nat))
    (h : ∀ x ∈ j, x ≠ 0) :
    ReadConfig P (magicId ++ j ++ 0 :: rest) key = jsonUnmarshal j := by
  have hl : 12 ≤ (magicId ++ j ++ 0 :: rest).length := by simp [magicId_length]
  simp only [ReadConfig]
  rw [isValidMagicId_readAllBacking _ hl, List.append_assoc, isValidMagicId_magicId]
  simp only
  rw [← List.append_assoc, readPayload_plain j rest h]

/-! ## CBC and padding -/

theorem xorBytes_length (a b : List Nat) (h : a.length = b.length) :
    (xorBytes a b).length = a.length := by
  simp [xorBytes, h]

theorem xorBytes_cancel : ∀ (a b : List Nat), a.length = b.length →
    xorBytes (xorBytes a b) b = a
  | [], [], _ => rfl
  | [], _ :: _, h => by simp at h
  | _ :: _, [], h => by simp at h
  | x :: a, y :: b, h => by
    have ih := xorBytes_cancel a b (by simpa using h)
    simp only [xorBytes, List.zipWith_cons_cons] at ih ⊢
    rw [ih]
    congr 1
    show (x ^^^ y) ^^^ y = x
    rw [Nat.xor_assoc, Nat.xor_self, Nat.xor_zero]

theorem cbcEncryptBlocks_length (P : Prims) (hP : P.Lawful) (key : List Nat) (n : Nat) :
    ∀ prev src, prev.length = 16 → src.length = 16 * n →
      (cbcEncryptBlocks P key n prev src).length = 16 * n := by
  induction n with
  | zero => intro prev src _ _; rfl
  | succ n ih =>
    intro prev src hp hs
    have hb : (xorBytes (src.take 16) prev).length = 16 := by
      rw [xorBytes_length _ _ (by simp [hp]; omega)]; simp; omega
    have hc := hP.aes_length key _ hb
    simp only [cbcEncryptBlocks, List.length_append, hc]
    rw [ih _ _ hc (by simp [hs]; omega)]
    omega

/-- CBC decryption undoes CBC encryption. -/
theorem cbcDecryptBlocks_cbcEncryptBlocks (P : Prims) (hP : P.Lawful) (key : List Nat)
    (n : Nat) : ∀ prev src, prev.length = 16 → src.length = 16 * n →
      cbcDecryptBlocks P key n prev (cbcEncryptBlocks P key n prev src) = src := by
  induction n with
  | zero =>
    intro prev src _ hs
    have : src = [] := List.length_eq_zero.mp (by simpa using hs)
    simp [cbcDecryptBlocks, this]
  | succ n ih =>
    intro prev src hp hs
    have ht : (src.take 16).length = prev.length := by simp [hp]; omega
    have hb : (xorBytes (src.take 16) prev).length = 16 := by
      rw [xorBytes_length _ _ ht]; simp; omega
    have hc := hP.aes_length key _ hb
    simp only [cbcEncryptBlocks, cbcDecryptBlocks]
    rw [List.take_left' hc, List.drop_left' hc, hP.aes_inverse key _ hb,
      xorBytes_cancel _ _ ht, ih _ _ hc (by simp [hs]; omega), List.take_append_drop]

theorem paddedPlaintext_length (plaintext padding : List Nat)
    (h : paddingFits plaintext.length padding = true) :
    (paddedPlaintext plaintext padding).length % minimumIncrement = 0 ∧
      plaintext.length ≤ (paddedPlaintext plaintext padding).length ∧
      (paddedPlaintext plaintext padding).length < plaintext.length + minimumIncrement := by
  simp only [paddingFits, minimumIncrement, Bool.or_eq_true, beq_iff_eq] at h
  simp only [paddedPlaintext, minimumIncrement]
  split_ifs with h1
  · have h2 : padding.length = 16 * 100 - plaintext.length % (16 * 100) := by
      rcases h with h | h
      · exact absurd h h1
      · exact h
    simp only [List.length_append, h2]
    omega
  · omega

/-! ## Writing and authenticating an encrypted container -/

theorem wordBytes_length (w : Nat) : (wordBytes w).length = 4 := rfl

theorem sha1_length (msg : List Nat) : (sha1 msg).length = 20 := by
  simp [sha1, wordBytes_length]

theorem sha256_length (msg : List Nat) : (sha256 msg).length = 32 := by
  simp [sha256, wordBytes_length]

theorem hmacSha256_length (key msg : List Nat) : (hmacSha256 key msg).length = 32 := by
  simp only [hmacSha256, hmac, sha256New]
  exact sha256_length _

theorem hmacSha1_length (key msg : List Nat) : (hmac sha1New key msg).length = 20 := by
  simp only [hmac, sha1New]
  exact sha1_length _

theorem derivedKey_length (secret iv : List Nat) : (derivedKey secret iv).length = 32 := by
  have h := hmacSha256_length iv secret
  simp only [hmacSha256] at h
  simp only [derivedKey, hkdfRead, h, aesKeySize]
  have e : (256 / 8 + 32 - 1) / 32 = 1 := by decide
  rw [e]
  simp only [hkdfBlocks, List.append_nil, List.nil_append]
  have h2 := hmacSha256_length (hmac sha256New iv secret) (magicId ++ [1 % 256])
  simp only [hmacSha256] at h2
  rw [List.take_of_length_le (by omega)]
  exact h2

theorem kdf_eq (secret iv : List Nat) : kdf secret iv = Res.ok (derivedKey secret iv) := by
  have h : (hkdfRead sha256New secret iv magicId aesKeySize).length = aesKeySize :=
    derivedKey_length secret iv
  simp only [kdf, derivedKey, if_pos h]

/-- What `encrypt` returns: IV, ciphertext, MAC over both. -/
theorem encrypt_eq (P : Prims) (password iv plaintext padding : List Nat)
    (hiv : iv.length = 16) (hpad : paddingFits plaintext.length padding = true) :
    encrypt P password iv plaintext padding =
      Res.ok (iv ++ ciphertextOf P password iv plaintext padding ++
        hmacSha256 (derivedKey password iv)
          (iv ++ ciphertextOf P password iv plaintext padding)) := by
  obtain ⟨h1, _, _⟩ := paddedPlaintext_length plaintext padding hpad
  have h16 : (paddedPlaintext plaintext padding).length % 16 = 0 := by
    simp only [minimumIncrement] at h1; omega
  have hpadded : (if plaintext.length % minimumIncrement ≠ 0 then
      if padding.length = minimumIncrement - plaintext.length % minimumIncrement then
        Res.ok (plaintext ++ padding) else Res.crash
      else Res.ok plaintext) = Res.ok (paddedPlaintext plaintext padding) := by
    simp only [paddingFits, Bool.or_eq_true, beq_iff_eq] at hpad
    simp only [paddedPlaintext]
    split_ifs with a b
    · rfl
    · rcases hpad with h | h
      · exact absurd h a
      · exact absurd h b
    · rfl
  have hivn : ¬ iv.length ≠ aesIvSize := by simp [aesIvSize, hiv]
  have htake : iv.take aesIvSize = iv := by
    rw [List.take_of_length_le]; simp [aesIvSize, hiv]
  simp only [encrypt, if_neg hivn, kdf_eq, hpadded, cbcEncrypt, h16, ne_eq,
    not_true_eq_false, if_false, htake, ciphertextOf]

theorem ciphertextOf_length (P : Prims) (hP : P.Lawful) (password iv plaintext padding : List Nat)
    (hiv : iv.length = 16) (hpad : paddingFits plaintext.length padding = true) :
    (ciphertextOf P password iv plaintext padding).length =
      (paddedPlaintext plaintext padding).length := by
  obtain ⟨h1, _, _⟩ := paddedPlaintext_length plaintext padding hpad
  simp only [minimumIncrement] at h1
  rw [ciphertextOf, cbcEncryptBlocks_length P hP _ _ _ _ hiv (by omega)]
  omega

theorem WriteConfig_encrypted (P : Prims) (db : Database)
    (password iv padding : List Nat) (hiv : iv.length = 16)
    (hpad : paddingFits (plainContainer db).length padding = true) :
    WriteConfig P (some db) (some password) iv padding =
      Res.ok (iv ++ ciphertextOf P password iv (plainContainer db) padding ++
        hmacSha256 (derivedKey password iv)
          (iv ++ ciphertextOf P password iv (plainContainer db) padding)) := by
  have htake : iv.take aesIvSize = iv := by
    rw [List.take_of_length_le]; simp [aesIvSize, hiv]
  simp only [WriteConfig, aesIvSize, hiv, if_true]
  rw [show List.take 16 iv = iv from htake]
  exact encrypt_eq P password iv (plainContainer db) padding hiv hpad

theorem WriteConfig_plain (P : Prims) (db : Database) (iv padding : List Nat) :
    WriteConfig P (some db) none iv padding = Res.ok (plainContainer db) := rfl

theorem macLoop_eq (expected m : List Nat) (n : Nat) : ∀ (i : Nat) (ok : Bool),
    expected.length = i + n → m.length = i + n →
      macLoop expected m n i ok = some (ok && decide (expected.drop i = m.drop i)) := by
  induction n with
  | zero =>
    intro i ok he hm
    rw [List.drop_eq_nil_of_le (by omega), List.drop_eq_nil_of_le (by omega)]
    simp [macLoop]
  | succ n ih =>
    intro i ok he hm
    have h1 : i < expected.length := by omega
    have h2 : i < m.length := by omega
    simp only [macLoop, List.get?_eq_getElem?, List.getElem?_eq_getElem h1,
      List.getElem?_eq_getElem h2]
    rw [ih (i + 1) _ (by omega) (by omega)]
    rw [List.drop_eq_getElem_cons h1, List.drop_eq_getElem_cons h2]
    simp only [List.cons.injEq, Bool.decide_and]
    congr 1
    by_cases hx : expected[i] = m[i] <;> cases ok <;> simp [hx]

/-- Go `isHMACValid` compares the last 32 bytes with the tag of what precedes them. -/
theorem isHMACValid_eq (password content : List Nat)
    (hlen : 32 ≤ content.length) :
    isHMACValid password content = Res.ok (decide (content.drop (content.length - 32) =
      hmacSha256 (derivedKey password (content.take 16))
        (content.take (content.length - 32)))) := by
  have h1 : ¬ content.length < macSize := by
    show ¬ content.length < 32
    omega
  have hm := macLoop_eq (content.drop (content.length - 32))
    (hmacSha256 (derivedKey password (content.take 16))
        (content.take (content.length - 32))) 32 0 true
    (by simp only [List.length_drop]; omega) (by simp [hmacSha256_length])
  simp only [isHMACValid, if_neg h1, fileIvSize, kdf_eq]
  rw [show macSize = 32 from rfl, hm]
  simp

/-! ## Reading an encrypted container -/

theorem decrypt_eq (P : Prims) (password iv ct : List Nat)
    (hiv : iv.length = 16) (hct : ct.length % 16 = 0) :
    decrypt P password (iv ++ ct) =
      Res.ok (cbcDecryptBlocks P (derivedKey password iv) (ct.length / 16) iv ct) := by
  have h1 : ¬ (iv ++ ct).length < fileIvSize := by
    simp only [fileIvSize, List.length_append, hiv]; omega
  have h2 : (iv ++ ct).take 16 = iv := List.take_left' hiv
  have h3 : (iv ++ ct).drop 16 = ct := List.drop_left' hiv
  have h4 : iv.take 16 = iv := by rw [List.take_of_length_le]; omega
  simp only [decrypt, if_neg h1]
  simp only [fileIvSize, aesIvSize, h2, h3, h4, kdf_eq, cbcDecrypt, hct, ne_eq,
    not_true_eq_false, if_false]

/-- The envelope is told apart from a plain container by its first 12 bytes,
which are those of the IV. -/
theorem isValidMagicId_envelope (iv rest : List Nat) (hiv : iv.length = 16) :
    isValidMagicId (readAllBacking (iv ++ rest)) = isValidMagicId iv := by
  have hl : 12 ≤ (iv ++ rest).length := by simp [hiv]; omega
  rw [isValidMagicId_readAllBacking _ hl]
  apply isValidMagicId_congr _ _ hl (by omega)
  rw [List.take_append_of_le_length (by omega)]

/-- A container whose first bytes are no marker and whose tag does not match is
rejected with `InvalidHMACError`. -/
theorem ReadConfig_bad_tag (P : Prims) (password content : List Nat)
    (hlen : 32 ≤ content.length) (hm : isValidMagicId content = Res.ok false)
    (hne : content.drop (content.length - 32) ≠
      hmacSha256 (derivedKey password (content.take 16))
        (content.take (content.length - 32))) :
    ReadConfig P content (some password) = Res.err Error.invalidHMAC := by
  simp only [ReadConfig]
  rw [isValidMagicId_readAllBacking _ (by omega), hm]
  simp only [isHMACValid_eq password content hlen, hne, decide_False]

/-- A container whose first bytes are no marker is not read without a key. -/
theorem ReadConfig_no_key (P : Prims) (content : List Nat) (hlen : 12 ≤ content.length)
    (hm : isValidMagicId content = Res.ok false) :
    ReadConfig P content none = Res.err Error.databaseEncrypted := by
  simp only [ReadConfig]
  rw [isValidMagicId_readAllBacking _ hlen, hm]

theorem paddedPlaintext_plainContainer (db : Database) (padding : List Nat) :
    ∃ rest, paddedPlaintext (plainContainer db) padding =
      magicId ++ jsonMarshal db ++ 0 :: rest := by
  simp only [paddedPlaintext, plainContainer]
  split_ifs
  · exact ⟨padding, by simp⟩
  · exact ⟨[], by simp⟩

/-- Reading an envelope written under the same passphrase, when the IV is no
marker, returns what the JSON decodes to. -/
theorem ReadConfig_written (P : Prims) (hP : P.Lawful) (db : Database)
    (password iv padding : List Nat) (hiv : iv.length = 16)
    (hpad : paddingFits (plainContainer db).length padding = true)
    (hm : isValidMagicId iv = Res.ok false) :
    ReadConfig P (iv ++ ciphertextOf P password iv (plainContainer db) padding ++
        hmacSha256 (derivedKey password iv)
          (iv ++ ciphertextOf P password iv (plainContainer db) padding)) (some password) =
      jsonUnmarshal (jsonMarshal db) := by
  have hcl := ciphertextOf_length P hP password iv (plainContainer db) padding hiv hpad
  obtain ⟨p1, _, _⟩ := paddedPlaintext_length (plainContainer db) padding hpad
  simp only [minimumIncrement] at p1
  generalize hct : ciphertextOf P password iv (plainContainer db) padding = ct at hcl ⊢
  have hml := hmacSha256_length (derivedKey password iv) (iv ++ ct)
  generalize hmac : hmacSha256 (derivedKey password iv) (iv ++ ct) = mac at hml ⊢
  have hlen : (iv ++ ct ++ mac).length - 32 = (iv ++ ct).length := by
    simp only [List.length_append, hml]; omega
  have htake : (iv ++ ct ++ mac).take ((iv ++ ct ++ mac).length - 32) = iv ++ ct := by
    rw [hlen, List.take_left]
  have hdrop : (iv ++ ct ++ mac).drop ((iv ++ ct ++ mac).length - 32) = mac := by
    rw [hlen, List.drop_left]
  have ht16 : (iv ++ ct ++ mac).take 16 = iv := by
    rw [List.append_assoc]; exact List.take_left' hiv
  have hvalid := isHMACValid_eq password (iv ++ ct ++ mac)
    (by simp only [List.length_append, hml]; omega)
  rw [htake, hdrop, ht16, hmac] at hvalid
  simp only [decide_True] at hvalid
  have hdec := decrypt_eq P password iv ct hiv (by omega)
  rw [← hct, ciphertextOf, ← ciphertextOf, hct] at hdec
  have hinv := cbcDecryptBlocks_cbcEncryptBlocks P hP (derivedKey password iv)
    ((paddedPlaintext (plainContainer db) padding).length / 16) iv
    (paddedPlaintext (plainContainer db) padding) hiv (by omega)
  rw [← ciphertextOf, hct, ← hcl] at hinv
  rw [hinv] at hdec
  obtain ⟨rest, hrest⟩ := paddedPlaintext_plainContainer db padding
  simp only [ReadConfig]
  rw [List.append_assoc, isValidMagicId_envelope iv _ hiv, hm, ← List.append_assoc]
  simp only [hvalid, macSize]
  rw [show (256 / 8 : Nat) = 32 from rfl, htake, hdec, hrest]
  simp only [List.append_assoc, isValidMagicId_magicId]
  rw [← List.append_assoc, readPayload_plain _ _ (jsonMarshal_ne_zero db)]

theorem toyPrims_lawful : toyPrims.Lawful where
  aes_length := by
    intro key block h
    simp [toyPrims, fitTo, xorBytes, h]
  aes_inverse := by
    intro key block h
    exact xorBytes_cancel block (fitTo 16 key) (by simp [fitTo, h])

theorem WriteConfig_envelope (P : Prims) (db : Database)
    (password iv padding : List Nat) (hiv : iv.length = 16)
    (hpad : paddingFits (plainContainer db).length padding = true) :
    WriteConfig P (some db) (some password) iv padding =
      Res.ok (envelope P db password iv padding) :=
  WriteConfig_encrypted P db password iv padding hiv hpad

theorem envelope_length (P : Prims) (hP : P.Lawful) (db : Database)
    (password iv padding : List Nat) (hiv : iv.length = 16)
    (hpad : paddingFits (plainContainer db).length padding = true) :
    (envelope P db password iv padding).length =
      48 + (paddedPlaintext (plainContainer db) padding).length := by
  simp only [envelope, List.length_append, hiv, hmacSha256_length,
    ciphertextOf_length P hP password iv (plainContainer db) padding hiv hpad]
  omega

/-- Reading a container that starts with the marker and a zero byte finds an
empty payload, whatever the key. -/
theorem ReadConfig_markerIv (P : Prims) (rest : List Nat) (key : Option (List Nat)) :
    ReadConfig P (markerIv ++ rest) key = Res.err Error.jsonSyntax := by
  have h := ReadConfig_plain P [] ([0, 0, 0] ++ rest) key (by simp)
  have e : magicId ++ [] ++ 0 :: ([0, 0, 0] ++ rest) = markerIv ++ rest := by
    simp [markerIv]
  rw [e] at h
  rw [h]
  decide

theorem take_set_of_le (l : List Nat) (i m v : Nat) (h : m ≤ i) :
    (l.set i v).take m = l.take m :=
  List.ext_getElem? fun k => by
    rw [List.getElem?_take, List.getElem?_take]
    split
    · rw [List.getElem?_set_ne (by omega)]
    · rfl

theorem set_ne_self (l : List Nat) (i v : Nat) (h : i < l.length) (hv : l[i] ≠ v) :
    l.set i v ≠ l := by
  intro e
  have := congrArg (fun x => x[i]?) e
  simp only [List.getElem?_set_self h, List.getElem?_eq_getElem h, Option.some.injEq] at this
  exact hv this.symm

/-- The parts of an envelope: IV, authenticated prefix, tag. -/
theorem envelope_parts (P : Prims) (hP : P.Lawful) (db : Database)
    (password iv padding : List Nat) (hiv : iv.length = 16)
    (hpad : paddingFits (plainContainer db).length padding = true) :
    48 ≤ (envelope P db password iv padding).length ∧
    (envelope P db password iv padding).take 12 = iv.take 12 ∧
    (envelope P db password iv padding).take 16 = iv ∧
    (envelope P db password iv padding).take ((envelope P db password iv padding).length - 32)
      = iv ++ ciphertextOf P password iv (plainContainer db) padding ∧
    (envelope P db password iv padding).drop ((envelope P db password iv padding).length - 32)
      = hmacSha256 (derivedKey password iv)
          (iv ++ ciphertextOf P password iv (plainContainer db) padding) := by
  have hl := envelope_length P hP db password iv padding hiv hpad
  have hml := hmacSha256_length (derivedKey password iv)
    (iv ++ ciphertextOf P password iv (plainContainer db) padding)
  have hlen : (envelope P db password iv padding).length - 32 =
      (iv ++ ciphertextOf P password iv (plainContainer db) padding).length := by
    simp only [envelope, List.length_append, hml]; omega
  refine ⟨by omega, ?_, ?_, ?_, ?_⟩
  · rw [envelope, List.append_assoc, List.take_append_of_le_length (by omega)]
  · rw [envelope, List.append_assoc]; exact List.take_left' hiv
  · rw [hlen, envelope, List.take_left]
  · rw [hlen, envelope, List.drop_left]

theorem isValidMagicId_envelope_eq (P : Prims) (hP : P.Lawful) (db : Database)
    (password iv padding : List Nat) (hiv : iv.length = 16)
    (hpad : paddingFits (plainContainer db).length padding = true) :
    isValidMagicId (envelope P db password iv padding) = isValidMagicId iv := by
  obtain ⟨h48, h12, _⟩ := envelope_parts P hP db password iv padding hiv hpad
  exact isValidMagicId_congr _ _ (by omega) (by omega)
    h12

theorem readPayload_ne_invalidHMAC (content : List Nat) :
    readPayload content ≠ Res.err Error.invalidHMAC := by
  simp only [readPayload, jsonUnmarshal]
  split_ifs
  · simp
  · split
    · simp
    · split <;> simp

/-- When the tag matches, the outcome of `ReadConfig` is not `InvalidHMACError`. -/
theorem ReadConfig_good_tag (P : Prims) (password content : List Nat)
    (hlen : 32 ≤ content.length) (hm : isValidMagicId content = Res.ok false)
    (heq : content.drop (content.length - 32) =
      hmacSha256 (derivedKey password (content.take 16))
        (content.take (content.length - 32))) :
    ReadConfig P content (some password) ≠ Res.err Error.invalidHMAC := by
  simp only [ReadConfig]
  rw [isValidMagicId_readAllBacking _ (by omega), hm]
  simp only [isHMACValid_eq password content hlen, heq, decide_True]
  have hd : ∀ x, decrypt P password x ≠ Res.err Error.invalidHMAC := by
    intro x
    simp only [decrypt, kdf_eq, cbcDecrypt]
    split_ifs <;> simp
  have hv : ∀ x, isValidMagicId x ≠ Res.err Error.invalidHMAC := by
    intro x
    simp only [isValidMagicId, getDbVersion]
    split_ifs
    · simp
    · split <;> simp_all
  generalize hx : decrypt P password (content.take (content.length - macSize)) = x
  cases x with
  | ok candidate =>
    simp only
    generalize hy : isValidMagicId candidate = y
    cases y with
    | ok b =>
      cases b
      · simp
      · exact readPayload_ne_invalidHMAC candidate
    | err e =>
      simp only
      intro h
      injection h with h
      rw [h] at hy
      exact hv _ hy
    | crash => simp
  | err e =>
    simp only
    intro h
    injection h with h
    rw [h] at hx
    exact hd _ hx
  | crash => simp

theorem IsEncrypted_eq (content : List Nat) (v : Bool) (hlen : 12 ≤ content.length)
    (h : isValidMagicId content = Res.ok v) : IsEncrypted (some content) = !v := by
  have hne : content ≠ [] := by
    intro e; rw [e] at hlen; simp at hlen
  have hb : isValidMagicId ((content ++ List.replicate magicId.length 0).take magicId.length)
      = Res.ok v := by
    rw [← h]
    apply isValidMagicId_congr _ _ (by simp [magicId_length]) hlen
    rw [magicId_length, List.take_take, Nat.min_self, List.take_append_of_le_length hlen]
  simp only [IsEncrypted, if_neg hne, hb]

theorem plainContainer_length (db : Database) :
    (plainContainer db).length = 13 + (jsonMarshal db).length := by
  simp only [plainContainer, List.length_append, magicId_length, List.length_cons,
    List.length_nil]
  omega

/-! ## One-time passwords -/

theorem drop_take4 (d : List Nat) (o : Nat) (h : o + 4 ≤ d.length) :
    (d.drop o).take 4 = [d.getD o 0, d.getD (o + 1) 0, d.getD (o + 2) 0, d.getD (o + 3) 0] := by
  rw [List.drop_eq_getElem_cons (by omega : o < d.length),
    List.drop_eq_getElem_cons (by omega : o + 1 < d.length),
    List.drop_eq_getElem_cons (by omega : o + 1 + 1 < d.length),
    List.drop_eq_getElem_cons (by omega : o + 1 + 1 + 1 < d.length)]
  simp only [List.take_succ_cons, List.take_zero]
  rw [List.getD_eq_getElem _ 0 (by omega : o < d.length),
    List.getD_eq_getElem _ 0 (by omega : o + 1 < d.length),
    List.getD_eq_getElem _ 0 (by omega : o + 2 < d.length),
    List.getD_eq_getElem _ 0 (by omega : o + 3 < d.length)]

/-- Go `calculateHotp` on a 20-byte digest is the dynamic truncation. -/
theorem calculateHotp_eq (algorithm : Hash) (seed : List Nat) (counter : Int)
    (hlen : (hmac algorithm seed (bigEndianUint64 (toUint64 counter))).length = 20) :
    calculateHotp algorithm (some seed) counter =
      Res.ok (dynamicTruncation (hmac algorithm seed (bigEndianUint64 (toUint64 counter)))) ∧
    ((hmac algorithm seed (bigEndianUint64 (toUint64 counter))).getD 19 0 &&& 0x0F) + 4
      ≤ 20 := by
  simp only [calculateHotp]
  generalize hmac algorithm seed (bigEndianUint64 (toUint64 counter)) = digest at hlen ⊢
  have h19 : digest.get? 19 = some (digest.getD 19 0) := by
    rw [List.get?_eq_getElem?, List.getElem?_eq_getElem (by omega),
      List.getD_eq_getElem _ 0 (by omega)]
  have ho : digest.getD 19 0 &&& 15 ≤ 15 := Nat.and_le_right
  refine ⟨?_, by omega⟩
  have hnl : ¬ digest.length < (digest.getD 19 0 &&& 15) + 4 := by omega
  simp only [h19, if_neg hnl, drop_take4 digest _ (show (digest.getD 19 0 &&& 15) + 4 ≤
    digest.length by omega), readUint32, dynamicTruncation]

theorem dynamicTruncation_lt (digest : List Nat) : dynamicTruncation digest < 1000000 := by
  simp only [dynamicTruncation]
  exact Nat.mod_lt _ (by norm_num)

theorem wrapInt64_eq (x : Int) (h1 : -2 ^ 63 ≤ x) (h2 : x < 2 ^ 63) : wrapInt64 x = x := by
  simp only [wrapInt64]
  omega

theorem tdiv_thirty_bounds (t : Int) (h1 : -2 ^ 63 ≤ t) (h2 : t < 2 ^ 63) :
    -2 ^ 63 ≤ Int.tdiv t 30 ∧ Int.tdiv t 30 < 2 ^ 63 := by
  rcases Int.le_total 0 t with h | h
  · rw [Int.tdiv_eq_ediv h (by norm_num)]
    omega
  · have e : Int.tdiv t 30 = -(Int.tdiv (-t) 30) := by
      rw [Int.neg_tdiv, Int.neg_neg]
    rw [e, Int.tdiv_eq_ediv (by omega) (by norm_num)]
    omega

/-! ## Outcomes of a read -/

theorem isValidMagicId_total (b : List Nat) (h : 12 ≤ b.length) :
    isValidMagicId b = Res.ok true ∨ isValidMagicId b = Res.ok false := by
  rw [isValidMagicId_eq b h]
  cases sscanfMarker (b.take 12) with
  | none => exact Or.inr rfl
  | some ver => cases hv : (ver != 0) <;> simp [hv]

theorem readAllBacking_length (c : List Nat) : 12 ≤ (readAllBacking c).length := by
  simp only [readAllBacking, List.length_append, List.length_replicate]
  omega

theorem readPayload_typed (c : List Nat) (h : 12 ≤ c.length) :
    isTypedOutcome (readPayload c) = true := by
  have h1 : ¬ c.length < magicId.length := by
    rw [magicId_length]
    omega
  simp only [readPayload, if_neg h1, jsonUnmarshal]
  split
  · rfl
  · split <;> rfl

theorem cbcDecryptBlocks_length (P : Prims) (hdec : P.DecryptSized) (key : List Nat)
    (n : Nat) : ∀ prev src, prev.length = 16 → src.length = 16 * n →
      (cbcDecryptBlocks P key n prev src).length = 16 * n := by
  induction n with
  | zero => intro prev src _ _; rfl
  | succ n ih =>
    intro prev src hp hs
    have ht : (src.take 16).length = 16 := by rw [List.length_take]; omega
    have hd := hdec key _ ht
    simp only [cbcDecryptBlocks, List.length_append]
    rw [xorBytes_length _ _ (by rw [hd, hp]), hd, ih _ _ ht (by rw [List.length_drop]; omega)]
    omega

theorem decrypt_ok (P : Prims) (hdec : P.DecryptSized) (password x : List Nat)
    (h16 : 16 ≤ x.length) (hm : x.length % 16 = 0) :
    ∃ candidate, decrypt P password x = Res.ok candidate ∧
      candidate.length = x.length - 16 := by
  have hx : x = x.take 16 ++ x.drop 16 := (List.take_append_drop 16 x).symm
  have hiv : (x.take 16).length = 16 := by rw [List.length_take]; omega
  have hct : (x.drop 16).length % 16 = 0 := by rw [List.length_drop]; omega
  refine ⟨_, by rw [hx]; exact decrypt_eq P password _ _ hiv hct, ?_⟩
  rw [cbcDecryptBlocks_length P hdec _ _ _ _ hiv (by rw [List.length_drop]; omega)]
  rw [List.length_drop]
  omega

theorem ReadConfig_marker (P : Prims) (c : List Nat) (k : Option (List Nat))
    (hv : isValidMagicId (readAllBacking c) = Res.ok true) :
    ReadConfig P c k = readPayload c := by
  simp only [ReadConfig, hv]

theorem ReadConfig_none (P : Prims) (c : List Nat)
    (hv : isValidMagicId (readAllBacking c) = Res.ok false) :
    ReadConfig P c none = Res.err Error.databaseEncrypted := by
  simp only [ReadConfig, hv]

theorem ReadConfig_mac_false (P : Prims) (c key : List Nat)
    (hv : isValidMagicId (readAllBacking c) = Res.ok false)
    (hmac : isHMACValid key c = Res.ok false) :
    ReadConfig P c (some key) = Res.err Error.invalidHMAC := by
  simp only [ReadConfig, hv, hmac]

theorem ReadConfig_candidate (P : Prims) (c key candidate : List Nat)
    (hv : isValidMagicId (readAllBacking c) = Res.ok false)
    (hmac : isHMACValid key c = Res.ok true)
    (hd : decrypt P key (c.take (c.length - macSize)) = Res.ok candidate)
    (hc : isValidMagicId candidate = Res.ok true) :
    ReadConfig P c (some key) = readPayload candidate := by
  simp only [ReadConfig, hv, hmac, hd, hc]

theorem ReadConfig_assert (P : Prims) (c key candidate : List Nat)
    (hv : isValidMagicId (readAllBacking c) = Res.ok false)
    (hmac : isHMACValid key c = Res.ok true)
    (hd : decrypt P key (c.take (c.length - macSize)) = Res.ok candidate)
    (hc : isValidMagicId candidate = Res.ok false) :
    ReadConfig P c (some key) = Res.crash := by
  simp only [ReadConfig, hv, hmac, hd, hc]

theorem assertionFails_crash (P : Prims) (c : List Nat) (k : Option (List Nat))
    (h : assertionFails P c k) : ReadConfig P c k = Res.crash := by
  obtain ⟨key, candidate, hk, hv, hmac, hd, hc⟩ := h
  rw [hk]
  exact ReadConfig_assert P c key candidate hv hmac hd hc

theorem isHMACValid_total (key c : List Nat) (h : 32 ≤ c.length) :
    isHMACValid key c = Res.ok true ∨ isHMACValid key c = Res.ok false := by
  rw [isHMACValid_eq key c h]
  by_cases hd : c.drop (c.length - 32) =
      hmacSha256 (derivedKey key (c.take 16)) (c.take (c.length - 32))
  · exact Or.inl (by simp only [hd, decide_True])
  · exact Or.inr (by simp only [hd, decide_False])

/-- On a content without the size defects, `ReadConfig` returns a typed outcome
or stops at its assertion. -/
theorem ReadConfig_outcome (P : Prims) (hdec : P.DecryptSized) (c : List Nat)
    (k : Option (List Nat))
    (hplain : isValidMagicId (readAllBacking c) = Res.ok true → 12 ≤ c.length)
    (hkey : ∀ key, k = some key → isValidMagicId (readAllBacking c) = Res.ok false →
      32 ≤ c.length ∧ (isHMACValid key c = Res.ok true → 64 ≤ c.length ∧ c.length % 16 = 0)) :
    isTypedOutcome (ReadConfig P c k) = true ∨ assertionFails P c k := by
  rcases isValidMagicId_total _ (readAllBacking_length c) with hv | hv
  · left
    rw [ReadConfig_marker P c k hv]
    exact readPayload_typed c (hplain hv)
  · cases k with
    | none =>
      left
      rw [ReadConfig_none P c hv]
      rfl
    | some key =>
      obtain ⟨h32, hsz⟩ := hkey key rfl hv
      rcases isHMACValid_total key c h32 with hmac | hmac
      · obtain ⟨h64, h16⟩ := hsz hmac
        have hl : (c.take (c.length - macSize)).length = c.length - 32 := by
          rw [List.length_take]
          show min (c.length - 32) c.length = c.length - 32
          omega
        obtain ⟨candidate, hd, hcl⟩ := decrypt_ok P hdec key (c.take (c.length - macSize))
          (by omega) (by omega)
        rcases isValidMagicId_total candidate (by omega) with hc | hc
        · left
          rw [ReadConfig_candidate P c key candidate hv hmac hd hc]
          exact readPayload_typed candidate (by omega)
        · right
          exact ⟨key, candidate, rfl, hv, hmac, hd, hc⟩
      · left
        rw [ReadConfig_mac_false P c key hv hmac]
        rfl

/-! ### Bodies with a valid MAC -/

theorem withMac_length (password body : List Nat) :
    (withMac password body).length = body.length + 32 := by
  simp only [withMac, List.length_append, hmacSha256_length]

theorem withMac_take (password body : List Nat) :
    (withMac password body).take ((withMac password body).length - macSize) = body := by
  rw [withMac_length, show macSize = 32 from rfl, Nat.add_sub_cancel, withMac, List.take_left]

theorem isHMACValid_withMac (password body : List Nat) (h16 : 16 ≤ body.length) :
    isHMACValid password (withMac password body) = Res.ok true := by
  have ht := withMac_take password body
  rw [show macSize = 32 from rfl] at ht
  rw [isHMACValid_eq password _ (by rw [withMac_length]; omega), ht]
  have h1 : (withMac password body).take 16 = body.take 16 := by
    rw [withMac, List.take_append_of_le_length h16]
  have h2 : (withMac password body).drop ((withMac password body).length - 32) =
      hmacSha256 (derivedKey password (body.take 16)) body := by
    rw [withMac_length, Nat.add_sub_cancel, withMac, List.drop_left]
  rw [h1, h2]
  simp only [decide_True]

theorem isValidMagicId_withMac (password body : List Nat) (h : 12 ≤ body.length) :
    isValidMagicId (readAllBacking (withMac password body)) = isValidMagicId body := by
  rw [isValidMagicId_readAllBacking _ (by rw [withMac_length]; omega)]
  apply isValidMagicId_congr _ _ (by rw [withMac_length]; omega) h
  rw [withMac, List.take_append_of_le_length h]

/-- A body with a valid MAC whose decryption panics makes `ReadConfig` panic. -/
theorem ReadConfig_withMac_crash (P : Prims) (password body : List Nat)
    (h16 : 16 ≤ body.length) (hm : isValidMagicId body = Res.ok false)
    (hd : decrypt P password body = Res.crash) :
    ReadConfig P (withMac password body) (some password) = Res.crash := by
  have hv := isValidMagicId_withMac password body (by omega)
  rw [hm] at hv
  simp only [ReadConfig, hv, isHMACValid_withMac password body h16, withMac_take, hd]

/-- A body with a valid MAC whose decryption is too short for the marker test
makes `ReadConfig` panic. -/
theorem ReadConfig_withMac_short (P : Prims) (password body candidate : List Nat)
    (h16 : 16 ≤ body.length) (hm : isValidMagicId body = Res.ok false)
    (hd : decrypt P password body = Res.ok candidate)
    (hc : isValidMagicId candidate = Res.crash) :
    ReadConfig P (withMac password body) (some password) = Res.crash := by
  have hv := isValidMagicId_withMac password body (by omega)
  rw [hm] at hv
  simp only [ReadConfig, hv, isHMACValid_withMac password body h16, withMac_take, hd, hc]

/-- A sealed container whose plaintext has no marker runs into the assertion. -/
theorem assertionFails_sealed (P : Prims) (hP : P.Lawful) (password iv plaintext : List Nat)
    (hiv : iv.length = 16) (hpt : plaintext.length % 16 = 0)
    (hm : isValidMagicId iv = Res.ok false)
    (hc : isValidMagicId plaintext = Res.ok false) :
    assertionFails P (sealedContainer P password iv plaintext) (some password) := by
  have hn : plaintext.length = 16 * (plaintext.length / 16) := by omega
  have hcl := cbcEncryptBlocks_length P hP (derivedKey password iv) (plaintext.length / 16)
    iv plaintext hiv hn
  generalize hct : cbcEncryptBlocks P (derivedKey password iv) (plaintext.length / 16)
    iv plaintext = ct at hcl
  have hbody : 16 ≤ (iv ++ ct).length := by
    rw [List.length_append]
    omega
  have hmb : isValidMagicId (iv ++ ct) = Res.ok false := by
    rw [isValidMagicId_congr (iv ++ ct) iv (by omega) (by omega)
      (by rw [List.take_append_of_le_length (by omega)]), hm]
  have hv := isValidMagicId_withMac password (iv ++ ct) (by omega)
  rw [hmb] at hv
  have hinv := cbcDecryptBlocks_cbcEncryptBlocks P hP (derivedKey password iv)
    (plaintext.length / 16) iv plaintext hiv hn
  rw [hct] at hinv
  have hd := decrypt_eq P password iv ct hiv (by omega)
  rw [hcl, Nat.mul_div_cancel_left _ (by decide : 0 < 16), hinv] at hd
  refine ⟨password, plaintext, rfl, ?_, ?_, ?_, hc⟩
  · simp only [sealedContainer, hct, hv]
  · simp only [sealedContainer, hct]
    exact isHMACValid_withMac password (iv ++ ct) hbody
  · simp only [sealedContainer, hct, withMac_take, hd]

theorem toyPrims_decryptSized : toyPrims.DecryptSized := by
  intro key block h
  simp [toyPrims, fitTo, xorBytes, h]

theorem isTypedOutcome_ne_crash (r : Res Database) (h : isTypedOutcome r = true) :
    r ≠ Res.crash := by
  intro e
  rw [e] at h
  exact absurd h (by decide)

/-! ## Base32 seeds -/

theorem b32Char_spec (v : Nat) (h : v < 32) :
    b32Val (b32Char v) = some v ∧ b32Char v ≠ 0x3D ∧ b32Char v ≠ 0x0D ∧ b32Char v ≠ 0x0A := by
  simp only [b32Char, b32Val]
  split_ifs <;> refine ⟨?_, ?_, ?_, ?_⟩ <;> first | omega | (simp <;> omega)

theorem b32Unpack_lt (s0 s1 s2 s3 s4 : Nat) (h0 : s0 < 256) (h1 : s1 < 256) (h2 : s2 < 256)
    (h3 : s3 < 256) (h4 : s4 < 256) : ∀ v ∈ b32Unpack s0 s1 s2 s3 s4, v < 32 := by
  intro v hv
  simp only [b32Unpack, List.mem_cons, List.mem_singleton, List.not_mem_nil, or_false] at hv
  omega

theorem b32Pack_unpack (s0 s1 s2 s3 s4 : Nat) (h0 : s0 < 256) (h1 : s1 < 256) (h2 : s2 < 256)
    (h3 : s3 < 256) (h4 : s4 < 256) :
    b32Pack (b32Unpack s0 s1 s2 s3 s4) = [s0, s1, s2, s3, s4] := by
  simp [b32Pack, b32Unpack]
  omega


theorem b32Quantum_char (r : Nat) (acc src : List Nat) (v : Nat) (h : v < 32) :
    b32Quantum (r + 1) acc (b32Char v :: src) = b32Quantum r (acc ++ [v]) src := by
  obtain ⟨h1, h2, _, _⟩ := b32Char_spec v h
  simp only [b32Quantum, h2, false_and, if_false, h1]

theorem b32Quantum_pad (r : Nat) (acc : List Nat) (n : Nat) (h2 : 2 ≤ acc.length)
    (h7 : acc.length + n = 7)
    (hv : ¬ (acc.length = 1 ∨ acc.length = 3 ∨ acc.length = 6)) :
    b32Quantum (r + 1) acc (0x3D :: List.replicate n 0x3D) =
      some (acc, List.replicate n 0x3D, true) := by
  have hc : (0x3D = 0x3D ∧ 2 ≤ acc.length ∧ (List.replicate n 0x3D).length < 8) := by
    refine ⟨rfl, h2, ?_⟩
    rw [List.length_replicate]
    omega
  have hs : ¬ ((List.replicate n 0x3D).length + acc.length < 8 - 1) := by
    rw [List.length_replicate]
    omega
  have ha : ((List.replicate n 0x3D).take (8 - 1 - acc.length)).any (fun x => x != 0x3D)
      = false := by
    rw [List.any_eq_false]
    intro x hx
    have := List.eq_of_mem_replicate (List.mem_of_mem_take hx)
    simp [this]
  simp only [b32Quantum, hc, and_self, if_true, hs, if_false, ha, hv, Bool.false_eq_true]


theorem b32Quantum_full (v0 v1 v2 v3 v4 v5 v6 v7 : Nat) (rest : List Nat) (h0 : v0 < 32)
    (h1 : v1 < 32) (h2 : v2 < 32) (h3 : v3 < 32) (h4 : v4 < 32) (h5 : v5 < 32)
    (h6 : v6 < 32) (h7 : v7 < 32) :
    b32Quantum 8 [] (b32Char v0 :: b32Char v1 :: b32Char v2 :: b32Char v3 :: b32Char v4 ::
      b32Char v5 :: b32Char v6 :: b32Char v7 :: rest) =
      some ([v0, v1, v2, v3, v4, v5, v6, v7], rest, false) := by
  rw [b32Quantum_char _ _ _ _ h0, b32Quantum_char _ _ _ _ h1, b32Quantum_char _ _ _ _ h2,
    b32Quantum_char _ _ _ _ h3, b32Quantum_char _ _ _ _ h4, b32Quantum_char _ _ _ _ h5,
    b32Quantum_char _ _ _ _ h6, b32Quantum_char _ _ _ _ h7]
  rfl

theorem b32Decode_full (fuel s0 s1 s2 s3 s4 : Nat) (rest : List Nat) (h0 : s0 < 256)
    (h1 : s1 < 256) (h2 : s2 < 256) (h3 : s3 < 256) (h4 : s4 < 256) :
    b32Decode (fuel + 1) ((b32Unpack s0 s1 s2 s3 s4).map b32Char ++ rest) =
      ([s0, s1, s2, s3, s4] ++ (b32Decode fuel rest).1, (b32Decode fuel rest).2) := by
  have hp := b32Pack_unpack s0 s1 s2 s3 s4 h0 h1 h2 h3 h4
  have hv := b32Unpack_lt s0 s1 s2 s3 s4 h0 h1 h2 h3 h4
  simp only [b32Unpack, List.mem_cons, List.mem_singleton, List.not_mem_nil, or_false,
    forall_eq_or_imp, forall_eq] at hv
  obtain ⟨v0, v1, v2, v3, v4, v5, v6, v7⟩ := hv
  simp only [b32Unpack] at hp
  have hq := b32Quantum_full _ _ _ _ _ _ _ _ rest v0 v1 v2 v3 v4 v5 v6 v7
  simp only [b32Unpack, List.map_cons, List.map_nil, List.cons_append, List.nil_append]
  rw [b32Decode, hq]
  simp only [Bool.false_eq_true, if_false, hp]
  rfl

/-- Decoding the last quantum of an encoding: `j` characters and `8 - j`
padding characters. -/
theorem b32Decode_last (fuel : Nat) (vals : List Nat) (n : Nat)
    (hv : ∀ v ∈ vals, v < 32) (h2 : 2 ≤ vals.length) (h7 : vals.length + n = 7)
    (hj : ¬ (vals.length = 1 ∨ vals.length = 3 ∨ vals.length = 6)) :
    b32Decode (fuel + 1) (vals.map b32Char ++ 0x3D :: List.replicate n 0x3D) =
      (b32Pack vals, false) := by
  have hq : ∀ (r : Nat) (todo acc : List Nat), (∀ v ∈ todo, v < 32) →
      2 ≤ (acc ++ todo).length → (acc ++ todo).length + n = 7 →
      ¬ ((acc ++ todo).length = 1 ∨ (acc ++ todo).length = 3 ∨ (acc ++ todo).length = 6) →
      b32Quantum (r + todo.length + 1) acc (todo.map b32Char ++ 0x3D :: List.replicate n 0x3D)
        = some (acc ++ todo, List.replicate n 0x3D, true) := by
    intro r todo
    induction todo with
    | nil =>
      intro acc _ h2 h7 hj
      simp only [List.append_nil] at h2 h7 hj ⊢
      exact b32Quantum_pad _ acc n h2 h7 hj
    | cons v todo ih =>
      intro acc hv h2 h7 hj
      have hv0 : v < 32 := hv v (List.mem_cons_self _ _)
      have e : acc ++ v :: todo = (acc ++ [v]) ++ todo := by simp
      rw [e] at h2 h7 hj ⊢
      simp only [List.map_cons, List.cons_append, List.length_cons]
      rw [show r + (todo.length + 1) + 1 = (r + todo.length + 1) + 1 by omega,
        b32Quantum_char _ _ _ _ hv0]
      exact ih (acc ++ [v]) (fun x hx => hv x (List.mem_cons_of_mem _ hx)) h2 h7 hj
  have hq1 := hq (7 - vals.length) vals [] hv (by simpa using h2) (by simpa using h7)
    (by simpa using hj)
  rw [show 7 - vals.length + vals.length + 1 = 8 by omega, List.nil_append] at hq1
  cases hvals : vals with
  | nil => rw [hvals] at h2; simp at h2
  | cons v rest =>
    rw [hvals] at hq1
    simp only [List.map_cons, List.cons_append] at hq1 ⊢
    rw [b32Decode, hq1]
    simp only [if_true]


theorem b32Decode_encode (k : List Nat) : (∀ x ∈ k, x < 256) →
    ∀ fuel, k.length < fuel → b32Decode fuel (b32EncodeToString k) = (k, false) := by
  induction k using b32EncodeToString.induct with
  | case1 =>
    intro _ fuel _
    cases fuel <;> rfl
  | case2 s0 =>
    intro hk fuel hf
    obtain ⟨f, rfl⟩ : ∃ f, fuel = f + 1 := ⟨fuel - 1, by simp at hf; omega⟩
    have h0 : s0 < 256 := hk s0 (by simp)
    have hv := b32Unpack_lt s0 0 0 0 0 h0 (by decide) (by decide) (by decide) (by decide)
    rw [b32EncodeToString, List.replicate_succ,
      b32Decode_last f _ 5 (fun v hv1 => hv v (List.mem_of_mem_take hv1)) (by simp [b32Unpack])
        (by simp [b32Unpack]) (by simp [b32Unpack])]
    simp [b32Pack, b32Unpack]
    omega
  | case3 s0 s1 =>
    intro hk fuel hf
    obtain ⟨f, rfl⟩ : ∃ f, fuel = f + 1 := ⟨fuel - 1, by simp at hf; omega⟩
    have h0 : s0 < 256 := hk s0 (by simp)
    have h1 : s1 < 256 := hk s1 (by simp)
    have hv := b32Unpack_lt s0 s1 0 0 0 h0 h1 (by decide) (by decide) (by decide)
    rw [b32EncodeToString, List.replicate_succ,
      b32Decode_last f _ 3 (fun v hv1 => hv v (List.mem_of_mem_take hv1)) (by simp [b32Unpack])
        (by simp [b32Unpack]) (by simp [b32Unpack])]
    simp [b32Pack, b32Unpack]
    omega
  | case4 s0 s1 s2 =>
    intro hk fuel hf
    obtain ⟨f, rfl⟩ : ∃ f, fuel = f + 1 := ⟨fuel - 1, by simp at hf; omega⟩
    have h0 : s0 < 256 := hk s0 (by simp)
    have h1 : s1 < 256 := hk s1 (by simp)
    have h2 : s2 < 256 := hk s2 (by simp)
    have hv := b32Unpack_lt s0 s1 s2 0 0 h0 h1 h2 (by decide) (by decide)
    rw [b32EncodeToString, List.replicate_succ,
      b32Decode_last f _ 2 (fun v hv1 => hv v (List.mem_of_mem_take hv1)) (by simp [b32Unpack])
        (by simp [b32Unpack]) (by simp [b32Unpack])]
    simp [b32Pack, b32Unpack]
    omega
  | case5 s0 s1 s2 s3 =>
    intro hk fuel hf
    obtain ⟨f, rfl⟩ : ∃ f, fuel = f + 1 := ⟨fuel - 1, by simp at hf; omega⟩
    have h0 : s0 < 256 := hk s0 (by simp)
    have h1 : s1 < 256 := hk s1 (by simp)
    have h2 : s2 < 256 := hk s2 (by simp)
    have h3 : s3 < 256 := hk s3 (by simp)
    have hv := b32Unpack_lt s0 s1 s2 s3 0 h0 h1 h2 h3 (by decide)
    rw [b32EncodeToString, List.replicate_succ,
      b32Decode_last f _ 0 (fun v hv1 => hv v (List.mem_of_mem_take hv1)) (by simp [b32Unpack])
        (by simp [b32Unpack]) (by simp [b32Unpack])]
    simp [b32Pack, b32Unpack]
    omega
  | case6 s0 s1 s2 s3 s4 rest ih =>
    intro hk fuel hf
    obtain ⟨f, rfl⟩ : ∃ f, fuel = f + 1 := ⟨fuel - 1, by simp at hf; omega⟩
    have h0 : s0 < 256 := hk s0 (by simp)
    have h1 : s1 < 256 := hk s1 (by simp)
    have h2 : s2 < 256 := hk s2 (by simp)
    have h3 : s3 < 256 := hk s3 (by simp)
    have h4 : s4 < 256 := hk s4 (by simp)
    have hr := ih (fun x hx => hk x (by simp [hx])) f (by simp at hf; omega)
    rw [b32EncodeToString, b32Decode_full f s0 s1 s2 s3 s4 _ h0 h1 h2 h3 h4, hr]
    rfl


theorem b32Char_mem (vals : List Nat) (hv : ∀ v ∈ vals, v < 32) :
    ∀ c ∈ vals.map b32Char, c ≠ 0x3D ∧ c ≠ 0x0D ∧ c ≠ 0x0A := by
  intro c hc
  obtain ⟨v, hv1, rfl⟩ := List.mem_map.mp hc
  exact (b32Char_spec v (hv v hv1)).2

/-- The shape of an encoding: alphabet characters, then fewer than eight
padding characters, a multiple of eight characters in all. -/
theorem b32EncodeToString_shape (k : List Nat) : (∀ x ∈ k, x < 256) →
    ∃ body n, b32EncodeToString k = body ++ List.replicate n 0x3D ∧
      (∀ c ∈ body, c ≠ 0x3D ∧ c ≠ 0x0D ∧ c ≠ 0x0A) ∧ n < 8 ∧ (body.length + n) % 8 = 0 := by
  induction k using b32EncodeToString.induct with
  | case1 =>
    intro _
    exact ⟨[], 0, rfl, by simp, by decide, rfl⟩
  | case2 s0 =>
    intro hk
    have hv := b32Unpack_lt s0 0 0 0 0 (hk s0 (by simp)) (by decide) (by decide) (by decide)
      (by decide)
    exact ⟨_, 6, rfl, b32Char_mem _ (fun v hv1 => hv v (List.mem_of_mem_take hv1)), by decide,
      by simp [b32Unpack]⟩
  | case3 s0 s1 =>
    intro hk
    have hv := b32Unpack_lt s0 s1 0 0 0 (hk s0 (by simp)) (hk s1 (by simp)) (by decide)
      (by decide) (by decide)
    exact ⟨_, 4, rfl, b32Char_mem _ (fun v hv1 => hv v (List.mem_of_mem_take hv1)), by decide,
      by simp [b32Unpack]⟩
  | case4 s0 s1 s2 =>
    intro hk
    have hv := b32Unpack_lt s0 s1 s2 0 0 (hk s0 (by simp)) (hk s1 (by simp)) (hk s2 (by simp))
      (by decide) (by decide)
    exact ⟨_, 3, rfl, b32Char_mem _ (fun v hv1 => hv v (List.mem_of_mem_take hv1)), by decide,
      by simp [b32Unpack]⟩
  | case5 s0 s1 s2 s3 =>
    intro hk
    have hv := b32Unpack_lt s0 s1 s2 s3 0 (hk s0 (by simp)) (hk s1 (by simp)) (hk s2 (by simp))
      (hk s3 (by simp)) (by decide)
    exact ⟨_, 1, rfl, b32Char_mem _ (fun v hv1 => hv v (List.mem_of_mem_take hv1)), by decide,
      by simp [b32Unpack]⟩
  | case6 s0 s1 s2 s3 s4 rest ih =>
    intro hk
    have hv := b32Unpack_lt s0 s1 s2 s3 s4 (hk s0 (by simp)) (hk s1 (by simp))
      (hk s2 (by simp)) (hk s3 (by simp)) (hk s4 (by simp))
    obtain ⟨body, n, he, hb, hn, hl⟩ := ih (fun x hx => hk x (by simp [hx]))
    refine ⟨(b32Unpack s0 s1 s2 s3 s4).map b32Char ++ body, n, ?_, ?_, hn, ?_⟩
    · rw [b32EncodeToString, he, List.append_assoc]
    · intro c hc
      rcases List.mem_append.mp hc with h | h
      · exact b32Char_mem _ hv c h
      · exact hb c h
    · simp only [List.length_append, List.length_map, b32Unpack, List.length_cons,
        List.length_nil]
      omega

theorem trimPadding_append (body : List Nat) (n : Nat) (hb : ∀ c ∈ body, c ≠ 0x3D) :
    trimPadding (body ++ List.replicate n 0x3D) = body := by
  have h1 : ∀ m : Nat, (List.replicate m 0x3D ++ body.reverse).dropWhile (fun c => c == 0x3D)
      = body.reverse := by
    intro m
    induction m with
    | zero =>
      simp only [List.replicate_zero, List.nil_append]
      cases hr : body.reverse with
      | nil => rfl
      | cons c rest =>
        have hc : c ≠ 0x3D := hb c (by
          have : c ∈ body.reverse := by rw [hr]; exact List.mem_cons_self _ _
          exact List.mem_reverse.mp this)
        have hc1 : (c == 0x3D) = false := by simpa using hc
        rw [List.dropWhile_cons, hc1]
        rfl
    | succ m ih =>
      rw [List.replicate_succ, List.cons_append, List.dropWhile_cons]
      simpa using ih
  simp only [trimPadding, List.reverse_append, List.reverse_replicate, h1, List.reverse_reverse]

theorem padToMultipleOf8_append (body : List Nat) (n : Nat) (hn : n < 8)
    (hl : (body.length + n) % 8 = 0) :
    padToMultipleOf8 body = body ++ List.replicate n 0x3D := by
  have : (8 - body.length % 8) % 8 = n := by omega
  rw [padToMultipleOf8, this]


theorem b32EncodeToString_length (k : List Nat) :
    k.length ≤ (b32EncodeToString k).length := by
  induction k using b32EncodeToString.induct with
  | case1 => simp [b32EncodeToString]
  | case2 s0 => simp [b32EncodeToString, b32Unpack]
  | case3 s0 s1 => simp [b32EncodeToString, b32Unpack]
  | case4 s0 s1 s2 => simp [b32EncodeToString, b32Unpack]
  | case5 s0 s1 s2 s3 => simp [b32EncodeToString, b32Unpack]
  | case6 s0 s1 s2 s3 s4 rest ih =>
    rw [b32EncodeToString]
    simp only [List.length_append, List.length_map, b32Unpack, List.length_cons,
      List.length_nil]
    omega

theorem isBytes_iff (k : List Nat) : isBytes k = true ↔ ∀ x ∈ k, x < 256 := by
  simp [isBytes, List.all_eq_true]

/-- Decoding undoes encoding. -/
theorem b32DecodeString_encode (k : List Nat) (hk : ∀ x ∈ k, x < 256) :
    b32DecodeString (b32EncodeToString k) = (k, false) := by
  obtain ⟨body, n, he, hb, _, _⟩ := b32EncodeToString_shape k hk
  have hf : (b32EncodeToString k).filter (fun c => c != 0x0D && c != 0x0A) =
      b32EncodeToString k := by
    rw [List.filter_eq_self, he]
    intro c hc
    rcases List.mem_append.mp hc with h | h
    · obtain ⟨_, h1, h2⟩ := hb c h
      simp [h1, h2]
    · rw [List.eq_of_mem_replicate h]
      decide
  simp only [b32DecodeString, hf]
  exact b32Decode_encode k hk _ (by have := b32EncodeToString_length k; omega)

theorem padToMultipleOf8_trimPadding (k : List Nat) (hk : ∀ x ∈ k, x < 256) :
    padToMultipleOf8 (trimPadding (b32EncodeToString k)) = b32EncodeToString k := by
  obtain ⟨body, n, he, hb, hn, hl⟩ := b32EncodeToString_shape k hk
  rw [he, trimPadding_append body n (fun c hc => (hb c hc).1),
    padToMultipleOf8_append body n hn hl]

/-- What `Base32Secret` computes, in the words of the specification. -/
theorem Base32Secret_eq (s : List Nat) :
    Base32Secret s = (some (b32DecodeString (padToMultipleOf8 s)).1,
      if (b32DecodeString (padToMultipleOf8 s)).2 then some Error.base32 else none) := by
  have hp : (if s.length % 8 ≠ 0 then s ++ List.replicate (8 - s.length % 8) 0x3D else s) =
      padToMultipleOf8 s := by
    by_cases h : s.length % 8 = 0
    · simp [padToMultipleOf8, h]
    · have e : (8 - s.length % 8) % 8 = 8 - s.length % 8 := by omega
      simp only [padToMultipleOf8, e, ne_eq, h, not_false_eq_true, if_true]
  simp only [Base32Secret, hp]

theorem padToMultipleOf8_spec (s : List Nat) :
    s <+: padToMultipleOf8 s ∧ (padToMultipleOf8 s).length % 8 = 0 ∧
      (padToMultipleOf8 s).length < s.length + 8 ∧
      (s.length % 8 = 0 → padToMultipleOf8 s = s) ∧
      ∀ c ∈ (padToMultipleOf8 s).drop s.length, c = 0x3D := by
  refine ⟨List.prefix_append _ _, ?_, ?_, ?_, ?_⟩
  · simp only [padToMultipleOf8, List.length_append, List.length_replicate]
    omega
  · simp only [padToMultipleOf8, List.length_append, List.length_replicate]
    omega
  · intro h
    simp [padToMultipleOf8, h]
  · intro c hc
    rw [padToMultipleOf8, List.drop_left] at hc
    exact List.eq_of_mem_replicate hc

/-! ## The accepted markers -/

theorem isSpace_lt {r : Nat} (h : isSpace r = true) : r < 0x3001 ∧ r ≠ runeError := by
  simp only [isSpace, Bool.or_eq_true, Bool.and_eq_true, decide_eq_true_eq, beq_iff_eq] at h
  simp only [runeError]
  omega

/-- Decoding the encoding of a rune below the surrogates gives the rune back. -/
theorem decodeRune_encodeRune (r : Nat) (h : r < 0xD800) (t : List Nat) :
    decodeRune (encodeRune r ++ t) = (r, (encodeRune r).length) := by
  have key : decodeRune (encodeRune r) = (r, (encodeRune r).length) := by
    simp only [encodeRune]
    split_ifs with h1 h2 h3 h4
    · simp [decodeRune, h1]
    · have a : ¬ (0xC0 + r / 64 < 0x80) := by omega
      have b : 0xC2 ≤ 0xC0 + r / 64 ∧ 0xC0 + r / 64 ≤ 0xDF := by omega
      have c : 0x80 ≤ 0x80 + r % 64 ∧ 0x80 + r % 64 ≤ 0xBF := by omega
      simp only [decodeRune, a, b, c, and_self, if_true, if_false, List.length_cons,
        List.length_nil, Prod.mk.injEq, and_true]
      omega
    · omega
    · have a : ¬ (0xE0 + r / 4096 < 0x80) := by omega
      have b : ¬ (0xC2 ≤ 0xE0 + r / 4096 ∧ 0xE0 + r / 4096 ≤ 0xDF) := by omega
      have c : 0xE0 ≤ 0xE0 + r / 4096 ∧ 0xE0 + r / 4096 ≤ 0xEF := by omega
      have d : 0x80 ≤ 0x80 + r % 64 ∧ 0x80 + r % 64 ≤ 0xBF := by omega
      have e : (if 0xE0 + r / 4096 = 0xE0 then 0xA0 else 0x80) ≤ 0x80 + r / 64 % 64 ∧
          0x80 + r / 64 % 64 ≤ (if 0xE0 + r / 4096 = 0xED then 0x9F else 0xBF) := by
        split_ifs <;> omega
      simp only [decodeRune, a, b, c, d, e, and_self, if_true, if_false, List.length_cons,
        List.length_nil, Prod.mk.injEq, and_true]
      omega
    · omega
  have hne : encodeRune r ≠ [] := by
    simp only [encodeRune]
    split_ifs <;> simp
  have hv : ¬ (r = runeError ∧ (encodeRune r).length = 1) := by
    intro ⟨h1, _⟩
    simp only [runeError] at h1
    omega
  obtain ⟨_, _, _, _, hall⟩ := decodeRune_valid key hv hne
  have := hall t
  rwa [List.take_length] at this


theorem isScanSpaceRun_nil : isScanSpaceRun [] := ⟨[], by simp, rfl⟩

theorem isScanSpaceRun_cons (r : Nat) (sp : List Nat) (h1 : isSpace r = true)
    (h2 : r ≠ 0x0A) (h : isScanSpaceRun sp) : isScanSpaceRun (encodeRune r ++ sp) := by
  obtain ⟨runes, hr, rfl⟩ := h
  refine ⟨r :: runes, ?_, by simp⟩
  intro x hx
  rcases List.mem_cons.mp hx with rfl | hx
  · exact ⟨h1, h2⟩
  · exact hr x hx

/-- What `SkipSpace` drops is a run of white space. -/
theorem skipSpace_spec (fuel : Nat) : ∀ s t, skipSpace fuel s = some t →
    ∃ sp, s = sp ++ t ∧ isScanSpaceRun sp := by
  induction fuel with
  | zero =>
    intro s t h
    simp only [skipSpace, Option.some.injEq] at h
    exact ⟨[], by simp [h], isScanSpaceRun_nil⟩
  | succ fuel ih =>
    intro s t h
    cases s with
    | nil =>
      simp only [skipSpace, Option.some.injEq] at h
      exact ⟨[], by simp [h], isScanSpaceRun_nil⟩
    | cons c s =>
      simp only [skipSpace] at h
      split_ifs at h with h1 h2
      · obtain ⟨sp, hsp, hrun⟩ := ih _ _ h
        have hd : decodeRune (c :: s) = ((decodeRune (c :: s)).1, (decodeRune (c :: s)).2) := rfl
        obtain ⟨_, _, henc, _, _⟩ := decodeRune_valid hd
          (fun hh => (isSpace_lt h2).2 hh.1) (by simp)
        refine ⟨encodeRune (decodeRune (c :: s)).1 ++ sp, ?_, isScanSpaceRun_cons _ _ h2 h1 hrun⟩
        rw [List.append_assoc, ← hsp, henc, List.take_append_drop]
      · simp only [Option.some.injEq] at h
        exact ⟨[], by simp [h], isScanSpaceRun_nil⟩

/-- `SkipSpace` drops a run of white space in front of a hexadecimal digit. -/
theorem skipSpace_run (runes : List Nat) (c : Nat) (t : List Nat)
    (hr : ∀ r ∈ runes, isSpace r = true ∧ r ≠ 0x0A) (hc : (hexVal c).isSome) :
    ∀ fuel, ((runes.map encodeRune).flatten ++ c :: t).length ≤ fuel →
      skipSpace fuel ((runes.map encodeRune).flatten ++ c :: t) = some (c :: t) := by
  induction runes with
  | nil =>
    intro fuel _
    exact skipSpace_hex fuel c t hc
  | cons r runes ih =>
    intro fuel hf
    obtain ⟨h1, h2⟩ := hr r (List.mem_cons_self _ _)
    have hlt := (isSpace_lt h1).1
    have hdec := decodeRune_encodeRune r (by omega)
      ((runes.map encodeRune).flatten ++ c :: t)
    have hpos : 1 ≤ (encodeRune r).length := by
      simp only [encodeRune]
      split_ifs <;> simp
    simp only [List.map_cons, List.flatten_cons, List.append_assoc] at hf ⊢
    rw [List.length_append] at hf
    obtain ⟨f, rfl⟩ : ∃ f, fuel = f + 1 := ⟨fuel - 1, by omega⟩
    cases hx : encodeRune r ++ ((runes.map encodeRune).flatten ++ c :: t) with
    | nil =>
      have := congrArg List.length hx
      simp only [List.length_append, List.length_nil] at this
      omega
    | cons a rest =>
      rw [hx] at hdec
      simp only [skipSpace, hdec, h2, h1, if_true, if_false]
      rw [← hx, List.drop_left]
      exact ih (fun x hx1 => hr x (List.mem_cons_of_mem _ hx1)) f (by omega)


theorem scanNumber_spec (w : Nat) : ∀ s : List Nat,
    (∃ rest, s = scanNumber w s ++ rest) ∧ ∀ c ∈ scanNumber w s, (hexVal c).isSome := by
  induction w with
  | zero =>
    intro s
    simp [scanNumber]
  | succ w ih =>
    intro s
    cases s with
    | nil => simp [scanNumber]
    | cons c s =>
      simp only [scanNumber, isScanHexDigit]
      split_ifs with hc
      · obtain ⟨⟨rest, hrest⟩, hall⟩ := ih s
        refine ⟨⟨rest, by rw [List.cons_append, ← hrest]⟩, ?_⟩
        intro x hx
        rcases List.mem_cons.mp hx with rfl | hx
        · exact hc
        · exact hall x hx
      · simp

theorem scanNumber_append (ds rest : List Nat) (h : ∀ c ∈ ds, (hexVal c).isSome) :
    ∀ w, ds.length ≤ w →
      scanNumber w (ds ++ rest) = ds ++ scanNumber (w - ds.length) rest := by
  induction ds with
  | nil => intro w _; simp
  | cons c ds ih =>
    intro w hw
    obtain ⟨v, rfl⟩ : ∃ v, w = v + 1 := ⟨w - 1, by simp at hw; omega⟩
    have hc := h c (List.mem_cons_self _ _)
    have hi := ih (fun x hx => h x (List.mem_cons_of_mem _ hx)) v (by simp at hw; omega)
    rw [List.cons_append, scanNumber, isScanHexDigit, hc, if_pos rfl, hi, List.length_cons,
      Nat.add_sub_add_right, List.cons_append]

theorem hexVal_zero {c : Nat} (h : hexVal c = some 0) : c = 0x30 := by
  unfold hexVal at h
  split_ifs at h with h1 h2 h3 <;> simp at h
  omega

theorem parseHex_zeros (zeros s : List Nat) (h : ∀ z ∈ zeros, z = 0x30) :
    parseHex 0 (zeros ++ s) = parseHex 0 s := by
  induction zeros with
  | nil => rfl
  | cons z zeros ih =>
    have hz : z = 0x30 := h z (List.mem_cons_self _ _)
    rw [hz, List.cons_append, parseHex, show hexVal 0x30 = some 0 from rfl]
    exact ih (fun x hx => h x (List.mem_cons_of_mem _ hx))

theorem parseHex_pos (s : List Nat) (h : ∀ c ∈ s, (hexVal c).isSome) :
    ∀ acc, acc ≠ 0 → ∃ v, parseHex acc s = some v ∧ v ≠ 0 := by
  induction s with
  | nil => intro acc ha; exact ⟨acc, rfl, ha⟩
  | cons c s ih =>
    intro acc ha
    obtain ⟨d, hd⟩ := Option.isSome_iff_exists.mp (h c (List.mem_cons_self _ _))
    simp only [parseHex, hd]
    exact ih (fun x hx => h x (List.mem_cons_of_mem _ hx)) _ (by omega)

theorem parseHex_shape (tok : List Nat) (v : Nat) (h : parseHex 0 tok = some v)
    (hv : v ≠ 0) :
    ∃ zeros d more, tok = zeros ++ d :: more ∧ (∀ z ∈ zeros, z = 0x30) ∧
      ∃ x, hexVal d = some x ∧ x ≠ 0 := by
  induction tok with
  | nil =>
    simp only [parseHex, Option.some.injEq] at h
    exact absurd h.symm hv
  | cons c s ih =>
    simp only [parseHex] at h
    cases hc : hexVal c with
    | none => simp [hc] at h
    | some x =>
      rw [hc] at h
      by_cases hx : x = 0
      · subst hx
        obtain ⟨zeros, d, more, h1, h2, h3⟩ := ih h
        refine ⟨c :: zeros, d, more, by rw [h1, List.cons_append], ?_, h3⟩
        intro z hz
        rcases List.mem_cons.mp hz with rfl | hz
        · exact hexVal_zero hc
        · exact h2 z hz
      · exact ⟨[], c, s, rfl, by simp, x, hc, hx⟩

/-- The tokens of at most 12 bytes that `Sscanf` reads as a version other than
0 are the accepted markers. -/
theorem sscanfMarker_accepts (tok : List Nat) (hlen : tok.length ≤ 12) :
    (∃ v, sscanfMarker tok = some v ∧ v ≠ 0) ↔ isAcceptedMarker tok := by
  constructor
  · rintro ⟨v, hs, hv⟩
    have hp := sscanfMarker_prefix hs
    match tok, hs, hp with
    | p :: w :: d :: b :: rest, hs, hp =>
      simp only [sscanfMarker] at hs
      split_ifs at hs with hpre
      cases hsk : skipSpace rest.length rest with
      | none => simp [hsk] at hs
      | some rest1 =>
        simp only [hsk] at hs
        split_ifs at hs with hne
        obtain ⟨sp, hsp, hrun⟩ := skipSpace_spec _ _ _ hsk
        obtain ⟨⟨rest2, hr2⟩, _⟩ := scanNumber_spec 8 rest1
        obtain ⟨zeros, dd, more, h1, h2, h3⟩ := parseHex_shape _ v hs hv
        refine ⟨sp, zeros, dd, more ++ rest2, ?_, hrun, h2, h3⟩
        rw [← hpre, hsp, hr2, h1]
        simp
  · rintro ⟨sp, zeros, d, rest, rfl, ⟨runes, hr, rfl⟩, hz, x, hx, hx0⟩
    have hd : (hexVal d).isSome := by simp [hx]
    have hzh : ∀ c ∈ zeros ++ [d], (hexVal c).isSome := by
      intro c hc
      rcases List.mem_append.mp hc with h | h
      · rw [hz c h]; rfl
      · rw [List.mem_singleton.mp h]; exact hd
    have hl : (zeros ++ [d]).length ≤ 8 := by
      simp only [List.length_append, magicPrefix, List.length_cons, List.length_nil] at hlen ⊢
      omega
    have hscan := scanNumber_append (zeros ++ [d]) rest hzh 8 hl
    obtain ⟨⟨_, _⟩, hmore⟩ := scanNumber_spec (8 - (zeros ++ [d]).length) rest
    obtain ⟨v, hv, hv0⟩ := parseHex_pos _ hmore (0 * 16 + x) (by omega)
    have hparse : parseHex 0 (zeros ++ [d] ++ scanNumber (8 - (zeros ++ [d]).length) rest)
        = some v := by
      rw [List.append_assoc, parseHex_zeros _ _ hz, List.singleton_append, parseHex, hx]
      exact hv
    obtain ⟨c, t, hct⟩ : ∃ c t, zeros ++ d :: rest = c :: t ∧ (hexVal c).isSome := by
      cases zeros with
      | nil => exact ⟨d, rest, rfl, hd⟩
      | cons z zs => exact ⟨z, zs ++ d :: rest, rfl, by rw [hz z (List.mem_cons_self _ _)]; rfl⟩
    have hskip := skipSpace_run runes c t hr hct.2 _ (le_refl _)
    rw [← hct.1] at hskip
    refine ⟨v, ?_, hv0⟩
    have e : magicPrefix ++ (runes.map encodeRune).flatten ++ zeros ++ d :: rest =
        0x70 :: 0x77 :: 0x64 :: 0x62 :: ((runes.map encodeRune).flatten ++ (zeros ++ d :: rest)) := by
      simp [magicPrefix]
    have e2 : zeros ++ d :: rest = zeros ++ [d] ++ rest := by simp
    rw [e]
    simp only [sscanfMarker, magicPrefix, if_true, hskip]
    rw [e2, hscan, hparse]
    have hne : ¬ (zeros ++ [d] ++ scanNumber (8 - (zeros ++ [d]).length) rest = []) := by
      simp
    rw [if_neg hne]

/-! ## CBC mode -/

theorem blockAt_zero_append (c r : List Nat) (h : c.length = 16) : blockAt (c ++ r) 0 = c := by
  simp only [blockAt, Nat.mul_zero, List.drop_zero]
  exact List.take_left' h

theorem blockAt_succ_append (c r : List Nat) (i : Nat) (h : c.length = 16) :
    blockAt (c ++ r) (i + 1) = blockAt r i := by
  simp only [blockAt]
  rw [show 16 * (i + 1) = c.length + 16 * i by omega, ← List.drop_drop, List.drop_left]

theorem blockAt_succ_drop (s : List Nat) (i : Nat) :
    blockAt (s.drop 16) i = blockAt s (i + 1) := by
  simp only [blockAt, List.drop_drop]
  rw [show 16 + 16 * i = 16 * (i + 1) by omega]

/-- The block loop of `CryptBlocks` computes the CBC encryption. -/
theorem cbcEncryptBlocks_isCbc (P : Prims) (hP : P.Lawful) (key : List Nat) (n : Nat) :
    ∀ prev src, prev.length = 16 → src.length = 16 * n →
      isCbcEncryption P key prev src (cbcEncryptBlocks P key n prev src) := by
  induction n with
  | zero =>
    intro prev src _ hs
    refine ⟨by simp [cbcEncryptBlocks, hs], ?_⟩
    intro i hi
    omega
  | succ n ih =>
    intro prev src hp hs
    have hlen := cbcEncryptBlocks_length P hP key (n + 1) prev src hp hs
    refine ⟨by rw [hlen, hs], ?_⟩
    have hb : (xorBytes (src.take 16) prev).length = 16 := by
      rw [xorBytes_length _ _ (by rw [List.length_take, hp]; omega), List.length_take]
      omega
    have hc := hP.aes_length key _ hb
    obtain ⟨_, hrec⟩ := ih (P.aesEncrypt key (xorBytes (src.take 16) prev)) (src.drop 16) hc
      (by rw [List.length_drop]; omega)
    intro i hi
    simp only [cbcEncryptBlocks]
    cases i with
    | zero =>
      rw [blockAt_zero_append _ _ hc]
      simp only [if_true]
      rfl
    | succ i =>
      rw [blockAt_succ_append _ _ _ hc, hrec i (by rw [List.length_drop]; omega),
        blockAt_succ_drop]
      simp only [Nat.add_sub_cancel, Nat.succ_ne_zero, if_false]
      cases i with
      | zero => simp only [if_true, blockAt_zero_append _ _ hc]
      | succ j =>
        simp only [Nat.add_sub_cancel, Nat.succ_ne_zero, if_false,
          blockAt_succ_append _ _ _ hc]

/-! ## Containers whose IV does not read as a marker -/

set_option maxRecDepth 100000

/-- Round trip of an encrypted container: when the IV does not read as a version
marker, `ReadConfig` with the passphrase returns the database `WriteConfig`
wrote with it. -/
theorem encrypted_roundtrip (P : Prims) (hP : P.Lawful) (db : Database)
    (password iv padding : List Nat) (hwf : db.WF = true) (hv : db.validUtf8 = true)
    (hiv : iv.length = 16) (hpad : paddingFits (plainContainer db).length padding = true)
    (hm : isValidMagicId iv = Res.ok false) :
    writeThenRead P db (some password) (some password) iv padding = Res.ok db := by
  simp only [writeThenRead, WriteConfig_envelope P db password iv padding hiv hpad]
  rw [envelope, ReadConfig_written P hP db password iv padding hiv hpad hm]
  exact jsonUnmarshal_jsonMarshal db hwf hv

theorem encrypted_roundtrip_witness :
    sampleDb.WF = true ∧ sampleDb.validUtf8 = true ∧ sampleIv.length = 16 ∧
      paddingFits (plainContainer sampleDb).length (zeroPadding sampleDb) = true ∧
      isValidMagicId sampleIv = Res.ok false ∧
      writeThenRead toyPrims sampleDb (some []) (some []) sampleIv (zeroPadding sampleDb)
        = Res.ok sampleDb :=
  ⟨by decide, by decide, by decide, by decide, by decide,
    encrypted_roundtrip toyPrims toyPrims_lawful sampleDb [] sampleIv (zeroPadding sampleDb)
      (by decide) (by decide) (by decide) (by decide) (by decide)⟩

/-- Tampering with an encrypted container whose IV does not read as a version
marker: a changed byte of the MAC region is always answered with
`InvalidHMACError`, a changed byte of the ciphertext region whenever the tag of
the changed bytes differs from the stored tag. -/
theorem tamper_detection (P : Prims) (hP : P.Lawful) (db : Database)
    (password iv padding : List Nat) (i v : Nat) (hiv : iv.length = 16)
    (hpad : paddingFits (plainContainer db).length padding = true)
    (hm : isValidMagicId iv = Res.ok false)
    (hi : 16 ≤ i) (hlt : i < (envelope P db password iv padding).length)
    (hv : (envelope P db password iv padding).get? i ≠ some v)
    (hcoll : i < (envelope P db password iv padding).length - 32 →
      hmacSha256 (derivedKey password iv)
        (((envelope P db password iv padding).set i v).take
          ((envelope P db password iv padding).length - 32)) ≠
      (envelope P db password iv padding).drop
        ((envelope P db password iv padding).length - 32)) :
    writeTamperRead P db password iv padding i v = Res.err Error.invalidHMAC := by
  obtain ⟨h48, h12, h16, htake, hdrop⟩ := envelope_parts P hP db password iv padding hiv hpad
  have hmc := isValidMagicId_envelope_eq P hP db password iv padding hiv hpad
  simp only [writeTamperRead, WriteConfig_envelope P db password iv padding hiv hpad]
  generalize envelope P db password iv padding = env at *
  have hvi : env[i] ≠ v := by
    intro e
    rw [List.get?_eq_getElem?, List.getElem?_eq_getElem hlt, e] at hv
    exact hv rfl
  apply ReadConfig_bad_tag P password (env.set i v) (by simp; omega)
  · rw [isValidMagicId_congr (env.set i v) env (by simp; omega) (by omega)
      (take_set_of_le env i 12 v (by omega)), hmc, hm]
  · rw [List.length_set, take_set_of_le env i 16 v hi, h16]
    by_cases hreg : i < env.length - 32
    · rw [List.drop_set_of_lt v env hreg]
      exact (hcoll hreg).symm
    · rw [take_set_of_le env i _ v (by omega), htake, ← hdrop, List.drop_set, if_neg hreg]
      apply set_ne_self _ _ _ (by simp; omega)
      rw [List.getElem_drop]
      have : env.length - 32 + (i - (env.length - 32)) = i := by omega
      simp only [this]
      exact hvi

theorem tamper_detection_witness :
    sampleIv.length = 16 ∧
      paddingFits (plainContainer sampleDb).length (zeroPadding sampleDb) = true ∧
      isValidMagicId sampleIv = Res.ok false ∧
      (envelope toyPrims sampleDb samplePassword sampleIv (zeroPadding sampleDb)).length
        = 1648 ∧
      (writeTamperRead toyPrims sampleDb samplePassword sampleIv (zeroPadding sampleDb) 1647 0
          = Res.err Error.invalidHMAC ∨
        writeTamperRead toyPrims sampleDb samplePassword sampleIv (zeroPadding sampleDb) 1647 1
          = Res.err Error.invalidHMAC) := by
  have hl := envelope_length toyPrims toyPrims_lawful sampleDb samplePassword sampleIv
    (zeroPadding sampleDb) (by decide) (by decide)
  rw [show (paddedPlaintext (plainContainer sampleDb) (zeroPadding sampleDb)).length = 1600
    by decide] at hl
  refine ⟨by decide, by decide, by decide, hl, ?_⟩
  by_cases h : (envelope toyPrims sampleDb samplePassword sampleIv
      (zeroPadding sampleDb)).get? 1647 = some 0
  · exact Or.inr (tamper_detection toyPrims toyPrims_lawful sampleDb samplePassword sampleIv
      (zeroPadding sampleDb) 1647 1 (by decide) (by decide) (by decide) (by decide)
      (by rw [hl]; decide) (by rw [h]; decide) (by rw [hl]; decide))
  · exact Or.inl (tamper_detection toyPrims toyPrims_lawful sampleDb samplePassword sampleIv
      (zeroPadding sampleDb) 1647 0 (by decide) (by decide) (by decide) (by decide)
      (by rw [hl]; decide) h (by rw [hl]; decide))

/-- Reading with another passphrase a container whose IV does not read as a
version marker: the answer is `InvalidHMACError` exactly when the tags under the
two derived keys differ. -/
theorem wrong_passphrase (P : Prims) (hP : P.Lawful) (db : Database)
    (p1 p2 iv padding : List Nat) (hiv : iv.length = 16)
    (hpad : paddingFits (plainContainer db).length padding = true)
    (hm : isValidMagicId iv = Res.ok false) :
    writeThenRead P db (some p1) (some p2) iv padding = Res.err Error.invalidHMAC ↔
      hmacSha256 (derivedKey p2 iv)
          (iv ++ ciphertextOf P p1 iv (plainContainer db) padding) ≠
        hmacSha256 (derivedKey p1 iv)
          (iv ++ ciphertextOf P p1 iv (plainContainer db) padding) := by
  obtain ⟨h48, h12, h16, htake, hdrop⟩ := envelope_parts P hP db p1 iv padding hiv hpad
  have hmc := isValidMagicId_envelope_eq P hP db p1 iv padding hiv hpad
  rw [hm] at hmc
  simp only [writeThenRead, WriteConfig_envelope P db p1 iv padding hiv hpad]
  constructor
  · intro h heq
    refine ReadConfig_good_tag P p2 _ (by omega) hmc ?_ h
    rw [hdrop, h16, htake, heq]
  · intro hne
    apply ReadConfig_bad_tag P p2 _ (by omega) hmc
    rw [hdrop, h16, htake]
    exact hne.symm

theorem wrong_passphrase_witness :
    sampleIv.length = 16 ∧
      paddingFits (plainContainer sampleDb).length (zeroPadding sampleDb) = true ∧
      isValidMagicId sampleIv = Res.ok false ∧
      (writeThenRead toyPrims sampleDb (some samplePassword)
          (some (ascii "some other secret password")) sampleIv (zeroPadding sampleDb)
          = Res.err Error.invalidHMAC ↔
        hmacSha256 (derivedKey (ascii "some other secret password") sampleIv)
          (sampleIv ++ ciphertextOf toyPrims samplePassword sampleIv (plainContainer sampleDb)
            (zeroPadding sampleDb)) ≠
        hmacSha256 (derivedKey samplePassword sampleIv)
          (sampleIv ++ ciphertextOf toyPrims samplePassword sampleIv (plainContainer sampleDb)
            (zeroPadding sampleDb))) :=
  ⟨by decide, by decide, by decide,
    wrong_passphrase toyPrims toyPrims_lawful sampleDb samplePassword
      (ascii "some other secret password") sampleIv (zeroPadding sampleDb)
      (by decide) (by decide) (by decide)⟩

/-- Detection on written containers: a plain container is not reported as
encrypted; an encrypted one whose IV does not read as a version marker is, and
reading it without a passphrase gives `DatabaseEncryptedError`. -/
theorem encrypted_detection (P : Prims) (hP : P.Lawful) (db : Database)
    (password iv padding : List Nat) (hiv : iv.length = 16)
    (hpad : paddingFits (plainContainer db).length padding = true)
    (hm : isValidMagicId iv = Res.ok false) :
    writeThenIsEncrypted P db none iv padding = some false ∧
      writeThenIsEncrypted P db (some password) iv padding = some true ∧
      writeThenRead P db (some password) none iv padding
        = Res.err Error.databaseEncrypted := by
  obtain ⟨h48, _⟩ := envelope_parts P hP db password iv padding hiv hpad
  have hmc := isValidMagicId_envelope_eq P hP db password iv padding hiv hpad
  rw [hm] at hmc
  have hpl := plainContainer_length db
  have hpv : isValidMagicId (plainContainer db) = Res.ok true := by
    rw [plainContainer, List.append_assoc, isValidMagicId_magicId]
  refine ⟨?_, ?_, ?_⟩
  · simp only [writeThenIsEncrypted, WriteConfig_plain,
      IsEncrypted_eq (plainContainer db) true (by omega) hpv, Bool.not_true]
  · simp only [writeThenIsEncrypted, WriteConfig_envelope P db password iv padding hiv hpad,
      IsEncrypted_eq _ false (by omega) hmc, Bool.not_false]
  · simp only [writeThenRead, WriteConfig_envelope P db password iv padding hiv hpad]
    exact ReadConfig_no_key P _ (by omega) hmc

theorem encrypted_detection_witness :
    sampleIv.length = 16 ∧
      paddingFits (plainContainer sampleDb).length (zeroPadding sampleDb) = true ∧
      isValidMagicId sampleIv = Res.ok false ∧
      (writeThenIsEncrypted toyPrims sampleDb none sampleIv (zeroPadding sampleDb)
          = some false ∧
        writeThenIsEncrypted toyPrims sampleDb (some samplePassword) sampleIv
          (zeroPadding sampleDb) = some true ∧
        writeThenRead toyPrims sampleDb (some samplePassword) none sampleIv
          (zeroPadding sampleDb) = Res.err Error.databaseEncrypted) :=
  ⟨by decide, by decide, by decide,
    encrypted_detection toyPrims toyPrims_lawful sampleDb samplePassword sampleIv
      (zeroPadding sampleDb) (by decide) (by decide) (by decide)⟩




/-! ## The claims -/

set_option maxRecDepth 100000

/-- C9 (as amended): for a byte sequence `b` of at least 12 bytes,
`isValidMagicId(b)` is true exactly when the first 12 bytes are `pwdb`, then
white space without a newline (or none), then any number of `0`, then a
hexadecimal digit other than `0`, whatever follows; it is false otherwise and
never aborts. So when the 12 bytes are `pwdb` and eight hexadecimal digits,
`getDbVersion` returns their value and `isValidMagicId` is true exactly when the
value is not zero; `isValidMagicId` is true only for sequences that start with
`pwdb`; and for every `uint32` version `v`, `getDbVersion (makeFileMarker v)` is
`v` and the marker is valid exactly when `v` is not zero (so `pwdb00000000` is
rejected). -/
theorem marker_validity (b : List Nat) (v : Nat) (hb : 12 ≤ b.length) (hv : v < 2 ^ 32) :
    (isValidMagicId b = Res.ok true ↔ isAcceptedMarker (b.take 12)) ∧
    (isValidMagicId b = Res.ok true ∨ isValidMagicId b = Res.ok false) ∧
    (isMarkerShape b = true →
      getDbVersion b = Res.ok (parseHex 0 ((b.take 12).drop 4)) ∧
      isValidMagicId b = Res.ok (isFixedWidthMarker b)) ∧
    (isValidMagicId b = Res.ok true → b.take 4 = magicPrefix) ∧
    getDbVersion (makeFileMarker v) = Res.ok (some v) ∧
    isValidMagicId (makeFileMarker v) = Res.ok (v != 0) := by
  have key : ∀ (c ds : List Nat), 12 ≤ c.length → c.take 12 = magicPrefix ++ ds →
      ds.length = 8 → (∀ x ∈ ds, (hexVal x).isSome) →
      sscanfMarker (c.take 12) = parseHex 0 ds := by
    intro c ds _ h1 h2 h3
    rw [h1, sscanfMarker_fixed ds h2 h3]
  have hm : (makeFileMarker v).length = 12 := by simp [makeFileMarker, magicPrefix, hex8]
  obtain ⟨m1, m2, m3⟩ := makeFileMarker_shape v
  have hmv := key (makeFileMarker v) _ (by omega) m1 m2 m3
  rw [Nat.mod_eq_of_lt hv, parseHex_hex8 v hv] at hmv
  have hacc := sscanfMarker_accepts (b.take 12) (by rw [List.length_take]; omega)
  refine ⟨?_, isValidMagicId_total b hb, ?_, ?_, ?_, ?_⟩
  · rw [isValidMagicId_eq b hb, ← hacc]
    cases hsc : sscanfMarker (b.take 12) with
    | none => simp
    | some x => simp
  · intro hs
    obtain ⟨s1, s2, s3⟩ := isMarkerShape_take hs
    have hk := key b _ hb s1 s2 s3
    constructor
    · have h1 : ¬ b.length < 4 + 8 := by omega
      simp only [getDbVersion, magicMarkerLength, if_neg h1]
      rw [← hk]
    · rw [isValidMagicId_eq b hb, hk]
      obtain ⟨x, hx⟩ := Option.isSome_iff_exists.mp (parseHex_isSome _ 0 s3)
      simp only [isFixedWidthMarker, hs, hx, Bool.true_and]
      congr 1
  · intro hvalid
    rw [isValidMagicId_eq b hb] at hvalid
    cases hsc : sscanfMarker (b.take 12) with
    | none => simp [hsc] at hvalid
    | some x =>
      have := sscanfMarker_prefix hsc
      rw [List.take_take] at this
      simpa using this
  · have h1 : ¬ (makeFileMarker v).length < 4 + 8 := by omega
    simp only [getDbVersion, magicMarkerLength, if_neg h1]
    rw [show (4 + 8) = 12 from rfl, hmv]
  · rw [isValidMagicId_eq _ (by omega), hmv]

theorem marker_validity_witness :
    12 ≤ magicId.length ∧ 1 < 2 ^ 32 ∧
    ((isValidMagicId magicId = Res.ok true ↔ isAcceptedMarker (magicId.take 12)) ∧
    (isValidMagicId magicId = Res.ok true ∨ isValidMagicId magicId = Res.ok false) ∧
    (isMarkerShape magicId = true →
      getDbVersion magicId = Res.ok (parseHex 0 ((magicId.take 12).drop 4)) ∧
      isValidMagicId magicId = Res.ok (isFixedWidthMarker magicId)) ∧
    (isValidMagicId magicId = Res.ok true → magicId.take 4 = magicPrefix) ∧
    getDbVersion (makeFileMarker 1) = Res.ok (some 1) ∧
    isValidMagicId (makeFileMarker 1) = Res.ok ((1 : Nat) != 0)) :=
  ⟨by decide, by decide, marker_validity magicId 1 (by decide) (by decide)⟩

/-- C9 (counterexample): the 12 bytes `pwdb1zzzzzzz` and the 12 bytes `pwdb`,
space, tab, `000001` are accepted by `isValidMagicId` although neither is `pwdb`
followed by eight hexadecimal digits: `Sscanf` skips white space before the
number, takes `%08x` as at most eight digits and ignores what follows. The
tokens `pwdb00000000`, `pwdb0zzzzzzz` and `pwdbzzzzzzzz` are rejected. -/
theorem marker_validity_counterexample :
    12 ≤ (ascii "pwdb1zzzzzzz").length ∧
    isValidMagicId (ascii "pwdb1zzzzzzz") = Res.ok true ∧
    isFixedWidthMarker (ascii "pwdb1zzzzzzz") = false ∧
    12 ≤ (magicPrefix ++ [0x20, 0x09] ++ ascii "000001").length ∧
    isValidMagicId (magicPrefix ++ [0x20, 0x09] ++ ascii "000001") = Res.ok true ∧
    isFixedWidthMarker (magicPrefix ++ [0x20, 0x09] ++ ascii "000001") = false ∧
    isValidMagicId (ascii "pwdb00000000") = Res.ok false ∧
    isValidMagicId (ascii "pwdb0zzzzzzz") = Res.ok false ∧
    isValidMagicId (ascii "pwdbzzzzzzzz") = Res.ok false ∧
    isValidMagicId (ascii "pwdb1_000000") = Res.ok true := by
  decide

/-- C1 (as amended): for every database whose keys and string fields are valid
UTF-8, `ReadConfig` with no passphrase on the bytes `WriteConfig` writes with no
passphrase returns that database, without error. -/
theorem unencrypted_roundtrip (P : Prims) (db : Database) (iv padding : List Nat)
    (hwf : db.WF = true) (hv : db.validUtf8 = true) :
    writeThenRead P db none none iv padding = Res.ok db := by
  simp only [writeThenRead, WriteConfig]
  rw [ReadConfig_plain P _ [] none (jsonMarshal_ne_zero db)]
  exact jsonUnmarshal_jsonMarshal db hwf hv

theorem unencrypted_roundtrip_witness :
    sampleDb.WF = true ∧ sampleDb.validUtf8 = true ∧
      writeThenRead toyPrims sampleDb none none [] [] = Res.ok sampleDb :=
  ⟨by decide, by decide, unencrypted_roundtrip toyPrims sampleDb [] [] (by decide) (by decide)⟩

/-- C1 (counterexample): a database whose one password is the byte 0xFF, which
is not valid UTF-8, is written and read back without error, whatever the
primitives, but what is read has the three bytes of U+FFFD in its place:
`json.Marshal` replaces invalid UTF-8 by the replacement rune. -/
theorem unencrypted_roundtrip_counterexample :
    latin1Db.WF = true ∧ latin1DbRead ≠ latin1Db ∧
      ∀ P : Prims, writeThenRead P latin1Db none none [] [] = Res.ok latin1DbRead := by
  refine ⟨by decide, by decide, ?_⟩
  intro P
  simp only [writeThenRead, WriteConfig]
  rw [ReadConfig_plain P _ [] none (jsonMarshal_ne_zero latin1Db)]
  decide

/-- C2 (failing input): when `rand.Read` returns the IV `pwdb00000001` followed
by four zero bytes, the container `WriteConfig` writes with a passphrase starts
with a valid marker; `ReadConfig` with the same passphrase takes it for a plain
container with an empty payload and returns a JSON syntax error instead of the
database. This is so for the sample database and for every database,
passphrase and padding, whatever the block cipher. -/
theorem encrypted_roundtrip_marker_iv :
    markerIv = ascii "pwdb00000001" ++ [0, 0, 0, 0] ∧ markerIv.length = 16 ∧
    isValidMagicId markerIv = Res.ok true ∧
    sampleDb.WF = true ∧ sampleDb.validUtf8 = true ∧
    paddingFits (plainContainer sampleDb).length (zeroPadding sampleDb) = true ∧
    (∀ P : Prims,
      writeThenRead P sampleDb (some samplePassword) (some samplePassword) markerIv
        (zeroPadding sampleDb) = Res.err Error.jsonSyntax) ∧
    (∀ (P : Prims) (db : Database) (password padding : List Nat),
      paddingFits (plainContainer db).length padding = true →
      writeThenRead P db (some password) (some password) markerIv padding
        = Res.err Error.jsonSyntax) := by
  have hall : ∀ (P : Prims) (db : Database) (password padding : List Nat),
      paddingFits (plainContainer db).length padding = true →
      writeThenRead P db (some password) (some password) markerIv padding
        = Res.err Error.jsonSyntax := by
    intro P db password padding hpad
    simp only [writeThenRead, WriteConfig_envelope P db password markerIv padding
      (by decide) hpad]
    rw [envelope, List.append_assoc, ReadConfig_markerIv]
  exact ⟨by decide, by decide, by decide, by decide, by decide, by decide,
    fun P => hall P sampleDb samplePassword (zeroPadding sampleDb) (by decide), hall⟩

/-- C3 (failing input): with the IV `pwdb00000001` and four zero bytes the
container written with a passphrase (1648 bytes for the sample database) is
read as a plain container and its MAC is never checked: after byte 1584 (64
bytes before the end, in the ciphertext region) is replaced by any value,
`ReadConfig` with the passphrase returns a JSON syntax error, not
`InvalidHMACError`; and so for every database, passphrase and padding and
every replaced byte of the ciphertext or the MAC region. -/
theorem tamper_detection_marker_iv :
    markerIv = ascii "pwdb00000001" ++ [0, 0, 0, 0] ∧ markerIv.length = 16 ∧
    paddingFits (plainContainer sampleDb).length (zeroPadding sampleDb) = true ∧
    (∀ P : Prims, P.Lawful →
      (envelope P sampleDb samplePassword markerIv (zeroPadding sampleDb)).length = 1648 ∧
      ∀ v, writeTamperRead P sampleDb samplePassword markerIv (zeroPadding sampleDb) 1584 v
        = Res.err Error.jsonSyntax) ∧
    (∀ (P : Prims) (db : Database) (password padding : List Nat) (i v : Nat),
      paddingFits (plainContainer db).length padding = true → 16 ≤ i →
      writeTamperRead P db password markerIv padding i v = Res.err Error.jsonSyntax) := by
  have hall : ∀ (P : Prims) (db : Database) (password padding : List Nat) (i v : Nat),
      paddingFits (plainContainer db).length padding = true → 16 ≤ i →
      writeTamperRead P db password markerIv padding i v = Res.err Error.jsonSyntax := by
    intro P db password padding i v hpad hi
    simp only [writeTamperRead, WriteConfig_envelope P db password markerIv padding
      (by decide) hpad]
    rw [envelope, List.append_assoc,
      List.set_append_right _ _ (by rw [show markerIv.length = 16 by decide]; exact hi),
      ReadConfig_markerIv]
  refine ⟨by decide, by decide, by decide, ?_, hall⟩
  intro P hP
  have hl := envelope_length P hP sampleDb samplePassword markerIv (zeroPadding sampleDb)
    (by decide) (by decide)
  rw [show (paddedPlaintext (plainContainer sampleDb) (zeroPadding sampleDb)).length = 1600
    by decide] at hl
  exact ⟨hl, fun v => hall P sampleDb samplePassword (zeroPadding sampleDb) 1584 v
    (by decide) (by decide)⟩

/-- C4 (failing input): with the IV `pwdb00000001` and four zero bytes, reading
the container written with one passphrase with another passphrase returns a
JSON syntax error, not `InvalidHMACError`: the container is taken for a plain
one and the passphrase is never used. This is so for every database, pair of
passphrases and padding, whatever the block cipher. -/
theorem wrong_passphrase_marker_iv :
    markerIv = ascii "pwdb00000001" ++ [0, 0, 0, 0] ∧ markerIv.length = 16 ∧
    paddingFits (plainContainer sampleDb).length (zeroPadding sampleDb) = true ∧
    samplePassword ≠ ascii "some other secret password" ∧
    (∀ P : Prims,
      writeThenRead P sampleDb (some samplePassword)
        (some (ascii "some other secret password")) markerIv (zeroPadding sampleDb)
        = Res.err Error.jsonSyntax) ∧
    (∀ (P : Prims) (db : Database) (p1 p2 padding : List Nat),
      paddingFits (plainContainer db).length padding = true →
      writeThenRead P db (some p1) (some p2) markerIv padding = Res.err Error.jsonSyntax) := by
  have hall : ∀ (P : Prims) (db : Database) (p1 p2 padding : List Nat),
      paddingFits (plainContainer db).length padding = true →
      writeThenRead P db (some p1) (some p2) markerIv padding = Res.err Error.jsonSyntax := by
    intro P db p1 p2 padding hpad
    simp only [writeThenRead, WriteConfig_envelope P db p1 markerIv padding (by decide) hpad]
    rw [envelope, List.append_assoc, ReadConfig_markerIv]
  exact ⟨by decide, by decide, by decide, by decide,
    fun P => hall P sampleDb samplePassword _ (zeroPadding sampleDb) (by decide), hall⟩

/-- C5 (failing input): with the IV `pwdb00000001` and four zero bytes,
`IsEncrypted` is false on the container written with a passphrase, and
`ReadConfig` with no passphrase returns a JSON syntax error, not
`DatabaseEncryptedError`. This is so for every database, passphrase and
padding, whatever the block cipher. -/
theorem encrypted_detection_marker_iv :
    markerIv = ascii "pwdb00000001" ++ [0, 0, 0, 0] ∧ markerIv.length = 16 ∧
    paddingFits (plainContainer sampleDb).length (zeroPadding sampleDb) = true ∧
    (∀ P : Prims,
      writeThenIsEncrypted P sampleDb (some samplePassword) markerIv (zeroPadding sampleDb)
        = some false ∧
      writeThenRead P sampleDb (some samplePassword) none markerIv (zeroPadding sampleDb)
        = Res.err Error.jsonSyntax) ∧
    (∀ (P : Prims) (db : Database) (password padding : List Nat),
      paddingFits (plainContainer db).length padding = true →
      writeThenIsEncrypted P db (some password) markerIv padding = some false ∧
      writeThenRead P db (some password) none markerIv padding
        = Res.err Error.jsonSyntax) := by
  have hall : ∀ (P : Prims) (db : Database) (password padding : List Nat),
      paddingFits (plainContainer db).length padding = true →
      writeThenIsEncrypted P db (some password) markerIv padding = some false ∧
      writeThenRead P db (some password) none markerIv padding
        = Res.err Error.jsonSyntax := by
    intro P db password padding hpad
    have hw := WriteConfig_envelope P db password markerIv padding (by decide) hpad
    have hm : ∀ rest, isValidMagicId (markerIv ++ rest) = Res.ok true := by
      intro rest
      rw [markerIv, List.append_assoc, isValidMagicId_magicId]
    have hlen : ∀ rest : List Nat, 12 ≤ (markerIv ++ rest).length := by
      intro rest
      rw [List.length_append, show markerIv.length = 16 by decide]
      omega
    refine ⟨?_, ?_⟩
    · simp only [writeThenIsEncrypted, hw]
      rw [envelope, List.append_assoc, IsEncrypted_eq _ true (hlen _) (hm _)]
      rfl
    · simp only [writeThenRead, hw]
      rw [envelope, List.append_assoc, ReadConfig_markerIv]
  exact ⟨by decide, by decide, by decide,
    fun P => hall P sampleDb samplePassword (zeroPadding sampleDb) (by decide), hall⟩

/-- C10: for every database with JSON `j`, `WriteConfig` without a passphrase
writes `pwdb00000001`, then `j`, then one zero byte; with a passphrase `p` and
a 16-byte IV it writes the IV, a ciphertext of `N` bytes and a 32-byte MAC,
where `N` is the smallest multiple of 1600 that is at least `13 + len(j)` (so
a multiple of 16 and at least 1600; 48 + `N` bytes in all), the ciphertext is
the CBC encryption under `kdf(p, iv)` and the IV of `pwdb00000001`, `j`, a zero
byte and the random padding (so decrypting it gives these back), and the MAC is
HMAC-SHA256 under `kdf(p, iv)` of the first `16 + N` bytes. -/
theorem written_layout (P : Prims) (hP : P.Lawful) (db : Database)
    (password iv padding : List Nat) (hiv : iv.length = 16)
    (hpad : paddingFits (plainContainer db).length padding = true) :
    WriteConfig P (some db) none iv padding =
        Res.ok (ascii "pwdb00000001" ++ jsonMarshal db ++ [0]) ∧
      ∃ ct mac key pad, kdf password iv = Res.ok key ∧
        WriteConfig P (some db) (some password) iv padding = Res.ok (iv ++ ct ++ mac) ∧
        ct.length % 1600 = 0 ∧ 13 + (jsonMarshal db).length ≤ ct.length ∧
        (∀ m, m % 1600 = 0 → 13 + (jsonMarshal db).length ≤ m → ct.length ≤ m) ∧
        ct.length % 16 = 0 ∧ 1600 ≤ ct.length ∧ mac.length = 32 ∧
        (iv ++ ct ++ mac).length = 48 + ct.length ∧
        mac = hmacSha256 key ((iv ++ ct ++ mac).take (16 + ct.length)) ∧
        pad = (if (13 + (jsonMarshal db).length) % 1600 = 0 then [] else padding) ∧
        isCbcEncryption P key iv (ascii "pwdb00000001" ++ jsonMarshal db ++ [0] ++ pad) ct ∧
        cbcDecrypt P key iv ct =
          Res.ok (ascii "pwdb00000001" ++ jsonMarshal db ++ [0] ++ pad) := by
  have hcl := ciphertextOf_length P hP password iv (plainContainer db) padding hiv hpad
  obtain ⟨p1, p2, p3⟩ := paddedPlaintext_length (plainContainer db) padding hpad
  have hpl := plainContainer_length db
  simp only [minimumIncrement] at p1 p3
  have hn : (paddedPlaintext (plainContainer db) padding).length =
      16 * ((paddedPlaintext (plainContainer db) padding).length / 16) := by omega
  have hpt : paddedPlaintext (plainContainer db) padding =
      ascii "pwdb00000001" ++ jsonMarshal db ++ [0] ++
        (if (13 + (jsonMarshal db).length) % 1600 = 0 then [] else padding) := by
    have e : (plainContainer db).length = 13 + (jsonMarshal db).length := by omega
    simp only [paddedPlaintext, minimumIncrement, e]
    by_cases h : (13 + (jsonMarshal db).length) % 1600 = 0
    · simp only [h, ne_eq, not_true_eq_false, if_false, if_true, List.append_nil]
      rfl
    · simp only [h, ne_eq, not_false_eq_true, if_true, if_false]
      rfl
  have hcbc := cbcEncryptBlocks_isCbc P hP (derivedKey password iv) _ iv
    (paddedPlaintext (plainContainer db) padding) hiv hn
  have hinv := cbcDecryptBlocks_cbcEncryptBlocks P hP (derivedKey password iv) _ iv
    (paddedPlaintext (plainContainer db) padding) hiv hn
  rw [← ciphertextOf] at hcbc hinv
  have hml := hmacSha256_length (derivedKey password iv)
    (iv ++ ciphertextOf P password iv (plainContainer db) padding)
  refine ⟨rfl, ciphertextOf P password iv (plainContainer db) padding,
    hmacSha256 (derivedKey password iv)
      (iv ++ ciphertextOf P password iv (plainContainer db) padding),
    derivedKey password iv,
    (if (13 + (jsonMarshal db).length) % 1600 = 0 then [] else padding), kdf_eq password iv,
    WriteConfig_encrypted P db password iv padding hiv hpad, ?_⟩
  rw [← hpt]
  have hdec : cbcDecrypt P (derivedKey password iv) iv
      (ciphertextOf P password iv (plainContainer db) padding) =
      Res.ok (paddedPlaintext (plainContainer db) padding) := by
    have h16 : ¬ ((ciphertextOf P password iv (plainContainer db) padding).length % 16 ≠ 0) := by
      omega
    rw [cbcDecrypt, if_neg h16, hcl, hinv]
  generalize ciphertextOf P password iv (plainContainer db) padding = ct at *
  refine ⟨by omega, by omega, ?_, by omega, by omega, hml, ?_, ?_, rfl, hcbc, hdec⟩
  · intro m hm1 hm2; omega
  · simp only [List.length_append, hml, hiv]; omega
  · rw [← hiv, ← List.length_append, List.take_left]

theorem written_layout_witness :
    sampleIv.length = 16 ∧
      paddingFits (plainContainer sampleDb).length (zeroPadding sampleDb) = true ∧
      (WriteConfig toyPrims (some sampleDb) none sampleIv (zeroPadding sampleDb) =
        Res.ok (ascii "pwdb00000001" ++ jsonMarshal sampleDb ++ [0]) ∧
      ∃ ct mac key pad, kdf samplePassword sampleIv = Res.ok key ∧
        WriteConfig toyPrims (some sampleDb) (some samplePassword) sampleIv
          (zeroPadding sampleDb) = Res.ok (sampleIv ++ ct ++ mac) ∧
        ct.length % 1600 = 0 ∧ 13 + (jsonMarshal sampleDb).length ≤ ct.length ∧
        (∀ m, m % 1600 = 0 → 13 + (jsonMarshal sampleDb).length ≤ m → ct.length ≤ m) ∧
        ct.length % 16 = 0 ∧ 1600 ≤ ct.length ∧ mac.length = 32 ∧
        (sampleIv ++ ct ++ mac).length = 48 + ct.length ∧
        mac = hmacSha256 key ((sampleIv ++ ct ++ mac).take (16 + ct.length)) ∧
        pad = (if (13 + (jsonMarshal sampleDb).length) % 1600 = 0 then []
          else zeroPadding sampleDb) ∧
        isCbcEncryption toyPrims key sampleIv
          (ascii "pwdb00000001" ++ jsonMarshal sampleDb ++ [0] ++ pad) ct ∧
        cbcDecrypt toyPrims key sampleIv ct =
          Res.ok (ascii "pwdb00000001" ++ jsonMarshal sampleDb ++ [0] ++ pad)) :=
  ⟨by decide, by decide,
    written_layout toyPrims toyPrims_lawful sampleDb samplePassword sampleIv
      (zeroPadding sampleDb) (by decide) (by decide)⟩

/-- C6: for every non-nil seed and every counter, `calculateHotp` with SHA-1
returns, without error, the RFC 4226 dynamic truncation of the 20-byte
HMAC-SHA1 of the 8-byte big-endian counter under the seed; the four bytes
read lie inside the digest and the result is below 1,000,000. At the seed of
the RFC 4226 test vectors the values for the counters 0 and 1 are 755224 and
287082. -/
theorem hotp_dynamic_truncation (seed : List Nat) (counter : Int) :
    calculateHotp sha1New (some seed) counter =
      Res.ok (dynamicTruncation (hmac sha1New seed (bigEndianUint64 (toUint64 counter)))) ∧
    (bigEndianUint64 (toUint64 counter)).length = 8 ∧
    bigEndianValue (bigEndianUint64 (toUint64 counter)) = toUint64 counter ∧
    (hmac sha1New seed (bigEndianUint64 (toUint64 counter))).length = 20 ∧
    ((hmac sha1New seed (bigEndianUint64 (toUint64 counter))).getD 19 0 &&& 0x0F) + 4 ≤ 20 ∧
    dynamicTruncation (hmac sha1New seed (bigEndianUint64 (toUint64 counter))) < 1000000 ∧
    calculateHotp sha1New (some rfcSeed) 0 = Res.ok 755224 ∧
    calculateHotp sha1New (some rfcSeed) 1 = Res.ok 287082 := by
  have hl := hmacSha1_length seed (bigEndianUint64 (toUint64 counter))
  obtain ⟨h1, h2⟩ := calculateHotp_eq sha1New seed counter hl
  refine ⟨h1, rfl, ?_, hl, h2, dynamicTruncation_lt _, by decide, by decide⟩
  have hu : toUint64 counter < 2 ^ 64 := by
    simp only [toUint64]
    omega
  generalize toUint64 counter = u at hu
  simp only [bigEndianValue, bigEndianUint64, List.foldl_cons, List.foldl_nil]
  omega

/-- C7 (as amended): a generator from `NewGenerator` has time step 30; the
counter `Calculate` passes to `calculateHotp` is `t.Unix() / 30` truncated
towards zero for every `int64` second count, which for a timestamp at or after
1970 is `floor(t.Unix() / 30)`; so two timestamps at or after 1970 with the
same floor get the same counter and the same code. -/
theorem time_bucketing (secret : Option (List Nat)) (u t t2 : Int)
    (hu1 : -2 ^ 63 ≤ u) (hu2 : u < 2 ^ 63) (h0 : 0 ≤ t) (h1 : t < 2 ^ 63)
    (h02 : 0 ≤ t2) (h12 : t2 < 2 ^ 63) :
    (NewGenerator secret).TimeStep = 30 ∧
    (NewGenerator secret).counter u = some (Int.tdiv u 30) ∧
    (NewGenerator secret).counter t = some (Int.fdiv t 30) ∧
    (NewGenerator secret).Calculate t = calculateHotp sha1New secret (Int.fdiv t 30) ∧
    (Int.fdiv t2 30 = Int.fdiv t 30 →
      (NewGenerator secret).counter t2 = (NewGenerator secret).counter t ∧
      (NewGenerator secret).Calculate t2 = (NewGenerator secret).Calculate t) := by
  have hc : ∀ x : Int, -2 ^ 63 ≤ x → x < 2 ^ 63 →
      (NewGenerator secret).counter x = some (Int.tdiv x 30) := by
    intro x hx1 hx2
    obtain ⟨b1, b2⟩ := tdiv_thirty_bounds x hx1 hx2
    simp only [Generator.counter, NewGenerator, wrapInt64_eq _ b1 b2]
    simp
  have hf : ∀ x : Int, 0 ≤ x → Int.tdiv x 30 = Int.fdiv x 30 := by
    intro x hx
    rw [Int.tdiv_eq_ediv hx (by norm_num), Int.fdiv_eq_ediv x (by norm_num)]
  have ht := hc t (by omega) h1
  have ht2 := hc t2 (by omega) h12
  rw [hf t h0] at ht
  rw [hf t2 h02] at ht2
  refine ⟨rfl, hc u hu1 hu2, ht, ?_, ?_⟩
  · simp only [Generator.Calculate, ht]
    rfl
  · intro he
    simp only [Generator.Calculate, ht, ht2, he, and_self]

theorem time_bucketing_witness :
    (-2 ^ 63 ≤ (-1 : Int)) ∧ ((-1 : Int) < 2 ^ 63) ∧ (0 ≤ (59 : Int)) ∧ ((59 : Int) < 2 ^ 63) ∧
    (0 ≤ (31 : Int)) ∧ ((31 : Int) < 2 ^ 63) ∧
    ((NewGenerator (some rfcSeed)).TimeStep = 30 ∧
    (NewGenerator (some rfcSeed)).counter (-1) = some (Int.tdiv (-1) 30) ∧
    (NewGenerator (some rfcSeed)).counter 59 = some (Int.fdiv 59 30) ∧
    (NewGenerator (some rfcSeed)).Calculate 59 =
      calculateHotp sha1New (some rfcSeed) (Int.fdiv 59 30) ∧
    (Int.fdiv 31 30 = Int.fdiv 59 30 →
      (NewGenerator (some rfcSeed)).counter 31 = (NewGenerator (some rfcSeed)).counter 59 ∧
      (NewGenerator (some rfcSeed)).Calculate 31 =
        (NewGenerator (some rfcSeed)).Calculate 59)) :=
  ⟨by decide, by decide, by decide, by decide, by decide, by decide,
    time_bucketing (some rfcSeed) (-1) 59 31 (by decide) (by decide) (by decide)
      (by decide) (by decide) (by decide)⟩

/-- C7 (counterexample): one second before 1970 the counter is 0, not
`floor(-1 / 30) = -1`; and the timestamps -1 and -30 have the same floor but
get the counters 0 and -1, and different codes (755224 and 94451 at the seed
of the RFC 4226 test vectors). -/
theorem time_bucketing_counterexample :
    Int.fdiv (-1) 30 = -1 ∧ Int.fdiv (-30) 30 = -1 ∧
    (NewGenerator (some rfcSeed)).counter (-1) = some 0 ∧
    (NewGenerator (some rfcSeed)).counter (-30) = some (-1) ∧
    (NewGenerator (some rfcSeed)).Calculate (-1) = Res.ok 755224 ∧
    (NewGenerator (some rfcSeed)).Calculate (-30) = Res.ok 94451 := by
  decide

/-- C8 (as amended): `calculateHotp` with a nil seed returns the error "invalid
secret"; the empty seed string is not rejected: `Base32Secret` decodes it
without error to an empty seed that is not nil, and `Calculate` on the
generator made from it returns a code below 1,000,000 and no error. -/
theorem missing_seed (counter t : Int) :
    calculateHotp sha1New none counter = Res.err Error.invalidSecret ∧
    (NewGenerator none).Calculate t = Res.err Error.invalidSecret ∧
    Base32Secret [] = (some [], none) ∧
    ∃ code, (NewGenerator (Base32Secret []).1).Calculate t = Res.ok code ∧
      code < 1000000 := by
  refine ⟨rfl, ?_, by decide, ?_⟩
  · simp only [Generator.Calculate, Generator.counter, NewGenerator]
    simp [calculateHotp]
  · have hb : (Base32Secret []).1 = some [] := by decide
    rw [hb]
    simp only [Generator.Calculate, Generator.counter, NewGenerator]
    simp only [show ¬ ((30 : Int) = 0) by decide, if_false]
    generalize wrapInt64 (t.tdiv 30) = c
    obtain ⟨h1, _⟩ := calculateHotp_eq sha1New [] c (hmacSha1_length _ _)
    exact ⟨_, h1, dynamicTruncation_lt _⟩

/-- C8 (counterexample): from the empty seed string `Base32Secret` returns an
empty seed that is not nil and no error, and `Calculate` on the generator made
from it returns a code (328482 at the Unix time 0), not an invalid-secret
error. -/
theorem missing_seed_counterexample :
    Base32Secret [] = (some [], none) ∧
    (NewGenerator (Base32Secret []).1).Calculate 0 = Res.ok 328482 := by
  decide

/-- C11 (as amended): let `c` have at least 12 bytes when it starts with a valid
marker, at least 32 bytes when it does not and a passphrase is given, and at
least 64 bytes in a multiple of 16 when moreover its MAC verifies. Then
`ReadConfig` returns a database or one of the errors `DatabaseEncryptedError`,
`InvalidHMACError`, JSON error exactly when its assertion holds, and it aborts
exactly when its assertion fails: the MAC verifies and the decrypted content
does not start with a valid marker. Without a marker and without a passphrase the error is
`DatabaseEncryptedError`; with a passphrase whose MAC does not verify it is
`InvalidHMACError`. -/
theorem typed_read_failures (P : Prims) (hdec : P.DecryptSized) (c : List Nat)
    (k : Option (List Nat))
    (hplain : isValidMagicId (readAllBacking c) = Res.ok true → 12 ≤ c.length)
    (hkey : ∀ key, k = some key → isValidMagicId (readAllBacking c) = Res.ok false →
      32 ≤ c.length ∧
        (isHMACValid key c = Res.ok true → 64 ≤ c.length ∧ c.length % 16 = 0)) :
    (isTypedOutcome (ReadConfig P c k) = true ↔ ¬ assertionFails P c k) ∧
    (ReadConfig P c k = Res.crash ↔ assertionFails P c k) ∧
    (isValidMagicId (readAllBacking c) = Res.ok false → k = none →
      ReadConfig P c k = Res.err Error.databaseEncrypted) ∧
    (∀ key, k = some key → isValidMagicId (readAllBacking c) = Res.ok false →
      isHMACValid key c = Res.ok false → ReadConfig P c k = Res.err Error.invalidHMAC) := by
  have hout := ReadConfig_outcome P hdec c k hplain hkey
  refine ⟨?_, ⟨?_, assertionFails_crash P c k⟩, ?_, ?_⟩
  · constructor
    · intro ht ha
      exact isTypedOutcome_ne_crash _ ht (assertionFails_crash P c k ha)
    · intro hn
      rcases hout with h | h
      · exact h
      · exact absurd h hn
  · intro hc
    rcases hout with h | h
    · exact absurd hc (isTypedOutcome_ne_crash _ h)
    · exact h
  · intro hv hk
    rw [hk]
    exact ReadConfig_none P c hv
  · intro key hk hv hmac
    rw [hk]
    exact ReadConfig_mac_false P c key hv hmac

theorem typed_read_failures_witness :
    toyPrims.DecryptSized ∧
    (envelope toyPrims sampleDb samplePassword sampleIv (zeroPadding sampleDb)).length
      = 1648 ∧
    isValidMagicId (readAllBacking
      (envelope toyPrims sampleDb samplePassword sampleIv (zeroPadding sampleDb)))
      = Res.ok false ∧
    (isTypedOutcome (ReadConfig toyPrims
        (envelope toyPrims sampleDb samplePassword sampleIv (zeroPadding sampleDb))
        (some samplePassword)) = true ↔
      ¬ assertionFails toyPrims
        (envelope toyPrims sampleDb samplePassword sampleIv (zeroPadding sampleDb))
        (some samplePassword)) ∧
    (ReadConfig toyPrims
        (envelope toyPrims sampleDb samplePassword sampleIv (zeroPadding sampleDb))
        (some samplePassword) = Res.crash ↔
      assertionFails toyPrims
        (envelope toyPrims sampleDb samplePassword sampleIv (zeroPadding sampleDb))
        (some samplePassword)) := by
  have hl := envelope_length toyPrims toyPrims_lawful sampleDb samplePassword sampleIv
    (zeroPadding sampleDb) (by decide) (by decide)
  rw [show (paddedPlaintext (plainContainer sampleDb) (zeroPadding sampleDb)).length = 1600
    by decide] at hl
  have hv : isValidMagicId (readAllBacking
      (envelope toyPrims sampleDb samplePassword sampleIv (zeroPadding sampleDb)))
      = Res.ok false := by
    rw [isValidMagicId_readAllBacking _ (by rw [hl]; decide),
      isValidMagicId_envelope_eq toyPrims toyPrims_lawful sampleDb samplePassword sampleIv
        (zeroPadding sampleDb) (by decide) (by decide)]
    decide
  have h := typed_read_failures toyPrims toyPrims_decryptSized
    (envelope toyPrims sampleDb samplePassword sampleIv (zeroPadding sampleDb))
    (some samplePassword) (fun _ => by rw [hl]; decide)
    (fun _ _ _ => ⟨by rw [hl]; decide, fun _ => by rw [hl]; decide⟩)
  exact ⟨toyPrims_decryptSized, hl, hv, h.1, h.2.1⟩

/-- C11 (counterexample): `ReadConfig` aborts instead of returning a database or
an error: on the empty content with a passphrase (`isHMACValid` slices
`content[len(content)-32:]`); on the five bytes `pwdb1` without a passphrase
(`content[12:]`); on a 16-byte body with a valid MAC (the decrypted content is
empty and `getDbVersion` slices `b[:12]`); on a 17-byte body with a valid MAC
(`CryptBlocks` panics on a partial block); and, for every lawful block cipher,
on the sealed container of sixteen zero bytes, where the assertion fails. -/
theorem typed_read_failures_counterexample :
    isTypedOutcome Res.crash = false ∧
    isHMACValid [] [] = Res.crash ∧ getDbVersion [] = Res.crash ∧
    (∀ P : Prims, ReadConfig P [] (some []) = Res.crash) ∧
    (∀ P : Prims, ReadConfig P (ascii "pwdb1") none = Res.crash) ∧
    (∀ P : Prims,
      ReadConfig P (withMac samplePassword sampleIv) (some samplePassword) = Res.crash) ∧
    (∀ P : Prims, decrypt P samplePassword (sampleIv ++ [0]) = Res.crash ∧
      ReadConfig P (withMac samplePassword (sampleIv ++ [0])) (some samplePassword)
        = Res.crash) ∧
    (∀ P : Prims, P.Lawful →
      assertionFails P (sealedContainer P samplePassword sampleIv (List.replicate 16 0))
        (some samplePassword) ∧
      ReadConfig P (sealedContainer P samplePassword sampleIv (List.replicate 16 0))
        (some samplePassword) = Res.crash) := by
  have hiv : isValidMagicId sampleIv = Res.ok false := by decide
  have hd17 : ∀ P : Prims, decrypt P samplePassword (sampleIv ++ [0]) = Res.crash := by
    intro P
    have h1 : ¬ (sampleIv ++ [0]).length < fileIvSize := by decide
    have h2 : (List.drop fileIvSize (sampleIv ++ [0])).length % 16 ≠ 0 := by decide
    simp only [decrypt, if_neg h1, kdf_eq, cbcDecrypt, if_pos h2]
  refine ⟨rfl, rfl, rfl, ?_, ?_, ?_, ?_, ?_⟩
  · intro P
    have hv : isValidMagicId (readAllBacking []) = Res.ok false := by decide
    have hm : isHMACValid [] [] = Res.crash := rfl
    simp only [ReadConfig, hv, hm]
  · intro P
    have hv : isValidMagicId (readAllBacking (ascii "pwdb1")) = Res.ok true := by decide
    rw [ReadConfig_marker P _ _ hv]
    decide
  · intro P
    have hd : decrypt P samplePassword sampleIv = Res.ok [] := by
      have h := decrypt_eq P samplePassword sampleIv [] (by decide) (by decide)
      rw [List.append_nil] at h
      rw [h]
      rfl
    exact ReadConfig_withMac_short P samplePassword sampleIv [] (by decide) hiv hd rfl
  · intro P
    refine ⟨hd17 P, ReadConfig_withMac_crash P samplePassword (sampleIv ++ [0]) (by decide)
      ?_ (hd17 P)⟩
    decide
  · intro P hP
    have h := assertionFails_sealed P hP samplePassword sampleIv (List.replicate 16 0)
      (by decide) (by decide) hiv (by decide)
    exact ⟨h, assertionFails_crash P _ _ h⟩

/-- C12: for every string `s`, `Base32Secret(s)` is the standard base32
decoding of `s` right-padded with `=` up to the next multiple of 8 characters
(`s` itself when its length is a multiple of 8); and for every byte sequence
`k`, padding the standard encoding of `k` without its trailing `=` gives the
encoding back, and `Base32Secret` returns `k` and no error on it. The encoder
reproduces the RFC 4648 test value for `foobar`. -/
theorem base32_seed_padding (s k : List Nat) (hk : isBytes k = true) :
    Base32Secret s = (some (b32DecodeString (padToMultipleOf8 s)).1,
      if (b32DecodeString (padToMultipleOf8 s)).2 then some Error.base32 else none) ∧
    s <+: padToMultipleOf8 s ∧ (padToMultipleOf8 s).length % 8 = 0 ∧
    (padToMultipleOf8 s).length < s.length + 8 ∧
    (s.length % 8 = 0 → padToMultipleOf8 s = s) ∧
    (∀ c ∈ (padToMultipleOf8 s).drop s.length, c = 0x3D) ∧
    b32EncodeToString (ascii "foobar") = ascii "MZXW6YTBOI======" ∧
    b32DecodeString (b32EncodeToString k) = (k, false) ∧
    padToMultipleOf8 (trimPadding (b32EncodeToString k)) = b32EncodeToString k ∧
    Base32Secret (trimPadding (b32EncodeToString k)) = (some k, none) := by
  have hb := (isBytes_iff k).mp hk
  obtain ⟨p1, p2, p3, p4, p5⟩ := padToMultipleOf8_spec s
  have hd := b32DecodeString_encode k hb
  have hp := padToMultipleOf8_trimPadding k hb
  refine ⟨Base32Secret_eq s, p1, p2, p3, p4, p5, by decide, hd, hp, ?_⟩
  rw [Base32Secret_eq, hp, hd]
  rfl

theorem base32_seed_padding_witness :
    isBytes (ascii "foobar") = true ∧
    trimPadding (b32EncodeToString (ascii "foobar")) = ascii "MZXW6YTBOI" ∧
    padToMultipleOf8 (ascii "MZXW6YTBOI") = ascii "MZXW6YTBOI======" ∧
    Base32Secret (trimPadding (b32EncodeToString (ascii "foobar")))
      = (some (ascii "foobar"), none) :=
  ⟨by decide, by decide, by decide,
    (base32_seed_padding (ascii "MZXW6YTBOI") (ascii "foobar") (by decide)).2.2.2.2.2.2.2.2.2⟩

end Pwdb
